import Mathlib

/-!
# Verification of the fast-set transactional index library

Shallow embedding of the u32-based index structures of the repository
(`one_index.rs`, `flat_set_index.rs`, `tree.rs`, `node_set_index.rs`,
`interner.rs`) and proofs about them.  Node/key identifiers are `u32` in
the source; the operations never perform arithmetic on them, so they are
modelled by `ℕ`.  Rust hash maps are modelled by `FMap`: a finite key set
together with a valuation function.  Rust hash sets / roaring bitmaps are
modelled by `Finset ℕ`.  Iteration over a hash container, whose order is
unspecified in the source, is modelled by iterating over keys in
ascending order; all iterated bodies act independently per key.
-/

set_option maxHeartbeats 1000000
set_option linter.unusedSectionVars false

namespace FastSet

/-- Ordered insertion into a list, the building block of a computable,
kernel-reducible enumeration of a `Finset ℕ`. -/
def sortedInsert (k : ℕ) : List ℕ → List ℕ
  | [] => [k]
  | a :: t => if k ≤ a then k :: a :: t else a :: sortedInsert k t

theorem mem_sortedInsert (k x : ℕ) (l : List ℕ) :
    x ∈ sortedInsert k l ↔ x = k ∨ x ∈ l := by
  induction l with
  | nil => simp [sortedInsert]
  | cons a t ih =>
      unfold sortedInsert
      split
      · simp
      · simp only [List.mem_cons, ih]
        tauto

theorem nodup_sortedInsert (k : ℕ) (l : List ℕ) (hk : k ∉ l) (hl : l.Nodup) :
    (sortedInsert k l).Nodup := by
  induction l with
  | nil => simp [sortedInsert]
  | cons a t ih =>
      unfold sortedInsert
      split
      · exact List.nodup_cons.mpr ⟨hk, hl⟩
      · rw [List.nodup_cons] at hl
        refine List.nodup_cons.mpr ⟨?_, ?_⟩
        · rw [mem_sortedInsert]
          push_neg
          refine ⟨?_, hl.1⟩
          intro hak
          exact hk (by simp [hak])
        · exact ih (fun hm => hk (List.mem_cons_of_mem a hm)) hl.2

instance : LeftCommutative sortedInsert := by
  constructor
  intro a b l
  induction l with
  | nil =>
      by_cases hab : a ≤ b <;> by_cases hba : b ≤ a
      · have heq : a = b := le_antisymm hab hba
        subst heq
        rfl
      · simp [sortedInsert, hab, hba]
      · simp [sortedInsert, hab, hba]
      · omega
  | cons c t ih =>
      by_cases hac : a ≤ c <;> by_cases hbc : b ≤ c
      · by_cases hab : a ≤ b
        · by_cases hba : b ≤ a
          · have heq : a = b := le_antisymm hab hba
            subst heq
            rfl
          · simp [sortedInsert, hab, hba, hac, hbc]
        · have hba : b ≤ a := le_of_not_le hab
          simp [sortedInsert, hab, hba, hac, hbc]
      · have hab : a ≤ b := by omega
        have hnba : ¬ b ≤ a := by omega
        simp [sortedInsert, hac, hbc, hab, hnba]
      · have hba : b ≤ a := by omega
        have hnab : ¬ a ≤ b := by omega
        simp [sortedInsert, hac, hbc, hba, hnab]
      · simp [sortedInsert, hac, hbc, ih]

/-- Enumerate a `Finset ℕ` as a list (ascending); unlike `Finset.sort`
this reduces inside the kernel, so concrete states evaluate. -/
def sortList (s : Finset ℕ) : List ℕ :=
  Multiset.foldr sortedInsert [] s.val

theorem mem_foldr_sortedInsert (l : List ℕ) (x : ℕ) :
    x ∈ l.foldr sortedInsert [] ↔ x ∈ l := by
  induction l with
  | nil => simp
  | cons a t ih => simp [mem_sortedInsert, ih]

theorem nodup_foldr_sortedInsert (l : List ℕ) (h : l.Nodup) :
    (l.foldr sortedInsert []).Nodup := by
  induction l with
  | nil => simp
  | cons a t ih =>
      rw [List.nodup_cons] at h
      exact nodup_sortedInsert _ _
        (fun hm => h.1 ((mem_foldr_sortedInsert t a).mp hm)) (ih h.2)

theorem mem_sortList (s : Finset ℕ) (x : ℕ) : x ∈ sortList s ↔ x ∈ s := by
  rcases s with ⟨m, hnd⟩
  induction m using Quot.inductionOn with
  | h l => exact mem_foldr_sortedInsert l x

theorem nodup_sortList (s : Finset ℕ) : (sortList s).Nodup := by
  rcases s with ⟨m, hnd⟩
  induction m using Quot.inductionOn with
  | h l => exact nodup_foldr_sortedInsert l hnd

/-- Finite map from `ℕ` to `α`: a duplicate-free key list plus a valuation
(meaningful on the keys only).  Models Rust `IntMap`/`FxHashMap`. -/
structure FMap (α : Type) where
  keys : List ℕ
  nodup : keys.Nodup
  val : ℕ → α

namespace FMap

variable {α : Type}

/-- Membership-aware lookup, as Rust map `get`. -/
def lookup (m : FMap α) (k : ℕ) : Option α :=
  if k ∈ m.keys then some (m.val k) else none

/-- Map insert (set/replace the binding of `k`). -/
def ins (m : FMap α) (k : ℕ) (v : α) : FMap α :=
  ⟨if h : k ∈ m.keys then m.keys else k :: m.keys,
   by
     split
     · exact m.nodup
     · rename_i h
       exact List.nodup_cons.mpr ⟨h, m.nodup⟩,
   Function.update m.val k v⟩

/-- Map remove. -/
def del (m : FMap α) (k : ℕ) : FMap α :=
  ⟨m.keys.erase k, m.nodup.erase k, m.val⟩

/-- The empty map (with a default valuation). -/
def empty (d : α) : FMap α := ⟨[], List.nodup_nil, fun _ => d⟩

/-- Keys in iteration order, for modelling map iteration. -/
def keyList (m : FMap α) : List ℕ := m.keys

theorem mem_ins_keys (m : FMap α) (k q : ℕ) (v : α) :
    q ∈ (m.ins k v).keys ↔ q = k ∨ q ∈ m.keys := by
  unfold ins
  dsimp only
  split
  · rename_i h
    constructor
    · exact Or.inr
    · rintro (rfl | hq)
      · exact h
      · exact hq
  · simp

theorem mem_del_keys (m : FMap α) (k q : ℕ) :
    q ∈ (m.del k).keys ↔ q ≠ k ∧ q ∈ m.keys := by
  unfold del
  dsimp only
  exact m.nodup.mem_erase_iff

theorem ins_val_self (m : FMap α) (k : ℕ) (v : α) : (m.ins k v).val k = v :=
  Function.update_same _ _ _

theorem ins_val_ne (m : FMap α) (k q : ℕ) (v : α) (h : q ≠ k) :
    (m.ins k v).val q = m.val q :=
  Function.update_noteq h _ _

theorem del_val (m : FMap α) (k : ℕ) : (m.del k).val = m.val := rfl

theorem lookup_ins_self (m : FMap α) (k : ℕ) (v : α) :
    (m.ins k v).lookup k = some v := by
  rw [lookup, if_pos ((mem_ins_keys m k k v).mpr (Or.inl rfl)), ins_val_self]

theorem lookup_ins_ne (m : FMap α) (k q : ℕ) (v : α) (h : q ≠ k) :
    (m.ins k v).lookup q = m.lookup q := by
  unfold lookup
  rw [ins_val_ne _ _ _ _ h]
  by_cases hq : q ∈ m.keys
  · rw [if_pos hq, if_pos ((mem_ins_keys m k q v).mpr (Or.inr hq))]
  · rw [if_neg hq, if_neg (fun hc => hq (((mem_ins_keys m k q v).mp hc).resolve_left h))]

theorem lookup_del_self (m : FMap α) (k : ℕ) : (m.del k).lookup k = none := by
  rw [lookup, if_neg]
  rw [mem_del_keys]
  simp

theorem lookup_del_ne (m : FMap α) (k q : ℕ) (h : q ≠ k) :
    (m.del k).lookup q = m.lookup q := by
  unfold lookup
  rw [del_val]
  by_cases hq : q ∈ m.keys
  · rw [if_pos hq, if_pos ((mem_del_keys m k q).mpr ⟨h, hq⟩)]
  · rw [if_neg hq, if_neg (fun hc => hq ((mem_del_keys m k q).mp hc).2)]

theorem lookup_empty (d : α) (k : ℕ) : (empty d).lookup k = none := by
  simp [lookup, empty]

theorem mem_keys_iff_lookup_isSome (m : FMap α) (k : ℕ) :
    k ∈ m.keys ↔ (m.lookup k).isSome := by
  by_cases h : k ∈ m.keys <;> simp [lookup, h]

theorem lookup_eq_of_mem {m : FMap α} {k : ℕ} (h : k ∈ m.keys) :
    m.lookup k = some (m.val k) := by
  simp [lookup, h]

theorem lookup_eq_none_of_not_mem {m : FMap α} {k : ℕ} (h : k ∉ m.keys) :
    m.lookup k = none := by
  simp [lookup, h]

end FMap

/-! ## OneIndex (`src/u32based/one_index.rs`)

`OneIndex<V>` is a vector of optional slots plus a population count.
`OneIndexLog<V>` records per-key overrides `Option V`
(`some` = set/replace, `none` = clear). -/

variable {V : Type} [DecidableEq V]

/-- `OneIndex<V>`: `data: Vec<Option<V>>, len: usize`. -/
structure OneIndex (V : Type) where
  data : List (Option V)
  len : ℕ

/-- `OneIndex::new`. -/
def OneIndex.new : OneIndex V := ⟨[], 0⟩

/-- `OneIndex::get`: `self.data.get(index).and_then(|v| v.as_ref())`. -/
def OneIndex.get (t : OneIndex V) (index : ℕ) : Option V :=
  (t.data.get? index).bind id

/-- `OneIndexLog<V>`: a map from key to `Option V`. -/
def OneIndexLog (V : Type) : Type := FMap (Option V)

/-- `OneIndexLog::new`. -/
def OneIndexLog.new : OneIndexLog V := FMap.empty none

/-- `OneIndexLog::get`: log override if recorded, else base. -/
def OneIndexLog.get (log : OneIndexLog V) (base : OneIndex V) (index : ℕ) :
    Option V :=
  match FMap.lookup log index with
  | some v => v
  | none => base.get index

/-- `OneIndexLog::insert`: on a vacant log entry, record only if the value
differs from the base slot (`base.data.get(index).is_none_or(|v| *v != new)`);
on an occupied entry, overwrite. -/
def OneIndexLog.insert (log : OneIndexLog V) (base : OneIndex V) (index : ℕ)
    (value : V) : OneIndexLog V :=
  match FMap.lookup log index with
  | none =>
      if ∀ v ∈ base.data.get? index, v ≠ some value then
        FMap.ins log index (some value)
      else log
  | some _ => FMap.ins log index (some value)

/-- `OneIndexLog::remove`: on a vacant log entry, record only if the base
slot position exists (`base.data.get(index).is_some()`); on an occupied
entry, overwrite with `none`. -/
def OneIndexLog.remove (log : OneIndexLog V) (base : OneIndex V) (index : ℕ) :
    OneIndexLog V :=
  match FMap.lookup log index with
  | none =>
      if (base.data.get? index).isSome then FMap.ins log index none else log
  | some _ => FMap.ins log index none

/-- The `new_len` computation of `OneIndex::apply`: maximum of `k + 1` over
log entries holding a `some` override, `0` if there are none. -/
def OneIndex.applyNewLen (log : OneIndexLog V) : ℕ :=
  (log.keyList.filter (fun k => (FMap.lookup log k).join.isSome)).foldr
    (fun k m => max (k + 1) m) 0

/-- One fold step of `OneIndex::apply` (the body of the `for` loop over log
entries).  State is `(data, len, changes)`. -/
def OneIndex.applyStep (st : List (Option V) × ℕ × Bool) (index : ℕ)
    (value : Option V) : List (Option V) × ℕ × Bool :=
  match st, value with
  | (data, len, changes), some v =>
      let slot := data.getD index none
      if slot ≠ some v then
        (data.set index (some v), if slot = none then len + 1 else len, true)
      else (data, len, changes)
  | (data, len, changes), none =>
      if index < data.length then
        let old := data.getD index none
        (data.set index none,
         if old.isSome then len - 1 else len,
         changes || old.isSome)
      else (data, len, changes)

/-- The backing vector of `OneIndex::apply` after the initial
`resize_with(new_len, || None)` (performed only when the vector is shorter
than `new_len`). -/
def OneIndex.applyResized (t : OneIndex V) (log : OneIndexLog V) :
    List (Option V) :=
  let newLen := OneIndex.applyNewLen log
  if t.data.length < newLen then
    t.data ++ List.replicate (newLen - t.data.length) none
  else t.data

/-- `OneIndex::apply`: resize the vector to cover `some` overrides, then fold
the log entries; returns the updated index and the `changes` flag. -/
def OneIndex.apply (t : OneIndex V) (log : OneIndexLog V) :
    OneIndex V × Bool :=
  let res := log.keyList.foldl
    (fun st k => OneIndex.applyStep st k ((FMap.lookup log k).getD none))
    (OneIndex.applyResized t log, t.len, false)
  (⟨res.1, res.2.1⟩, res.2.2)

theorem foldr_max_ge {l : List ℕ} {k : ℕ} (h : k ∈ l) :
    k + 1 ≤ l.foldr (fun k m => max (k + 1) m) 0 := by
  induction l with
  | nil => cases h
  | cons a t ih =>
      rcases List.mem_cons.mp h with rfl | hm
      · exact le_max_left _ _
      · exact le_trans (ih hm) (le_max_right _ _)

theorem applyNewLen_ge {log : OneIndexLog V} {k : ℕ} {v : V}
    (h : FMap.lookup log k = some (some v)) :
    k + 1 ≤ OneIndex.applyNewLen log := by
  apply foldr_max_ge
  apply List.mem_filter.mpr
  constructor
  · have hk : k ∈ log.keys := by
      rw [FMap.mem_keys_iff_lookup_isSome, h]; rfl
    simpa [FMap.keyList] using hk
  · simp [h]

/-- **C10.** `OneIndex::apply` is total and in-bounds for every log: the
backing vector is resized to cover the maximum index among `some`
overrides, so every `some` override's index is within bounds of the
resized vector (justifying the source's `get_unchecked_mut`); and a `none`
override whose index is at or beyond the vector length is silently
ignored: no resize, no slot change, no `changed` signal. -/
theorem c10_oneindex_apply_inbounds (t : OneIndex V) (log : OneIndexLog V) :
    (∀ k v, FMap.lookup log k = some (some v) →
      k < (OneIndex.applyResized t log).length)
    ∧ (∀ k, t.data.length ≤ k →
        OneIndex.apply t (FMap.ins (FMap.empty none) k none) = (t, false)) := by
  constructor
  · intro k v h
    have hlen : k + 1 ≤ OneIndex.applyNewLen log := applyNewLen_ge h
    unfold OneIndex.applyResized
    by_cases hc : t.data.length < OneIndex.applyNewLen log
    · simp only [hc, if_true, List.length_append, List.length_replicate]
      omega
    · simp only [hc, if_false]
      omega
  · intro k hk
    have hkey : FMap.keyList (FMap.ins (FMap.empty none) k (none : Option V))
        = [k] := by
      simp [FMap.keyList, FMap.ins, FMap.empty]
    have hnl : OneIndex.applyNewLen (FMap.ins (FMap.empty none) k (none : Option V))
        = 0 := by
      simp [OneIndex.applyNewLen, hkey, FMap.lookup_ins_self]
    have hres : OneIndex.applyResized t (FMap.ins (FMap.empty none) k (none : Option V))
        = t.data := by
      simp [OneIndex.applyResized, hnl]
    simp [OneIndex.apply, hres, hkey, FMap.lookup_ins_self, OneIndex.applyStep,
      Nat.not_lt.mpr hk]

/-- Witness for C10 at a concrete input. -/
theorem c10_oneindex_apply_inbounds_witness :
    (3 : ℕ) < (OneIndex.applyResized (⟨[some 5], 1⟩ : OneIndex ℕ)
      (FMap.ins (FMap.empty none) 3 (some 7))).length
    ∧ OneIndex.apply (⟨[some 5], 1⟩ : OneIndex ℕ)
        (FMap.ins (FMap.empty none) 4 none) = (⟨[some 5], 1⟩, false) :=
  ⟨(c10_oneindex_apply_inbounds _ _).1 3 7 (FMap.lookup_ins_self _ _ _),
   (c10_oneindex_apply_inbounds (⟨[some 5], 1⟩ : OneIndex ℕ)
      (FMap.ins (FMap.empty none) 4 none)).2 4 (by decide)⟩

/-- **C8.** A spurious `OneIndexLog::insert` is invisible: if
`base.get k = some v` (value equality) then inserting `(k, v)` on a log
with no prior entry for `k` records nothing, and applying a log built
solely from such writes returns `false` and leaves the base (its slots and
its length) unchanged. -/
theorem c8_oneindex_spurious_insert (base : OneIndex V) :
    (∀ (log : OneIndexLog V) (k : ℕ) (v : V), base.get k = some v →
      FMap.lookup log k = none → OneIndexLog.insert log base k v = log)
    ∧ (∀ pairs : List (ℕ × V), (∀ p ∈ pairs, base.get p.1 = some p.2) →
        OneIndex.apply base
          (pairs.foldl (fun lg p => OneIndexLog.insert lg base p.1 p.2)
            OneIndexLog.new) = (base, false)) := by
  have hins : ∀ (log : OneIndexLog V) (k : ℕ) (v : V), base.get k = some v →
      FMap.lookup log k = none → OneIndexLog.insert log base k v = log := by
    intro log k v hv hnone
    unfold OneIndexLog.insert
    rw [hnone]
    have : base.data.get? k = some (some v) := by
      unfold OneIndex.get at hv
      rcases h : base.data.get? k with _ | s
      · rw [h] at hv; simp at hv
      · rw [h] at hv
        simpa using congrArg (fun o => some o) hv
    have hcond : ¬ (∀ w ∈ base.data.get? k, w ≠ some v) := by
      intro hc
      exact (hc (some v) (by rw [this]; exact rfl)) rfl
    rw [if_neg hcond]
  refine ⟨hins, ?_⟩
  intro pairs hp
  have hfold : pairs.foldl (fun lg p => OneIndexLog.insert lg base p.1 p.2)
      OneIndexLog.new = OneIndexLog.new := by
    induction pairs with
    | nil => rfl
    | cons a t ih =>
        have h1 : OneIndexLog.insert OneIndexLog.new base a.1 a.2
            = OneIndexLog.new :=
          hins _ _ _ (hp a (List.mem_cons_self a t)) (FMap.lookup_empty _ _)
        simp only [List.foldl_cons, h1]
        exact ih (fun p hm => hp p (List.mem_cons_of_mem a hm))
  rw [hfold]
  have hkey : FMap.keyList (OneIndexLog.new : OneIndexLog V) = [] := by
    simp [FMap.keyList, OneIndexLog.new, FMap.empty]
  have hnl : OneIndex.applyNewLen (OneIndexLog.new : OneIndexLog V) = 0 := by
    simp [OneIndex.applyNewLen, hkey]
  simp [OneIndex.apply, OneIndex.applyResized, hnl, hkey]

/-- Witness for C8 at a concrete input. -/
theorem c8_oneindex_spurious_insert_witness :
    OneIndex.apply (⟨[none, some 10], 1⟩ : OneIndex ℕ)
      ([(1, 10)].foldl
        (fun lg p => OneIndexLog.insert lg (⟨[none, some 10], 1⟩ : OneIndex ℕ) p.1 p.2)
        OneIndexLog.new) = (⟨[none, some 10], 1⟩, false) :=
  (c8_oneindex_spurious_insert _).2 [(1, 10)] (by
    intro p hp
    simp only [List.mem_singleton] at hp
    subst hp
    rfl)

/-! ## Set-valued map merge

The fold shared by `FlatSetIndex::apply`, `Tree::apply` (`apply_bitmap`)
and `NodeSetIndex::apply` (`apply_map`): per log entry, an empty set
removes the base key, a differing set replaces it, an equal set is a
no-op. -/

/-- Body of the merge loop for one `(k, b)` entry of the source map. -/
def applyBitmapStep (src : FMap (Finset ℕ)) (acc : FMap (Finset ℕ) × Bool)
    (k : ℕ) : FMap (Finset ℕ) × Bool :=
  let b := (src.lookup k).getD ∅
  match acc.1.lookup k with
  | some cur =>
      if b = ∅ then (acc.1.del k, true)
      else if b ≠ cur then (acc.1.ins k b, true)
      else acc
  | none => if b ≠ ∅ then (acc.1.ins k b, true) else acc

/-- The merge fold over all source entries. -/
def applyBitmap (target source : FMap (Finset ℕ)) : FMap (Finset ℕ) × Bool :=
  source.keyList.foldl (applyBitmapStep source) (target, false)

theorem applyBitmapStep_lookup_ne (src : FMap (Finset ℕ))
    (acc : FMap (Finset ℕ) × Bool) (k q : ℕ) (h : q ≠ k) :
    (applyBitmapStep src acc k).1.lookup q = acc.1.lookup q := by
  unfold applyBitmapStep
  rcases hl : acc.1.lookup k with _ | cur <;> simp only [hl]
  · split <;> simp [FMap.lookup_ins_ne _ _ _ _ h]
  · split
    · simp [FMap.lookup_del_ne _ _ _ h]
    · split <;> simp [FMap.lookup_ins_ne _ _ _ _ h]

theorem applyBitmapStep_lookup_self (src : FMap (Finset ℕ))
    (acc : FMap (Finset ℕ) × Bool) (k : ℕ) :
    (applyBitmapStep src acc k).1.lookup k =
      if (src.lookup k).getD ∅ = ∅ then none else some ((src.lookup k).getD ∅) := by
  by_cases hb : (src.lookup k).getD ∅ = ∅
  · rw [if_pos hb]
    rcases hl : acc.1.lookup k with _ | cur
    · simp [applyBitmapStep, hl, hb]
    · simp only [applyBitmapStep, hl, if_pos hb]
      exact FMap.lookup_del_self _ _
  · rw [if_neg hb]
    rcases hl : acc.1.lookup k with _ | cur
    · simp only [applyBitmapStep, hl, if_neg hb, if_pos hb]
      exact FMap.lookup_ins_self _ _ _
    · by_cases hc : (src.lookup k).getD ∅ = cur
      · simp only [applyBitmapStep, hl, if_neg hb, hc, ne_eq, not_true_eq_false,
          if_false]
        rw [hc] at hb
        rw [if_neg hb]
        exact hl
      · simp only [applyBitmapStep, hl, if_neg hb, ne_eq, hc, not_false_eq_true,
          if_true]
        exact FMap.lookup_ins_self _ _ _

theorem bitmapFold_lookup (src : FMap (Finset ℕ)) :
    ∀ (keys : List ℕ), keys.Nodup →
    ∀ (m0 : FMap (Finset ℕ)) (b0 : Bool) (q : ℕ),
      ((keys.foldl (applyBitmapStep src) (m0, b0)).1.lookup q) =
        if q ∈ keys then
          (if (src.lookup q).getD ∅ = ∅ then none else some ((src.lookup q).getD ∅))
        else m0.lookup q := by
  intro keys
  induction keys with
  | nil => intro _ m0 b0 q; simp
  | cons k rest ih =>
      intro hnd m0 b0 q
      have hndr : rest.Nodup := hnd.of_cons
      have hknr : k ∉ rest := by
        intro hc; exact (List.nodup_cons.mp hnd).1 hc
      simp only [List.foldl_cons]
      have hstep := ih hndr (applyBitmapStep src (m0, b0) k).1
        (applyBitmapStep src (m0, b0) k).2 q
      rw [Prod.mk.eta] at hstep
      rw [hstep]
      by_cases hqr : q ∈ rest
      · simp [hqr]
      · by_cases hqk : q = k
        · subst hqk
          simp [hqr, applyBitmapStep_lookup_self]
        · simp [hqr, hqk, applyBitmapStep_lookup_ne src _ _ _ hqk]

/-- `FlatSetIndex` over `u32` keys (`U32FlatSetIndex`): the key map (values
are interned sets, modelled by their set value) plus the distinguished
none bucket (`none` field of the source). -/
structure FlatSetIndex where
  map : FMap (Finset ℕ)
  noneB : Finset ℕ

/-- `FlatSetIndex::get`: stored set, or the default (empty) interned set. -/
def FlatSetIndex.get (t : FlatSetIndex) (k : ℕ) : Finset ℕ :=
  (t.map.lookup k).getD ∅

/-- `FlatSetIndex::contains`: `self.map.get(k).is_some_and(|b| b.contains(val))`. -/
def FlatSetIndex.contains (t : FlatSetIndex) (k v : ℕ) : Prop :=
  ∃ b, t.map.lookup k = some b ∧ v ∈ b

/-- `FlatSetIndex::contains_none`. -/
def FlatSetIndex.containsNone (t : FlatSetIndex) (v : ℕ) : Prop :=
  v ∈ t.noneB

/-- `FlatSetIndexLog`: key map of owned sets plus optional owned none
bucket; absent means read-through to the base. -/
structure FlatSetIndexLog where
  map : FMap (Finset ℕ)
  noneB : Option (Finset ℕ)

/-- `FlatSetIndexLog::get`: log override if present, else base. -/
def FlatSetIndexLog.get (log : FlatSetIndexLog) (base : FlatSetIndex)
    (k : ℕ) : Finset ℕ :=
  match log.map.lookup k with
  | some s => s
  | none => base.get k

/-- `FlatSetIndexLog::contains`. -/
def FlatSetIndexLog.contains (log : FlatSetIndexLog) (base : FlatSetIndex)
    (k v : ℕ) : Prop :=
  match log.map.lookup k with
  | some s => v ∈ s
  | none => base.contains k v

/-- `FlatSetIndexLog::none`: the none bucket as seen through the overlay. -/
def FlatSetIndexLog.noneView (log : FlatSetIndexLog) (base : FlatSetIndex) :
    Finset ℕ :=
  log.noneB.getD base.noneB

/-- `FlatSetIndexLog::contains_none`. -/
def FlatSetIndexLog.containsNone (log : FlatSetIndexLog) (base : FlatSetIndex)
    (v : ℕ) : Prop :=
  v ∈ log.noneView base

/-- `FlatSetIndex::apply`: merge the key map entries (empty removes,
different replaces after interning, equal is a no-op), then install the
none bucket if it differs. -/
def FlatSetIndex.apply (t : FlatSetIndex) (log : FlatSetIndexLog) :
    FlatSetIndex × Bool :=
  let res := applyBitmap t.map log.map
  match log.noneB with
  | some s =>
      if t.noneB ≠ s then (⟨res.1, s⟩, true) else (⟨res.1, t.noneB⟩, res.2)
  | none => (⟨res.1, t.noneB⟩, res.2)

theorem flat_apply_map_lookup (t : FlatSetIndex) (log : FlatSetIndexLog)
    (q : ℕ) :
    (t.apply log).1.map.lookup q =
      match log.map.lookup q with
      | some v => if v = ∅ then none else some v
      | none => t.map.lookup q := by
  have hmap : (t.apply log).1.map = (applyBitmap t.map log.map).1 := by
    unfold FlatSetIndex.apply
    rcases log.noneB with _ | s
    · rfl
    · dsimp only
      split <;> rfl
  rw [hmap]
  unfold applyBitmap
  rw [bitmapFold_lookup log.map log.map.keyList log.map.nodup]
  by_cases hq : q ∈ log.map.keys
  · have hmem : q ∈ log.map.keyList := by
      simpa [FMap.keyList] using hq
    rw [if_pos hmem]
    have : log.map.lookup q = some (log.map.val q) := by simp [FMap.lookup, hq]
    rw [this]
    rfl
  · have hmem : q ∉ log.map.keyList := by
      simpa [FMap.keyList] using hq
    rw [if_neg hmem]
    have : log.map.lookup q = none := by simp [FMap.lookup, hq]
    rw [this]

theorem flat_apply_noneB (t : FlatSetIndex) (log : FlatSetIndexLog) :
    (t.apply log).1.noneB = log.noneB.getD t.noneB := by
  unfold FlatSetIndex.apply
  rcases log.noneB with _ | s
  · rfl
  · dsimp only
    by_cases h : t.noneB = s
    · rw [if_neg (by simp [h])]
      simp [h]
    · rw [if_pos h]
      rfl

/-- **C6.** Overlay read-through equals apply for `FlatSetIndex`: for every
base and every log built against it, each of the queries `get`, `contains`,
`none` and `contains_none` answered on the `(base, log)` overlay equals the
same query answered on the base obtained by cloning the base and applying
the log to the clone. -/
theorem c6_flat_overlay_read_through (base : FlatSetIndex)
    (log : FlatSetIndexLog) :
    (∀ k, log.get base k = (base.apply log).1.get k)
    ∧ (∀ k v, log.contains base k v ↔ (base.apply log).1.contains k v)
    ∧ log.noneView base = (base.apply log).1.noneB
    ∧ (∀ v, log.containsNone base v ↔ (base.apply log).1.containsNone v) := by
  have hget : ∀ k, log.get base k = (base.apply log).1.get k := by
    intro k
    unfold FlatSetIndexLog.get FlatSetIndex.get
    rw [flat_apply_map_lookup]
    rcases h : log.map.lookup k with _ | v
    · rfl
    · dsimp only
      by_cases hv : v = ∅
      · simp [hv, FlatSetIndex.get]
      · simp [hv]
  have hnone : log.noneView base = (base.apply log).1.noneB := by
    rw [flat_apply_noneB]; rfl
  refine ⟨hget, ?_, hnone, ?_⟩
  · intro k v
    unfold FlatSetIndexLog.contains FlatSetIndex.contains
    rw [flat_apply_map_lookup]
    rcases h : log.map.lookup k with _ | s
    · exact Iff.rfl
    · dsimp only
      by_cases hs : s = ∅
      · simp [hs]
      · simp [hs]
  · intro v
    unfold FlatSetIndexLog.containsNone FlatSetIndex.containsNone
    rw [hnone]

/-- Witness for C6 at a concrete input. -/
theorem c6_flat_overlay_read_through_witness :
    (FlatSetIndexLog.get ⟨FMap.ins (FMap.empty ∅) 1 {4, 5}, some {9}⟩
        ⟨FMap.ins (FMap.empty ∅) 1 {4}, ∅⟩ 1
      = (FlatSetIndex.apply ⟨FMap.ins (FMap.empty ∅) 1 {4}, ∅⟩
          ⟨FMap.ins (FMap.empty ∅) 1 {4, 5}, some {9}⟩).1.get 1) :=
  (c6_flat_overlay_read_through _ _).1 1

/-! ## Interner (`src/interner.rs`)

The process-wide interner is a mutex-protected table mapping payloads to
reference counts, driven by `intern(v)`, handle `clone` and handle `drop`.
Payload allocations are modelled by numeric ids (`next` is the fresh-id
counter), the table by `entries : id → (payload value, refcount)`.
`idVal` permanently records each allocated id's payload and `live` counts
the live handles per id; both model the program environment (which handles
exist), not interner state. -/

/-- Interner state plus the handle environment. -/
structure IState where
  next : ℕ
  entries : FMap (Finset ℕ × ℕ)
  idVal : FMap (Finset ℕ)
  live : ℕ → ℕ

/-- One interner operation: `intern(v)`, `clone` of a handle to allocation
`id`, or `drop` of a handle to allocation `id`. -/
inductive IOp where
  | intern (v : Finset ℕ)
  | cloneH (id : ℕ)
  | dropH (id : ℕ)

/-- The table lookup of `intern`: find the allocation holding value `v`
(`gate.get_key_value(q)`, keyed by payload equality). -/
def internFind (s : IState) (v : Finset ℕ) : Option ℕ :=
  s.entries.keyList.find? (fun id => (s.entries.val id).1 = v)

/-- One step of the interner model.  `intern`: on hit increment the
refcount, on miss insert a fresh allocation with refcount 1; either way a
new live handle is produced.  `clone`: increment the matching refcount
(`if let Some(count) = gate.get_mut(&self.0)`); a new live handle is
produced.  `drop`: decrement; at zero remove the entry; the handle dies. -/
def istep (s : IState) : IOp → IState
  | .intern v =>
      match internFind s v with
      | some id =>
          { s with
            entries := s.entries.ins id (v, (s.entries.val id).2 + 1),
            live := Function.update s.live id (s.live id + 1) }
      | none =>
          { next := s.next + 1,
            entries := s.entries.ins s.next (v, 1),
            idVal := s.idVal.ins s.next v,
            live := Function.update s.live s.next (s.live s.next + 1) }
  | .cloneH id =>
      match s.entries.lookup id with
      | some (v, c) =>
          { s with
            entries := s.entries.ins id (v, c + 1),
            live := Function.update s.live id (s.live id + 1) }
      | none => { s with live := Function.update s.live id (s.live id + 1) }
  | .dropH id =>
      match s.entries.lookup id with
      | some (v, c) =>
          if c - 1 = 0 then
            { s with
              entries := s.entries.del id,
              live := Function.update s.live id (s.live id - 1) }
          else
            { s with
              entries := s.entries.ins id (v, c - 1),
              live := Function.update s.live id (s.live id - 1) }
      | none => { s with live := Function.update s.live id (s.live id - 1) }

/-- The initial state: empty interner, no live handles. -/
def istart : IState := ⟨0, FMap.empty (∅, 0), FMap.empty ∅, fun _ => 0⟩

/-- The liveness precondition of an operation: `clone`/`drop` act on a
live handle. -/
def opOK (s : IState) : IOp → Prop
  | .intern _ => True
  | .cloneH id => 1 ≤ s.live id
  | .dropH id => 1 ≤ s.live id

/-- A trace is valid if every `clone`/`drop` acts on a live handle. -/
def validFrom (s : IState) : List IOp → Bool
  | [] => true
  | op :: rest =>
      (match op with
       | .intern _ => true
       | .cloneH id => decide (1 ≤ s.live id)
       | .dropH id => decide (1 ≤ s.live id))
      && validFrom (istep s op) rest

/-- Run a trace from a state. -/
def irun (s : IState) (ops : List IOp) : IState := ops.foldl istep s

/-- Number of live handles to allocations holding value `v`. -/
def liveVal (s : IState) (v : Finset ℕ) : ℕ :=
  ∑ id ∈ Finset.range s.next,
    (if s.idVal.lookup id = some v then s.live id else 0)

/-- The interner state invariant: every table entry's refcount equals its
live-handle count (and is positive), ids are below the fresh counter and
agree with the allocation record, every live handle's allocation is in the
table, and distinct entries hold distinct payload values. -/
def IInv (s : IState) : Prop :=
  (∀ id ∈ s.entries.keys,
     id < s.next ∧ (s.entries.val id).2 = s.live id ∧ 1 ≤ s.live id
       ∧ s.idVal.lookup id = some (s.entries.val id).1)
  ∧ (∀ id, 1 ≤ s.live id → id ∈ s.entries.keys)
  ∧ (∀ id, s.next ≤ id → s.live id = 0 ∧ id ∉ s.entries.keys)

theorem internFind_some {s : IState} {v : Finset ℕ} {id : ℕ}
    (h : internFind s v = some id) :
    id ∈ s.entries.keys ∧ (s.entries.val id).1 = v := by
  unfold internFind at h
  have hmem := List.mem_of_find?_eq_some h
  have hp := List.find?_some h
  constructor
  · simpa [FMap.keyList] using hmem
  · exact of_decide_eq_true hp

theorem internFind_none {s : IState} {v : Finset ℕ}
    (h : internFind s v = none) :
    ∀ id ∈ s.entries.keys, (s.entries.val id).1 ≠ v := by
  intro id hid
  have : id ∈ s.entries.keyList := by simpa [FMap.keyList] using hid
  have := List.find?_eq_none.mp h id this
  simpa using this

theorem iinv_start : IInv istart := by
  refine ⟨?_, ?_, ?_⟩
  · intro id hid
    simp [istart, FMap.empty] at hid
  · intro id hl
    simp [istart] at hl
  · intro id _
    simp [istart, FMap.empty]

/-- At most one interner entry per distinct payload value. -/
def IUniq (s : IState) : Prop :=
  ∀ id₁ ∈ s.entries.keys, ∀ id₂ ∈ s.entries.keys,
    (s.entries.val id₁).1 = (s.entries.val id₂).1 → id₁ = id₂

theorem iuniq_start : IUniq istart := by
  intro id₁ h₁
  simp [istart, FMap.empty] at h₁

/-- Validity of the head operation of a valid trace. -/
theorem validFrom_cons {s : IState} {op : IOp} {rest : List IOp}
    (h : validFrom s (op :: rest) = true) :
    opOK s op ∧ validFrom (istep s op) rest = true := by
  unfold validFrom at h
  rcases op with v | id | id
  · exact ⟨trivial, (Bool.and_eq_true _ _ |>.mp h).2⟩
  · have hh := Bool.and_eq_true _ _ |>.mp h
    have hl : 1 ≤ s.live id := of_decide_eq_true hh.1
    exact ⟨hl, hh.2⟩
  · have hh := Bool.and_eq_true _ _ |>.mp h
    have hl : 1 ≤ s.live id := of_decide_eq_true hh.1
    exact ⟨hl, hh.2⟩

theorem ibump_preserves {s : IState} {id c' : ℕ}
    (hinv : IInv s) (huniq : IUniq s) (hmem : id ∈ s.entries.keys)
    (hpos : 1 ≤ c') :
    IInv { s with
           entries := s.entries.ins id ((s.entries.val id).1, c'),
           live := Function.update s.live id c' }
    ∧ IUniq { s with
              entries := s.entries.ins id ((s.entries.val id).1, c'),
              live := Function.update s.live id c' } := by
  obtain ⟨h1, h2, h3⟩ := hinv
  obtain ⟨hlt, hcount, hlive, hival⟩ := h1 id hmem
  refine ⟨⟨?_, ?_, ?_⟩, ?_⟩ <;> dsimp only
  · intro j hj
    rw [FMap.mem_ins_keys] at hj
    have hj' : j ∈ s.entries.keys := by
      rcases hj with rfl | hj
      · exact hmem
      · exact hj
    obtain ⟨hlt', hcount', hlive', hival'⟩ := h1 j hj'
    by_cases hne : j = id
    · subst hne
      refine ⟨hlt', ?_, ?_, ?_⟩
      · rw [FMap.ins_val_self, Function.update_same]
      · rw [Function.update_same]; exact hpos
      · rw [FMap.ins_val_self]
        exact hival'
    · refine ⟨hlt', ?_, ?_, ?_⟩
      · rw [FMap.ins_val_ne _ _ _ _ hne, Function.update_noteq hne]
        exact hcount'
      · rw [Function.update_noteq hne]
        exact hlive'
      · rw [FMap.ins_val_ne _ _ _ _ hne]
        exact hival'
  · intro j hj
    rw [FMap.mem_ins_keys]
    by_cases hne : j = id
    · exact Or.inl hne
    · rw [Function.update_noteq hne] at hj
      exact Or.inr (h2 j hj)
  · intro j hj
    have hne : j ≠ id := by omega
    have hold := h3 j hj
    rw [Function.update_noteq hne, FMap.mem_ins_keys]
    exact ⟨hold.1, by simp [hne, hold.2]⟩
  · intro j₁ hj₁ j₂ hj₂ hv
    rw [FMap.mem_ins_keys] at hj₁ hj₂
    have hj₁' : j₁ ∈ s.entries.keys := by
      rcases hj₁ with rfl | h
      · exact hmem
      · exact h
    have hj₂' : j₂ ∈ s.entries.keys := by
      rcases hj₂ with rfl | h
      · exact hmem
      · exact h
    apply huniq j₁ hj₁' j₂ hj₂'
    by_cases he₁ : j₁ = id <;> by_cases he₂ : j₂ = id
    · subst he₁; subst he₂; rfl
    · subst he₁
      rw [FMap.ins_val_self, FMap.ins_val_ne _ _ _ _ he₂] at hv
      exact hv
    · subst he₂
      rw [FMap.ins_val_self, FMap.ins_val_ne _ _ _ _ he₁] at hv
      exact hv
    · rw [FMap.ins_val_ne _ _ _ _ he₁, FMap.ins_val_ne _ _ _ _ he₂] at hv
      exact hv

theorem ifresh_preserves {s : IState} {v : Finset ℕ}
    (hinv : IInv s) (huniq : IUniq s)
    (hnone : ∀ id ∈ s.entries.keys, (s.entries.val id).1 ≠ v) :
    IInv { next := s.next + 1,
           entries := s.entries.ins s.next (v, 1),
           idVal := s.idVal.ins s.next v,
           live := Function.update s.live s.next (s.live s.next + 1) }
    ∧ IUniq { next := s.next + 1,
              entries := s.entries.ins s.next (v, 1),
              idVal := s.idVal.ins s.next v,
              live := Function.update s.live s.next (s.live s.next + 1) } := by
  obtain ⟨h1, h2, h3⟩ := hinv
  have hfresh := h3 s.next le_rfl
  refine ⟨⟨?_, ?_, ?_⟩, ?_⟩ <;> dsimp only
  · intro j hj
    rw [FMap.mem_ins_keys] at hj
    rcases hj with rfl | hj
    · refine ⟨Nat.lt_succ_self _, ?_, ?_, ?_⟩
      · rw [FMap.ins_val_self, Function.update_same, hfresh.1]
      · rw [Function.update_same]; omega
      · rw [FMap.ins_val_self, FMap.lookup_ins_self]
    · obtain ⟨hlt, hcount, hlive, hival⟩ := h1 j hj
      have hne : j ≠ s.next := Nat.ne_of_lt hlt
      refine ⟨Nat.lt_succ_of_lt hlt, ?_, ?_, ?_⟩
      · rw [FMap.ins_val_ne _ _ _ _ hne, Function.update_noteq hne]
        exact hcount
      · rw [Function.update_noteq hne]
        exact hlive
      · rw [FMap.lookup_ins_ne _ _ _ _ hne, FMap.ins_val_ne _ _ _ _ hne]
        exact hival
  · intro j hj
    rw [FMap.mem_ins_keys]
    by_cases hne : j = s.next
    · exact Or.inl hne
    · rw [Function.update_noteq hne] at hj
      exact Or.inr (h2 j hj)
  · intro j hj
    have hne : j ≠ s.next := by omega
    have hold := h3 j (by omega)
    rw [Function.update_noteq hne, FMap.mem_ins_keys]
    exact ⟨hold.1, by simp [hne, hold.2]⟩
  · intro j₁ hj₁ j₂ hj₂ hv
    rw [FMap.mem_ins_keys] at hj₁ hj₂
    rcases hj₁ with rfl | hj₁ <;> rcases hj₂ with rfl | hj₂
    · rfl
    · exfalso
      rw [FMap.ins_val_self,
        FMap.ins_val_ne _ _ _ _ (Nat.ne_of_lt (h1 j₂ hj₂).1)] at hv
      exact hnone j₂ hj₂ hv.symm
    · exfalso
      rw [FMap.ins_val_self,
        FMap.ins_val_ne _ _ _ _ (Nat.ne_of_lt (h1 j₁ hj₁).1)] at hv
      exact hnone j₁ hj₁ hv
    · rw [FMap.ins_val_ne _ _ _ _ (Nat.ne_of_lt (h1 j₁ hj₁).1),
        FMap.ins_val_ne _ _ _ _ (Nat.ne_of_lt (h1 j₂ hj₂).1)] at hv
      exact huniq j₁ hj₁ j₂ hj₂ hv

theorem idel_preserves {s : IState} {id : ℕ}
    (hinv : IInv s) (huniq : IUniq s) (hmem : id ∈ s.entries.keys) :
    IInv { s with
           entries := s.entries.del id,
           live := Function.update s.live id 0 }
    ∧ IUniq { s with
              entries := s.entries.del id,
              live := Function.update s.live id 0 } := by
  obtain ⟨h1, h2, h3⟩ := hinv
  obtain ⟨hlt, hcount, hlive, hival⟩ := h1 id hmem
  refine ⟨⟨?_, ?_, ?_⟩, ?_⟩ <;> dsimp only
  · intro j hj
    rw [FMap.mem_del_keys] at hj
    obtain ⟨hlt', hcount', hlive', hival'⟩ := h1 j hj.2
    refine ⟨hlt', ?_, ?_, ?_⟩
    · rw [FMap.del_val, Function.update_noteq hj.1]
      exact hcount'
    · rw [Function.update_noteq hj.1]
      exact hlive'
    · rw [FMap.del_val]
      exact hival'
  · intro j hj
    by_cases hne : j = id
    · subst hne
      rw [Function.update_same] at hj
      omega
    · rw [Function.update_noteq hne] at hj
      rw [FMap.mem_del_keys]
      exact ⟨hne, h2 j hj⟩
  · intro j hj
    have hne : j ≠ id := by omega
    have hold := h3 j hj
    rw [Function.update_noteq hne, FMap.mem_del_keys]
    exact ⟨hold.1, by simp [hold.2]⟩
  · intro j₁ hj₁ j₂ hj₂ hv
    rw [FMap.mem_del_keys] at hj₁ hj₂
    rw [FMap.del_val] at hv
    exact huniq j₁ hj₁.2 j₂ hj₂.2 hv

theorem istep_preserves {s : IState} {op : IOp} (hinv : IInv s) (huniq : IUniq s)
    (hok : opOK s op) :
    IInv (istep s op) ∧ IUniq (istep s op) := by
  rcases op with v | id | id
  · rcases hf : internFind s v with _ | id
    · have hnone := internFind_none hf
      have hstate : istep s (.intern v)
          = { next := s.next + 1,
              entries := s.entries.ins s.next (v, 1),
              idVal := s.idVal.ins s.next v,
              live := Function.update s.live s.next (s.live s.next + 1) } := by
        simp only [istep, hf]
      rw [hstate]
      exact ifresh_preserves hinv huniq hnone
    · obtain ⟨hmem, hval⟩ := internFind_some hf
      have hcount := ((hinv.1) id hmem).2.1
      have hstate : istep s (.intern v)
          = { s with
              entries := s.entries.ins id ((s.entries.val id).1,
                (s.entries.val id).2 + 1),
              live := Function.update s.live id ((s.entries.val id).2 + 1) } := by
        simp only [istep, hf, hval, hcount]
      rw [hstate]
      exact ibump_preserves hinv huniq hmem (by omega)
  · have hmem : id ∈ s.entries.keys := hinv.2.1 id hok
    have hcount := ((hinv.1) id hmem).2.1
    have hlk : s.entries.lookup id = some (s.entries.val id) :=
      FMap.lookup_eq_of_mem hmem
    have hstate : istep s (.cloneH id)
        = { s with
            entries := s.entries.ins id ((s.entries.val id).1,
              (s.entries.val id).2 + 1),
            live := Function.update s.live id ((s.entries.val id).2 + 1) } := by
      simp only [istep, hlk, hcount]
    rw [hstate]
    exact ibump_preserves hinv huniq hmem (by omega)
  · have hmem : id ∈ s.entries.keys := hinv.2.1 id hok
    have hcount := ((hinv.1) id hmem).2.1
    have hlk : s.entries.lookup id = some (s.entries.val id) :=
      FMap.lookup_eq_of_mem hmem
    have hok' : 1 ≤ s.live id := hok
    by_cases hz : (s.entries.val id).2 - 1 = 0
    · have hone : s.live id = 1 := by omega
      have hstate : istep s (.dropH id)
          = { s with
              entries := s.entries.del id,
              live := Function.update s.live id 0 } := by
        simp only [istep, hlk, if_pos hz, hone]
      rw [hstate]
      exact idel_preserves hinv huniq hmem
    · have hz' : ¬ s.live id - 1 = 0 := by omega
      have hstate : istep s (.dropH id)
          = { s with
              entries := s.entries.ins id ((s.entries.val id).1,
                (s.entries.val id).2 - 1),
              live := Function.update s.live id ((s.entries.val id).2 - 1) } := by
        simp only [istep, hlk, hcount, if_neg hz']
      rw [hstate]
      exact ibump_preserves hinv huniq hmem (by omega)

theorem irun_preserves {ops : List IOp} :
    ∀ {s : IState}, IInv s → IUniq s → validFrom s ops = true →
      IInv (irun s ops) ∧ IUniq (irun s ops) := by
  induction ops with
  | nil => intro s hi hu _; exact ⟨hi, hu⟩
  | cons op rest ih =>
      intro s hi hu hv
      obtain ⟨hop, hrest⟩ := validFrom_cons hv
      obtain ⟨hi', hu'⟩ := istep_preserves hi hu hop
      exact ih hi' hu' hrest

theorem validFrom_append {pre suf : List IOp} :
    ∀ {s : IState}, validFrom s (pre ++ suf) = true →
      validFrom s pre = true ∧ validFrom (irun s pre) suf = true := by
  induction pre with
  | nil => intro s h; exact ⟨rfl, h⟩
  | cons op rest ih =>
      intro s h
      rw [List.cons_append] at h
      obtain ⟨hop, htail⟩ := validFrom_cons h
      obtain ⟨h₁, h₂⟩ := ih htail
      constructor
      · unfold validFrom
        rcases op with v | id | id
        · simpa using h₁
        · simp only [Bool.and_eq_true, decide_eq_true_eq]
          exact ⟨hop, h₁⟩
        · simp only [Bool.and_eq_true, decide_eq_true_eq]
          exact ⟨hop, h₁⟩
      · exact h₂

/-- **C9.** Interner refcount balance: for every valid trace of
`intern`/`clone`/`drop` operations from the empty interner in which the
handle creations for value `v` are balanced by an equal number of drops
(no live handle to `v` remains; `v` is not the process-wide default empty
set, which is an undropped handle), the final interner holds no entry for
`v`; and after every prefix of the trace at most one entry exists per
distinct payload value. -/
theorem c9_interner_refcount_balance (ops : List IOp) (v : Finset ℕ)
    (hvalid : validFrom istart ops = true)
    (hbal : liveVal (irun istart ops) v = 0) (hnd : v ≠ ∅) :
    (∀ id ∈ (irun istart ops).entries.keys,
        ((irun istart ops).entries.val id).1 ≠ v)
    ∧ (∀ pre suf, ops = pre ++ suf → IUniq (irun istart pre)) := by
  clear hnd
  constructor
  · intro id hid hval
    obtain ⟨hinv, _⟩ := irun_preserves iinv_start iuniq_start hvalid
    obtain ⟨h1, _, _⟩ := hinv
    obtain ⟨hlt, hcount, hlive, hival⟩ := h1 id hid
    rw [hval] at hival
    have hle : (irun istart ops).live id ≤ liveVal (irun istart ops) v := by
      unfold liveVal
      have := Finset.single_le_sum
        (f := fun j => if (irun istart ops).idVal.lookup j = some v
          then (irun istart ops).live j else 0)
        (fun j _ => Nat.zero_le _) (Finset.mem_range.mpr hlt)
      simpa [hival] using this
    omega
  · intro pre suf heq
    subst heq
    obtain ⟨hpre, _⟩ := validFrom_append hvalid
    exact (irun_preserves iinv_start iuniq_start hpre).2

/-- Witness for C9 at a concrete trace: intern `{1}`, clone it, drop both
handles; the final interner holds no entry (allocation 0 is gone). -/
theorem c9_interner_refcount_balance_witness :
    (irun istart
      [IOp.intern {1}, IOp.cloneH 0, IOp.dropH 0,
        IOp.dropH 0]).entries.lookup 0 = none := by
  have h := (c9_interner_refcount_balance
    [IOp.intern {1}, IOp.cloneH 0, IOp.dropH 0, IOp.dropH 0] {1}
    (by decide) (by decide) (by decide)).1
  exact FMap.lookup_eq_none_of_not_mem (fun hm => (h 0 hm) (by decide))

/-! ## Tree (`src/u32based/tree.rs`)

`Tree` stores `children`, `cycles`, `descendants` and `parents`; `TreeLog`
is the copy-on-write overlay.  The `while let` walks of the source carry a
visited set and are modelled with explicit fuel; the fuel passed at each
call site (`fuelFor`) exceeds the number of parent entries, which bounds
the number of loop iterations, so the modelled walks run to their `break`
or `None` exactly as the source loops do. -/

/-- `Tree`: the committed base state. -/
structure Tree where
  children : FMap (Finset ℕ)
  cycles : Finset ℕ
  descendants : FMap (Finset ℕ)
  parents : FMap ℕ

/-- `TreeLog`: the staged overlay. -/
structure TreeLog where
  children : FMap (Finset ℕ)
  cycles : Option (Finset ℕ)
  descendants : FMap (Finset ℕ)
  parents : FMap (Option ℕ)

/-- `RemoveItem`: the evacuated state of one subtree node. -/
structure RemoveItem where
  children : Finset ℕ
  descendants : Finset ℕ
  parent : Option ℕ

instance : Inhabited RemoveItem := ⟨⟨∅, ∅, none⟩⟩

/-- `Tree::new` / `Tree::default`. -/
def Tree.new : Tree := ⟨FMap.empty ∅, ∅, FMap.empty ∅, FMap.empty 0⟩

/-- `TreeLog::new` / `TreeLog::default`. -/
def TreeLog.new : TreeLog := ⟨FMap.empty ∅, none, FMap.empty ∅, FMap.empty none⟩

/-- `Tree::children`: stored set or the empty default. -/
def Tree.childrenOf (t : Tree) (n : ℕ) : Finset ℕ :=
  (t.children.lookup n).getD ∅

/-- `Tree::descendants`. -/
def Tree.descendantsOf (t : Tree) (n : ℕ) : Finset ℕ :=
  (t.descendants.lookup n).getD ∅

/-- `Tree::parent`. -/
def Tree.parent (t : Tree) (c : ℕ) : Option ℕ := t.parents.lookup c

/-- `Tree::has_cycle`. -/
def Tree.hasCycle (t : Tree) (n : ℕ) : Prop := n ∈ t.cycles

/-- `TreeLog::children`: log override or base. -/
def TreeLog.childrenOf (l : TreeLog) (b : Tree) (n : ℕ) : Finset ℕ :=
  (l.children.lookup n).getD (b.childrenOf n)

/-- `TreeLog::descendants`. -/
def TreeLog.descendantsOf (l : TreeLog) (b : Tree) (n : ℕ) : Finset ℕ :=
  (l.descendants.lookup n).getD (b.descendantsOf n)

/-- `TreeLog::parent`. -/
def TreeLog.parent (l : TreeLog) (b : Tree) (c : ℕ) : Option ℕ :=
  match l.parents.lookup c with
  | some o => o
  | none => b.parent c

/-- `TreeLog::cycles`: the overlay cycles set. -/
def TreeLog.cyclesView (l : TreeLog) (b : Tree) : Finset ℕ :=
  l.cycles.getD b.cycles

/-- `TreeLog::has_cycle`. -/
def TreeLog.hasCycle (l : TreeLog) (b : Tree) (n : ℕ) : Prop :=
  n ∈ l.cyclesView b

/-- Write the children bucket of `n` (the effect of mutating through
`children_mut`, which materialises the overlay value into the log). -/
def TreeLog.setChildren (l : TreeLog) (n : ℕ) (s : Finset ℕ) : TreeLog :=
  { l with children := l.children.ins n s }

/-- Write the descendants bucket of `n`. -/
def TreeLog.setDescendants (l : TreeLog) (n : ℕ) (s : Finset ℕ) : TreeLog :=
  { l with descendants := l.descendants.ins n s }

/-- Write the parent override of `n`. -/
def TreeLog.setParent (l : TreeLog) (n : ℕ) (p : Option ℕ) : TreeLog :=
  { l with parents := l.parents.ins n p }

/-- Write the cycles override. -/
def TreeLog.setCycles (l : TreeLog) (s : Finset ℕ) : TreeLog :=
  { l with cycles := some s }

/-- Fuel bound for the parent-chasing loops: every loop iteration either
stops or visits a fresh node that has a parent entry, so the entry counts
plus two dominate the iteration count. -/
def fuelFor (b : Tree) (l : TreeLog) : ℕ :=
  b.parents.keys.length + l.parents.keys.length + 2

/-- The ancestor walk of `remove_impl` step 4: shrink each ancestor's
descendants, halting on an already-visited node or a missing parent. -/
def shrinkWalk (b : Tree) :
    ℕ → TreeLog → Finset ℕ → Option ℕ → ℕ → Finset ℕ → TreeLog × Finset ℕ
  | 0, l, visited, _, _, _ => (l, visited)
  | fuel + 1, l, visited, cur, node, desc =>
      match cur with
      | none => (l, visited)
      | some p =>
          if p ∈ visited then (l, visited)
          else
            let visited1 := insert p visited
            let d := l.descendantsOf b p
            let l1 := l.setDescendants p
              ((d.erase node).filter (fun k => k ∉ desc))
            shrinkWalk b fuel l1 visited1 (l1.parent b p) node desc

/-- The per-node evacuation of `remove_impl` step 2: zero the node's
children and descendants buckets, take its parent, and record the old
values. -/
def evacStep (b : Tree) (st : TreeLog × FMap RemoveItem) (id : ℕ) :
    TreeLog × FMap RemoveItem :=
  let ch := st.1.childrenOf b id
  let st1 := st.1.setChildren id ∅
  let de := st1.descendantsOf b id
  let st2 := st1.setDescendants id ∅
  let pa := st2.parent b id
  let st3 := st2.setParent id none
  (st3, st.2.ins id ⟨ch, de, pa⟩)

/-- `TreeLog::remove_impl`: evacuate the subtree under `node`, detach it
from its former parent, and shrink the ancestors' descendant sets.
Returns the updated log, the detached records and the visited set. -/
def removeImpl (b : Tree) (l : TreeLog) (node : ℕ) (visited : Finset ℕ) :
    TreeLog × FMap RemoveItem × Finset ℕ :=
  let desc := l.descendantsOf b node
  let l1 := l.setDescendants node ∅
  let chil := l1.childrenOf b node
  let l2 := l1.setChildren node ∅
  let fold1 := (sortList desc).foldl (evacStep b) (l2, FMap.empty default)
  let l3 := fold1.1
  let removed := fold1.2
  let l4 := match l3.parent b node with
    | some p => l3.setChildren p ((l3.childrenOf b p).erase node)
    | none => l3
  let walk := shrinkWalk b (fuelFor b l4) l4 visited (l4.parent b node) node desc
  let l5 := walk.1
  let pa := l5.parent b node
  let l6 := l5.setParent node none
  (l6, removed.ins node ⟨chil, desc, pa⟩, walk.2)

/-- The ancestor walk of `reparent_subtree`: extend each ancestor's
descendants with the moved subtree, halting on revisit or missing
parent. -/
def extendWalk (b : Tree) :
    ℕ → TreeLog → Finset ℕ → Option ℕ → ℕ → Finset ℕ → TreeLog
  | 0, l, _, _, _, _ => l
  | fuel + 1, l, visited, cur, root, descs =>
      match cur with
      | none => l
      | some p =>
          if p ∈ visited then l
          else
            let visited1 := insert p visited
            let l1 := l.setDescendants p
              (insert root (l.descendantsOf b p ∪ descs))
            extendWalk b fuel l1 visited1 (l1.parent b p) root descs

/-- The restore loop of `reparent_subtree`: write one detached record's
parent, children and descendants entries back into the log. -/
def restoreStep (removed1 : FMap RemoveItem) (acc : TreeLog) (n : ℕ) :
    TreeLog :=
  let it := (removed1.lookup n).getD default
  ((acc.setParent n it.parent).setChildren n it.children).setDescendants
    n it.descendants

/-- `TreeLog::reparent_subtree`: re-attach `root` under `new_parent`,
extend the new ancestors' descendant sets, and restore the evacuated
subtree entries from the detached records. -/
def reparentSubtree (b : Tree) (l : TreeLog) (newParent : Option ℕ)
    (root : ℕ) (removed : FMap RemoveItem) : TreeLog :=
  let l1 := l.setParent root newParent
  let l2 := match newParent with
    | some p => l1.setChildren p (insert root (l1.childrenOf b p))
    | none => l1
  let item := (removed.lookup root).getD default
  let removed1 := removed.del root
  let l3 := extendWalk b (fuelFor b l2) l2 ∅ newParent root item.descendants
  let l4 := l3.setChildren root item.children
  let l5 := l4.setDescendants root item.descendants
  removed1.keyList.foldl (restoreStep removed1) l5

/-- The walk of `detect_and_mark_cycles`: follow the parent chain keeping
the path; on revisiting a node mark the loop (the path from the first
occurrence onwards, plus the revisited node). -/
def detectAux (b : Tree) :
    ℕ → TreeLog → Finset ℕ → List ℕ → Option ℕ → TreeLog
  | 0, l, _, _, _ => l
  | fuel + 1, l, seen, path, cur =>
      match cur with
      | none => l
      | some node =>
          if node ∈ seen then
            let idx := path.findIdx (fun x => x == node)
            let l1 := (path.drop idx).foldl
              (fun acc n => acc.setCycles (insert n (acc.cyclesView b))) l
            l1.setCycles (insert node (l1.cyclesView b))
          else detectAux b fuel l (insert node seen) (path ++ [node])
            (l.parent b node)

/-- `TreeLog::detect_and_mark_cycles`. -/
def detectAndMarkCycles (b : Tree) (l : TreeLog) (start : ℕ) : TreeLog :=
  detectAux b (fuelFor b l) l ∅ [] (some start)

/-- `TreeLog::insert`: no-op when the parent is unchanged; otherwise
detach the subtree, re-attach it under the new parent and re-run cycle
detection from the child. -/
def TreeLog.insert (l : TreeLog) (b : Tree) (parent : Option ℕ)
    (child : ℕ) : TreeLog :=
  if l.parent b child = parent then l
  else
    let res := removeImpl b l child ∅
    let l1 := reparentSubtree b res.1 parent child res.2.1
    detectAndMarkCycles b l1 child

/-- `TreeLog::remove`: detach the subtree, clear the cycles set, and
re-run cycle detection from every key of the log's parent map. -/
def TreeLog.remove (l : TreeLog) (b : Tree) (node : ℕ) : TreeLog :=
  let res := removeImpl b l node ∅
  let l1 := res.1.setCycles ∅
  l1.parents.keyList.foldl (fun acc n => detectAndMarkCycles b acc n) l1

/-- The parents fold of `Tree::apply`: a `some` override inserts (and
reports a change exactly when the entry was vacant, because the second
disjunct compares the freshly written value with itself); a `none`
override removes and reports a change when an entry was removed. -/
def applyParentsStep (src : FMap (Option ℕ)) (acc : FMap ℕ × Bool)
    (child : ℕ) : FMap ℕ × Bool :=
  match (src.lookup child).getD none with
  | some p =>
      let old := acc.1.lookup child
      let ps := acc.1.ins child p
      (ps, acc.2 || (old.isNone || (ps.lookup child ≠ some p)))
  | none =>
      let old := acc.1.lookup child
      (acc.1.del child, acc.2 || old.isSome)

/-- `Tree::apply`: install cycles if different, fold parent overrides,
then merge the children and descendants maps. -/
def Tree.applyLog (t : Tree) (log : TreeLog) : Tree × Bool :=
  let cyc := match log.cycles with
    | some c => if t.cycles ≠ c then (c, true) else (t.cycles, false)
    | none => (t.cycles, false)
  let pres := log.parents.keyList.foldl (applyParentsStep log.parents)
    (t.parents, cyc.2)
  let chres := applyBitmap t.children log.children
  let deres := applyBitmap t.descendants log.descendants
  (⟨chres.1, cyc.1, deres.1, pres.1⟩, pres.2 || chres.2 || deres.2)

/-- `impl FromIterator for Tree`: write the pairs straight into a log's
parent map (no cycle detection), then apply to an empty tree. -/
def Tree.fromIter (ps : List (ℕ × Option ℕ)) : Tree :=
  let log : TreeLog :=
    { TreeLog.new with
      parents := ps.foldl (fun m cp => m.ins cp.1 cp.2) (FMap.empty none) }
  (Tree.new.applyLog log).1

/-- The loop of `Tree::depth`, with fuel; `none` marks fuel exhaustion
(the source loop would still be running). -/
def Tree.depthAux (t : Tree) : ℕ → Option ℕ → ℕ → Option (Except ℕ ℕ)
  | 0, _, _ => none
  | _ + 1, none, d => some (Except.ok d)
  | fuel + 1, some n, d =>
      if n ∈ t.cycles then some (Except.error n)
      else t.depthAux fuel (t.parent n) (d + 1)

/-- `Tree::depth`, fuel-indexed. -/
def Tree.depthFuel (t : Tree) (node : ℕ) (fuel : ℕ) : Option (Except ℕ ℕ) :=
  t.depthAux fuel (some node) 0

/-- The list of nodes yielded by `Tree::ancestors_with_self` within
`fuel` steps: each node is yielded, and the walk continues unless the
node is a cycle node or has no parent. -/
def Tree.ancestorsList (t : Tree) : ℕ → Option ℕ → List ℕ
  | 0, _ => []
  | fuel + 1, cur =>
      match cur with
      | none => []
      | some n =>
          n :: (if n ∈ t.cycles then [] else t.ancestorsList fuel (t.parent n))

/-- Iterated parent chasing (`k` raw steps along `parents`). -/
def Tree.parentIter (t : Tree) : ℕ → ℕ → Option ℕ
  | 0, n => some n
  | k + 1, n =>
      match t.parent n with
      | some p => t.parentIter k p
      | none => none

/-- The parent chain from `n` reaches, after `k` steps, either its end or
a node marked in `cycles` — the condition under which `Tree::depth`'s
loop stops. -/
def Tree.stops (t : Tree) (n k : ℕ) : Prop :=
  ∀ m, t.parentIter k n = some m → m ∈ t.cycles

/-- Iterated parent chasing through the `(base, log)` overlay. -/
def TreeLog.parentIter (l : TreeLog) (b : Tree) : ℕ → ℕ → Option ℕ
  | 0, n => some n
  | k + 1, n =>
      match l.parent b n with
      | some p => l.parentIter b k p
      | none => none

/-! ### C1 and C4: counterexamples -/

/-- The five-operation run refuting C1: build the chain `1 ← 2 ← 3`
(`parent(2) = 1`, `parent(3) = 2`), create the cycle by re-parenting `1`
under `3`, remove `3` (which clears the cycle), then attach `8` under
`1`. -/
def c1Run : TreeLog :=
  ((((TreeLog.new.insert Tree.new (some 1) 2).insert Tree.new
      (some 2) 3).insert Tree.new (some 3) 1).remove Tree.new
      3).insert Tree.new (some 1) 8

/-- **C1, counterexample.**  After the run `insert(1,2); insert(2,3);
insert(3,1); remove(3); insert(1,8)` from an empty base and log — a state
reachable by `TreeLog::insert`/`TreeLog::remove` alone — the cycles set is
empty, yet `descendants(3) = {8}` while `children(3) = ∅`, so
`descendants(3) ≠ ⋃_{c ∈ children(3)} ({c} ∪ descendants(c))`: the tree
closure invariant fails in a cycles-empty state. -/
theorem c1_closure_counterexample :
    c1Run.cyclesView Tree.new = ∅
    ∧ c1Run.descendantsOf Tree.new 3 = {8}
    ∧ c1Run.childrenOf Tree.new 3 = ∅
    ∧ c1Run.descendantsOf Tree.new 3
        ≠ (c1Run.childrenOf Tree.new 3).biUnion
            (fun c => insert c (c1Run.descendantsOf Tree.new c)) := by
  refine ⟨by decide, by decide, by decide, ?_⟩
  intro h
  rw [show c1Run.childrenOf Tree.new 3 = ∅ from by decide] at h
  rw [show c1Run.descendantsOf Tree.new 3 = {8} from by decide] at h
  simp at h

/-- The four-insert run refuting C4: chain `parent(2) = 1`,
`parent(3) = 2`, `parent(4) = 2`, then the cycle `parent(1) = 3`. -/
def c4Run : TreeLog :=
  (((TreeLog.new.insert Tree.new (some 1) 2).insert Tree.new
      (some 2) 3).insert Tree.new (some 2) 4).insert Tree.new (some 3) 1

/-- C4 as stated: whenever parent chasing from `n` revisits `m`, every
node visited on the way (the path from `n` to `m` and the cycle) is in
the cycles set. -/
def C4ClaimAt (b : Tree) (l : TreeLog) : Prop :=
  ∀ n m i j, i < j → l.parentIter b i n = some m →
    l.parentIter b j n = some m →
    ∀ t y, t ≤ j → l.parentIter b t n = some y → y ∈ l.cyclesView b

/-- **C4, counterexample.**  In the state after
`insert(1,2); insert(2,3); insert(2,4); insert(3,1)`, parent chasing from
`4` revisits `2` (`4 → 2 → 1 → 3 → 2`), so the claim would require the
path node `4` to be in `cycles`; but only the loop `{1, 2, 3}` is marked
and `4` is not. -/
theorem c4_marking_counterexample : ¬ C4ClaimAt Tree.new c4Run := by
  intro h
  have h4 := h 4 2 1 4 (by decide) (by decide) (by decide) 0 4 (by decide)
    (by decide)
  have : (4 : ℕ) ∉ c4Run.cyclesView Tree.new := by decide
  exact this h4

/-! ### C3: `Tree::apply` change reporting -/

/-- **C3.**  `Tree::apply` fails its change contract on parent overrides:
with base `parents = {1 ↦ 2}` (built by `FromIterator`) and a log holding
the single override `1 ↦ Some(3)`, `apply` rewrites the parent of `1`
from `2` to `3` — a base entry changes by equality — yet returns `false`,
because the source compares the freshly inserted value with itself
(`self.parents.insert(child, p).is_none() || self.parents[&child] != p`).
This contradicts the claim and the method's own documentation
(*"Returns `true` if anything changed."*). -/
theorem c3_apply_change_reporting_bug :
    (Tree.fromIter [(1, some 2)]).parent 1 = some 2
    ∧ ((Tree.fromIter [(1, some 2)]).applyLog
        { TreeLog.new with parents := (FMap.empty none).ins 1 (some 3) }).1.parent
          1 = some 3
    ∧ ((Tree.fromIter [(1, some 2)]).applyLog
        { TreeLog.new with parents := (FMap.empty none).ins 1 (some 3) }).2
        = false := by
  refine ⟨by decide, by decide, by decide⟩

/-! ### C7: termination of `Tree::depth` -/

theorem c7_depthAux_diverges :
    ∀ fuel d cur, (cur = some 1 ∨ cur = some 2) →
      (Tree.fromIter [(1, some 2), (2, some 1)]).depthAux fuel cur d
        = none := by
  intro fuel
  induction fuel with
  | zero => intro d cur _; rfl
  | succ f ih =>
      intro d cur hcur
      have hc1 : (1 : ℕ) ∉ (Tree.fromIter [(1, some 2), (2, some 1)]).cycles := by
        decide
      have hc2 : (2 : ℕ) ∉ (Tree.fromIter [(1, some 2), (2, some 1)]).cycles := by
        decide
      have hp1 : (Tree.fromIter [(1, some 2), (2, some 1)]).parent 1
          = some 2 := by decide
      have hp2 : (Tree.fromIter [(1, some 2), (2, some 1)]).parent 2
          = some 1 := by decide
      rcases hcur with rfl | rfl
      · rw [Tree.depthAux, if_neg hc1, hp1]
        exact ih (d + 1) (some 2) (Or.inr rfl)
      · rw [Tree.depthAux, if_neg hc2, hp2]
        exact ih (d + 1) (some 1) (Or.inl rfl)

/-- **C7, counterexample.**  The tree built by `FromIterator` from
`[(1, Some 2), (2, Some 1)]` has the parent cycle `1 → 2 → 1` and an
empty `cycles` set (`from_iter` runs no cycle detection), so the loop of
`Tree::depth(1)` never reaches a parentless or cycle-marked node: for
every fuel the modelled loop is still running — `depth` does not
terminate, contradicting the claim. -/
theorem c7_depth_nontermination :
    ¬ ∃ fuel,
      ((Tree.fromIter [(1, some 2), (2, some 1)]).depthFuel 1 fuel).isSome := by
  rintro ⟨fuel, h⟩
  rw [Tree.depthFuel, c7_depthAux_diverges fuel 0 (some 1) (Or.inl rfl)] at h
  cases h

theorem depthAux_stops (t : Tree) :
    ∀ k n d, t.stops n k →
      ∃ r, t.depthAux (k + 1) (some n) d = some r ∧
        ((r = Except.ok (d + (t.ancestorsList (k + 1) (some n)).length)
            ∧ ∀ x ∈ t.ancestorsList (k + 1) (some n), x ∉ t.cycles)
          ∨ (∃ m, r = Except.error m ∧ m ∈ t.cycles
              ∧ (t.ancestorsList (k + 1) (some n)).getLast? = some m
              ∧ ∀ x ∈ (t.ancestorsList (k + 1) (some n)).dropLast,
                  x ∉ t.cycles)) := by
  intro k
  induction k with
  | zero =>
      intro n d hstop
      have hc : n ∈ t.cycles := hstop n rfl
      refine ⟨Except.error n, ?_, Or.inr ⟨n, rfl, hc, ?_, ?_⟩⟩
      · rw [Tree.depthAux, if_pos hc]
      · simp [Tree.ancestorsList]
      · simp [Tree.ancestorsList]
  | succ k ih =>
      intro n d hstop
      by_cases hc : n ∈ t.cycles
      · refine ⟨Except.error n, ?_, Or.inr ⟨n, rfl, hc, ?_, ?_⟩⟩
        · rw [Tree.depthAux, if_pos hc]
        · simp [Tree.ancestorsList, hc]
        · simp [Tree.ancestorsList, hc]
      · rcases hp : t.parent n with _ | p
        · refine ⟨Except.ok (d + 1), ?_, Or.inl ⟨?_, ?_⟩⟩
          · rw [Tree.depthAux, if_neg hc, hp]
            rw [Tree.depthAux]
          · simp [Tree.ancestorsList, hc, hp]
          · simp [Tree.ancestorsList, hc, hp]
        · have hstopp : t.stops p k := by
            intro m hm
            apply hstop m
            rw [Tree.parentIter, hp]
            exact hm
          obtain ⟨r, hr, hspec⟩ := ih p (d + 1) hstopp
          have hlist : t.ancestorsList (k + 1 + 1) (some n)
              = n :: t.ancestorsList (k + 1) (some p) := by
            rw [Tree.ancestorsList, if_neg hc, hp]
          refine ⟨r, ?_, ?_⟩
          · rw [Tree.depthAux, if_neg hc, hp]
            exact hr
          · rcases hspec with ⟨hok, hnc⟩ | ⟨m, herr, hmc, hlast, hdrop⟩
            · refine Or.inl ⟨?_, ?_⟩
              · rw [hlist]
                simpa [Nat.add_comm, Nat.add_assoc, Nat.add_left_comm]
                  using hok
              · rw [hlist]
                intro x hx
                rcases List.mem_cons.mp hx with rfl | hx
                · exact hc
                · exact hnc x hx
            · have hne : t.ancestorsList (k + 1) (some p) ≠ [] := by
                intro hnil
                rw [hnil] at hlast
                cases hlast
              refine Or.inr ⟨m, herr, hmc, ?_, ?_⟩
              · rw [hlist]
                rcases hx : t.ancestorsList (k + 1) (some p) with _ | ⟨a, lrest⟩
                · exact absurd hx hne
                · rw [hx] at hlast
                  rw [List.getLast?_cons_cons]
                  exact hlast
              · rw [hlist]
                intro x hx
                rw [List.dropLast_cons_of_ne_nil hne] at hx
                rcases List.mem_cons.mp hx with rfl | hx
                · exact hc
                · exact hdrop x hx

/-- **C7, amended.**  For every tree `t` and node `n` whose parent chain
reaches, in finitely many steps, either a parentless node or a node
marked in `cycles` (in particular for every tree maintained through
`TreeLog::insert`/`remove`, by C4), `Tree::depth(n)` terminates and
returns either `Ok(count of nodes visited by ancestors_with_self(n))` —
when no visited node lies in `cycles` — or `Err(CycleError(m))` where `m`
is the first visited node contained in `cycles`. -/
theorem c7_depth_terminates_amended (t : Tree) (n : ℕ)
    (h : ∃ k, t.stops n k) :
    ∃ fuel r, t.depthFuel n fuel = some r ∧
      ((r = Except.ok (t.ancestorsList fuel (some n)).length
          ∧ ∀ x ∈ t.ancestorsList fuel (some n), x ∉ t.cycles)
        ∨ (∃ m, r = Except.error m ∧ m ∈ t.cycles
            ∧ (t.ancestorsList fuel (some n)).getLast? = some m
            ∧ ∀ x ∈ (t.ancestorsList fuel (some n)).dropLast,
                x ∉ t.cycles)) := by
  obtain ⟨k, hk⟩ := h
  obtain ⟨r, hr, hspec⟩ := depthAux_stops t k n 0 hk
  refine ⟨k + 1, r, hr, ?_⟩
  simpa using hspec

/-- Witness for the amended C7 on the concrete two-node chain
`1 → 2 → (root)`. -/
theorem c7_depth_terminates_amended_witness :
    ∃ fuel r, (Tree.fromIter [(1, some 2)]).depthFuel 1 fuel = some r ∧
      ((r = Except.ok
            ((Tree.fromIter [(1, some 2)]).ancestorsList fuel (some 1)).length
          ∧ ∀ x ∈ (Tree.fromIter [(1, some 2)]).ancestorsList fuel (some 1),
              x ∉ (Tree.fromIter [(1, some 2)]).cycles)
        ∨ (∃ m, r = Except.error m ∧ m ∈ (Tree.fromIter [(1, some 2)]).cycles
            ∧ ((Tree.fromIter [(1, some 2)]).ancestorsList fuel
                (some 1)).getLast? = some m
            ∧ ∀ x ∈ ((Tree.fromIter [(1, some 2)]).ancestorsList fuel
                (some 1)).dropLast,
                x ∉ (Tree.fromIter [(1, some 2)]).cycles)) :=
  c7_depth_terminates_amended (Tree.fromIter [(1, some 2)]) 1
    ⟨2, fun m hm => by
      rw [show (Tree.fromIter [(1, some 2)]).parentIter 2 1 = none from by
        decide] at hm
      cases hm⟩

/-! ## NodeSetIndex (`src/u32based/node_set_index.rs`)

Two tree-node → set maps, `direct_items` and `subtree_items`, with the
usual base/log overlay.  Item operations walk the `(base_tree, log_tree)`
parent chain with an explicit stack and visited set; the walks are
modelled with fuel as for `Tree`. -/

/-- `NodeSetIndex`: the committed base state. -/
structure NodeSetIndex where
  directItems : FMap (Finset ℕ)
  subtreeItems : FMap (Finset ℕ)

/-- `NodeSetIndexLog`: the staged overlay. -/
structure NodeSetIndexLog where
  directItems : FMap (Finset ℕ)
  subtreeItems : FMap (Finset ℕ)

/-- `DetachedSubtree`: the record returned by `remove_subtree`. -/
structure DetachedSubtree where
  root : ℕ
  direct : FMap (Finset ℕ)
  subtree : FMap (Finset ℕ)

/-- `NodeSetIndex::new`. -/
def NodeSetIndex.new : NodeSetIndex := ⟨FMap.empty ∅, FMap.empty ∅⟩

/-- `NodeSetIndexLog::new`. -/
def NodeSetIndexLog.new : NodeSetIndexLog := ⟨FMap.empty ∅, FMap.empty ∅⟩

/-- `NodeSetIndex::direct_items`. -/
def NodeSetIndex.directItemsOf (t : NodeSetIndex) (n : ℕ) : Finset ℕ :=
  (t.directItems.lookup n).getD ∅

/-- `NodeSetIndex::subtree_items`. -/
def NodeSetIndex.subtreeItemsOf (t : NodeSetIndex) (n : ℕ) : Finset ℕ :=
  (t.subtreeItems.lookup n).getD ∅

/-- `NodeSetIndexLog::direct_items`: log override or base. -/
def NodeSetIndexLog.directItemsOf (log : NodeSetIndexLog)
    (base : NodeSetIndex) (n : ℕ) : Finset ℕ :=
  (log.directItems.lookup n).getD (base.directItemsOf n)

/-- `NodeSetIndexLog::subtree_items`. -/
def NodeSetIndexLog.subtreeItemsOf (log : NodeSetIndexLog)
    (base : NodeSetIndex) (n : ℕ) : Finset ℕ :=
  (log.subtreeItems.lookup n).getD (base.subtreeItemsOf n)

/-- Write the direct bucket of `n` (mutation through `direct_items_mut`). -/
def NodeSetIndexLog.setDirect (log : NodeSetIndexLog) (n : ℕ)
    (s : Finset ℕ) : NodeSetIndexLog :=
  { log with directItems := log.directItems.ins n s }

/-- Write the subtree bucket of `n`. -/
def NodeSetIndexLog.setSubtree (log : NodeSetIndexLog) (n : ℕ)
    (s : Finset ℕ) : NodeSetIndexLog :=
  { log with subtreeItems := log.subtreeItems.ins n s }

/-- The ancestor walk of `NodeSetIndexLog::insert`: pop the stack, add
`item` to each newly visited node's subtree bucket, push its parent. -/
def itemInsertWalk (base : NodeSetIndex) (bt : Tree) (lt : TreeLog)
    (item : ℕ) :
    ℕ → NodeSetIndexLog → Finset ℕ → List ℕ → NodeSetIndexLog
  | 0, l, _, _ => l
  | fuel + 1, l, visited, stack =>
      match stack with
      | [] => l
      | current :: rest =>
          if current ∈ visited then
            itemInsertWalk base bt lt item fuel l visited rest
          else
            let visited1 := insert current visited
            let l1 := l.setSubtree current
              (insert item (l.subtreeItemsOf base current))
            let stack1 := match lt.parent bt current with
              | some p => p :: rest
              | none => rest
            itemInsertWalk base bt lt item fuel l1 visited1 stack1

/-- `NodeSetIndexLog::insert`: copy-on-write the direct bucket and add
the item; when newly added, push it into every ancestor-with-self's
subtree bucket. -/
def NodeSetIndexLog.insert (log : NodeSetIndexLog) (base : NodeSetIndex)
    (bt : Tree) (lt : TreeLog) (node item : ℕ) : NodeSetIndexLog :=
  let cur := log.directItemsOf base node
  let l1 := log.setDirect node (Insert.insert item cur)
  if item ∈ cur then l1
  else itemInsertWalk base bt lt item (fuelFor bt lt) l1 ∅ [node]

/-- The ancestor walk of `NodeSetIndexLog::remove` (pushes a parent only
when it is not yet visited). -/
def itemRemoveWalk (base : NodeSetIndex) (bt : Tree) (lt : TreeLog)
    (item : ℕ) :
    ℕ → NodeSetIndexLog → Finset ℕ → List ℕ → NodeSetIndexLog
  | 0, l, _, _ => l
  | fuel + 1, l, visited, stack =>
      match stack with
      | [] => l
      | current :: rest =>
          if current ∈ visited then
            itemRemoveWalk base bt lt item fuel l visited rest
          else
            let visited1 := insert current visited
            let l1 := l.setSubtree current
              ((l.subtreeItemsOf base current).erase item)
            let stack1 := match lt.parent bt current with
              | some p => if p ∈ visited1 then rest else p :: rest
              | none => rest
            itemRemoveWalk base bt lt item fuel l1 visited1 stack1

/-- `NodeSetIndexLog::remove`: copy-on-write the direct bucket and remove
the item; when it was present, remove it from every ancestor-with-self's
subtree bucket. -/
def NodeSetIndexLog.remove (log : NodeSetIndexLog) (base : NodeSetIndex)
    (bt : Tree) (lt : TreeLog) (node item : ℕ) : NodeSetIndexLog :=
  let cur := log.directItemsOf base node
  let l1 := log.setDirect node (cur.erase item)
  if item ∉ cur then l1
  else itemRemoveWalk base bt lt item (fuelFor bt lt) l1 ∅ [node]

/-- One node's detach step of `remove_subtree`: move the node's direct
and subtree entries from the log if present (removing the log entry),
else copy them from the base, into the detached record. -/
def removeSubtreeStep (base : NodeSetIndex)
    (st : NodeSetIndexLog × DetachedSubtree) (id : ℕ) :
    NodeSetIndexLog × DetachedSubtree :=
  let log := st.1
  let det := st.2
  let st1 :=
    match log.directItems.lookup id with
    | some bm =>
        ({ log with directItems := log.directItems.del id },
         { det with direct := det.direct.ins id bm })
    | none =>
        match base.directItems.lookup id with
        | some bm => (log, { det with direct := det.direct.ins id bm })
        | none => (log, det)
  match st1.1.subtreeItems.lookup id with
  | some bm =>
      ({ st1.1 with subtreeItems := st1.1.subtreeItems.del id },
       { st1.2 with subtree := st1.2.subtree.ins id bm })
  | none =>
      match base.subtreeItems.lookup id with
      | some bm => (st1.1, { st1.2 with subtree := st1.2.subtree.ins id bm })
      | none => (st1.1, st1.2)

/-- `NodeSetIndexLog::remove_subtree`: detach every node of
`descendants_with_self(root)` into a `DetachedSubtree`. -/
def NodeSetIndexLog.removeSubtree (log : NodeSetIndexLog)
    (base : NodeSetIndex) (bt : Tree) (lt : TreeLog) (root : ℕ) :
    NodeSetIndexLog × DetachedSubtree :=
  let nodes := Insert.insert root (lt.descendantsOf bt root)
  (sortList nodes).foldl (removeSubtreeStep base)
    (log, ⟨root, FMap.empty ∅, FMap.empty ∅⟩)

theorem rsStep_ne (base : NodeSetIndex) (st : NodeSetIndexLog × DetachedSubtree)
    (id q : ℕ) (h : q ≠ id) :
    ((removeSubtreeStep base st id).1.directItems.lookup q
      = st.1.directItems.lookup q)
    ∧ ((removeSubtreeStep base st id).1.subtreeItems.lookup q
      = st.1.subtreeItems.lookup q)
    ∧ ((removeSubtreeStep base st id).2.direct.lookup q
      = st.2.direct.lookup q)
    ∧ ((removeSubtreeStep base st id).2.subtree.lookup q
      = st.2.subtree.lookup q)
    ∧ (removeSubtreeStep base st id).2.root = st.2.root := by
  unfold removeSubtreeStep
  rcases hld : st.1.directItems.lookup id with _ | bm₁ <;>
    rcases hbd : base.directItems.lookup id with _ | bm₂ <;>
    rcases hls : st.1.subtreeItems.lookup id with _ | bm₃ <;>
    rcases hbs : base.subtreeItems.lookup id with _ | bm₄ <;>
    simp only [hld, hbd, hls, hbs] <;>
    simp [FMap.lookup_del_ne _ _ _ h, FMap.lookup_ins_ne _ _ _ _ h]

theorem rsStep_self (base : NodeSetIndex)
    (st : NodeSetIndexLog × DetachedSubtree) (id : ℕ) :
    ((removeSubtreeStep base st id).1.directItems.lookup id = none)
    ∧ ((removeSubtreeStep base st id).1.subtreeItems.lookup id = none)
    ∧ ((removeSubtreeStep base st id).2.direct.lookup id
      = (st.1.directItems.lookup id).or
          ((base.directItems.lookup id).or (st.2.direct.lookup id)))
    ∧ ((removeSubtreeStep base st id).2.subtree.lookup id
      = (st.1.subtreeItems.lookup id).or
          ((base.subtreeItems.lookup id).or (st.2.subtree.lookup id))) := by
  unfold removeSubtreeStep
  rcases hld : st.1.directItems.lookup id with _ | bm₁ <;>
    rcases hbd : base.directItems.lookup id with _ | bm₂ <;>
    rcases hls : st.1.subtreeItems.lookup id with _ | bm₃ <;>
    rcases hbs : base.subtreeItems.lookup id with _ | bm₄ <;>
    simp only [hld, hbd, hls, hbs] <;>
    refine ⟨?_, ?_, ?_, ?_⟩ <;>
    simp [hld, hbd, hls, hbs, FMap.lookup_del_self, FMap.lookup_ins_self,
      Option.or]

theorem removeSubtree_fold (base : NodeSetIndex) :
    ∀ (keys : List ℕ), keys.Nodup →
    ∀ (st : NodeSetIndexLog × DetachedSubtree) (q : ℕ),
      ((keys.foldl (removeSubtreeStep base) st).1.directItems.lookup q
        = if q ∈ keys then none else st.1.directItems.lookup q)
      ∧ ((keys.foldl (removeSubtreeStep base) st).1.subtreeItems.lookup q
        = if q ∈ keys then none else st.1.subtreeItems.lookup q)
      ∧ ((keys.foldl (removeSubtreeStep base) st).2.direct.lookup q
        = if q ∈ keys then
            (st.1.directItems.lookup q).or
              ((base.directItems.lookup q).or (st.2.direct.lookup q))
          else st.2.direct.lookup q)
      ∧ ((keys.foldl (removeSubtreeStep base) st).2.subtree.lookup q
        = if q ∈ keys then
            (st.1.subtreeItems.lookup q).or
              ((base.subtreeItems.lookup q).or (st.2.subtree.lookup q))
          else st.2.subtree.lookup q)
      ∧ (keys.foldl (removeSubtreeStep base) st).2.root = st.2.root := by
  intro keys
  induction keys with
  | nil => intro _ st q; simp
  | cons k rest ih =>
      intro hnd st q
      have hndr : rest.Nodup := hnd.of_cons
      have hknr : k ∉ rest := (List.nodup_cons.mp hnd).1
      simp only [List.foldl_cons]
      obtain ⟨ih1, ih2, ih3, ih4, ih5⟩ :=
        ih hndr (removeSubtreeStep base st k) q
      by_cases hqr : q ∈ rest
      · refine ⟨?_, ?_, ?_, ?_, ?_⟩
        · rw [ih1, if_pos hqr, if_pos (List.mem_cons.mpr (Or.inr hqr))]
        · rw [ih2, if_pos hqr, if_pos (List.mem_cons.mpr (Or.inr hqr))]
        · have hqk : q ≠ k := fun hc => hknr (hc ▸ hqr)
          obtain ⟨hs1, hs2, hs3, hs4, _⟩ := rsStep_ne base st k q hqk
          rw [ih3, if_pos hqr, if_pos (List.mem_cons.mpr (Or.inr hqr)),
            hs1, hs3]
        · have hqk : q ≠ k := fun hc => hknr (hc ▸ hqr)
          obtain ⟨hs1, hs2, hs3, hs4, _⟩ := rsStep_ne base st k q hqk
          rw [ih4, if_pos hqr, if_pos (List.mem_cons.mpr (Or.inr hqr)),
            hs2, hs4]
        · rw [ih5, (rsStep_ne base st k (k + 1) (by omega)).2.2.2.2]
      · by_cases hqk : q = k
        · subst hqk
          obtain ⟨hs1, hs2, hs3, hs4⟩ := rsStep_self base st q
          refine ⟨?_, ?_, ?_, ?_, ?_⟩
          · rw [ih1, if_neg hqr, hs1, if_pos (List.mem_cons.mpr (Or.inl rfl))]
          · rw [ih2, if_neg hqr, hs2, if_pos (List.mem_cons.mpr (Or.inl rfl))]
          · rw [ih3, if_neg hqr, hs3, if_pos (List.mem_cons.mpr (Or.inl rfl))]
          · rw [ih4, if_neg hqr, hs4, if_pos (List.mem_cons.mpr (Or.inl rfl))]
          · rw [ih5, (rsStep_ne base st q (q + 1) (by omega)).2.2.2.2]
        · have hqmem : q ∉ k :: rest := by
            simp [hqk, hqr]
          obtain ⟨hs1, hs2, hs3, hs4, hs5⟩ := rsStep_ne base st k q hqk
          refine ⟨?_, ?_, ?_, ?_, ?_⟩
          · rw [ih1, if_neg hqr, hs1, if_neg hqmem]
          · rw [ih2, if_neg hqr, hs2, if_neg hqmem]
          · rw [ih3, if_neg hqr, hs3, if_neg hqmem]
          · rw [ih4, if_neg hqr, hs4, if_neg hqmem]
          · rw [ih5, hs5]

/-- **C5, counterexample.**  With a base holding `direct_items(5) = {1}`,
empty trees and an empty log, `remove_subtree(5)` copies the base entry
into the detached record but records no log override, so the overlay read
`direct_items(base, 5)` still returns `{1}`, not the empty set the claim
requires. -/
theorem c5_remove_subtree_counterexample :
    ((NodeSetIndexLog.new.removeSubtree
        ⟨(FMap.empty ∅).ins 5 {1}, (FMap.empty ∅).ins 5 {1}⟩
        Tree.new TreeLog.new 5).1.directItemsOf
        ⟨(FMap.empty ∅).ins 5 {1}, (FMap.empty ∅).ins 5 {1}⟩ 5 = {1})
    ∧ ((NodeSetIndexLog.new.removeSubtree
        ⟨(FMap.empty ∅).ins 5 {1}, (FMap.empty ∅).ins 5 {1}⟩
        Tree.new TreeLog.new 5).1.directItemsOf
        ⟨(FMap.empty ∅).ins 5 {1}, (FMap.empty ∅).ins 5 {1}⟩ 5 ≠ ∅) := by
  constructor
  · decide
  · intro h
    rw [show (NodeSetIndexLog.new.removeSubtree
        ⟨(FMap.empty ∅).ins 5 {1}, (FMap.empty ∅).ins 5 {1}⟩
        Tree.new TreeLog.new 5).1.directItemsOf
        ⟨(FMap.empty ∅).ins 5 {1}, (FMap.empty ∅).ins 5 {1}⟩ 5 = {1} from by
      decide] at h
    simp at h

/-- **C5, amended.**  After `remove_subtree(root)`, for every node `d` of
`descendants_with_self(root)`: the detached record holds `d`'s former
entry (the log entry when one existed, else the base entry, for both the
direct and the subtree map), the log no longer holds an entry for `d`
(the entries are removed, not replaced by empty overrides), and the
overlay reads fall through to the unchanged base — they are empty exactly
when the base holds nothing for `d`, not unconditionally. -/
theorem c5_remove_subtree_amended (base : NodeSetIndex) (bt : Tree)
    (lt : TreeLog) (log : NodeSetIndexLog) (root d : ℕ)
    (hd : d ∈ Insert.insert root (lt.descendantsOf bt root)) :
    ((log.removeSubtree base bt lt root).1.directItems.lookup d = none)
    ∧ ((log.removeSubtree base bt lt root).1.directItemsOf base d
        = base.directItemsOf d)
    ∧ ((log.removeSubtree base bt lt root).2.direct.lookup d
        = (log.directItems.lookup d).or (base.directItems.lookup d))
    ∧ ((log.removeSubtree base bt lt root).1.subtreeItems.lookup d = none)
    ∧ ((log.removeSubtree base bt lt root).1.subtreeItemsOf base d
        = base.subtreeItemsOf d)
    ∧ ((log.removeSubtree base bt lt root).2.subtree.lookup d
        = (log.subtreeItems.lookup d).or (base.subtreeItems.lookup d)) := by
  have hmem : d ∈ sortList (Insert.insert root (lt.descendantsOf bt root)) :=
    (mem_sortList _ d).mpr hd
  obtain ⟨h1, h2, h3, h4, _⟩ := removeSubtree_fold base
    (sortList (Insert.insert root (lt.descendantsOf bt root)))
    (nodup_sortList _)
    (log, ⟨root, FMap.empty ∅, FMap.empty ∅⟩) d
  unfold NodeSetIndexLog.removeSubtree
  rw [if_pos hmem] at h1 h2 h3 h4
  refine ⟨h1, ?_, ?_, h2, ?_, ?_⟩
  · unfold NodeSetIndexLog.directItemsOf
    rw [h1]
    rfl
  · rw [h3]
    cases hl : log.directItems.lookup d <;>
      cases hb : base.directItems.lookup d <;>
      simp [hl, hb, Option.or, FMap.lookup_empty]
  · unfold NodeSetIndexLog.subtreeItemsOf
    rw [h2]
    rfl
  · rw [h4]
    cases hl : log.subtreeItems.lookup d <;>
      cases hb : base.subtreeItems.lookup d <;>
      simp [hl, hb, Option.or, FMap.lookup_empty]

/-- Witness for the amended C5 at a concrete input. -/
theorem c5_remove_subtree_amended_witness :
    ((NodeSetIndexLog.new.removeSubtree
        ⟨(FMap.empty ∅).ins 5 {1}, (FMap.empty ∅).ins 5 {1}⟩
        Tree.new TreeLog.new 5).1.directItems.lookup 5 = none)
    ∧ ((NodeSetIndexLog.new.removeSubtree
        ⟨(FMap.empty ∅).ins 5 {1}, (FMap.empty ∅).ins 5 {1}⟩
        Tree.new TreeLog.new 5).1.directItemsOf
        ⟨(FMap.empty ∅).ins 5 {1}, (FMap.empty ∅).ins 5 {1}⟩ 5
        = NodeSetIndex.directItemsOf
            ⟨(FMap.empty ∅).ins 5 {1}, (FMap.empty ∅).ins 5 {1}⟩ 5) :=
  ⟨(c5_remove_subtree_amended _ Tree.new TreeLog.new NodeSetIndexLog.new 5 5
      (by decide)).1,
   (c5_remove_subtree_amended _ Tree.new TreeLog.new NodeSetIndexLog.new 5 5
      (by decide)).2.1⟩

/-! ### C2: counterexample -/

/-- The tree for the C2 counterexample: children `2` and `3` under `1`,
built before any item operation, cycles never created. -/
def c2Tree : TreeLog :=
  (TreeLog.new.insert Tree.new (some 1) 2).insert Tree.new (some 1) 3

/-- The item-operation run for the C2 counterexample: attach item `9` at
node `2` and at node `3`, then remove it at node `2`. -/
def c2Run : NodeSetIndexLog :=
  ((NodeSetIndexLog.new.insert NodeSetIndex.new Tree.new c2Tree 2 9).insert
      NodeSetIndex.new Tree.new c2Tree 3 9).remove NodeSetIndex.new Tree.new
    c2Tree 2 9

/-- **C2, counterexample.**  Tree `2, 3` under `1` is built first
(`TreeLog::insert` before the item operations that depend on it) and the
cycles set is empty throughout; the item operations `insert(2, 9);
insert(3, 9); remove(2, 9)` then leave `subtree_items(1) = ∅` although
node `3`, a descendant of `1`, still holds `9` in its direct set — the
remove walk strips the item from every ancestor without checking other
contributors.  So `subtree[1] ≠ ⋃_{d ∈ descendants_with_self(1)}
direct[d]`. -/
theorem c2_subtree_coverage_counterexample :
    c2Tree.cyclesView Tree.new = ∅
    ∧ c2Run.subtreeItemsOf NodeSetIndex.new 1 = ∅
    ∧ c2Run.directItemsOf NodeSetIndex.new 3 = {9}
    ∧ (3 ∈ Insert.insert 1 (c2Tree.descendantsOf Tree.new 1))
    ∧ c2Run.subtreeItemsOf NodeSetIndex.new 1
        ≠ (Insert.insert 1 (c2Tree.descendantsOf Tree.new 1)).biUnion
            (fun d => c2Run.directItemsOf NodeSetIndex.new d) := by
  refine ⟨by decide, by decide, by decide, by decide, ?_⟩
  intro h
  have h9 : (9 : ℕ) ∈ (Insert.insert 1 (c2Tree.descendantsOf Tree.new 1)).biUnion
      (fun d => c2Run.directItemsOf NodeSetIndex.new d) := by
    rw [Finset.mem_biUnion]
    refine ⟨3, by decide, by
      rw [show c2Run.directItemsOf NodeSetIndex.new 3 = {9} from by decide]
      decide⟩
  rw [← h] at h9
  rw [show c2Run.subtreeItemsOf NodeSetIndex.new 1 = ∅ from by decide] at h9
  cases h9

/-! ### Shape lemmas for the tree operations

Which state components each primitive write or walk touches. -/

theorem parent_setChildren (l : TreeLog) (b : Tree) (n : ℕ) (s : Finset ℕ)
    (q : ℕ) : (l.setChildren n s).parent b q = l.parent b q := rfl

theorem parent_setDescendants (l : TreeLog) (b : Tree) (n : ℕ) (s : Finset ℕ)
    (q : ℕ) : (l.setDescendants n s).parent b q = l.parent b q := rfl

theorem parent_setCycles (l : TreeLog) (b : Tree) (s : Finset ℕ) (q : ℕ) :
    (l.setCycles s).parent b q = l.parent b q := rfl

theorem parents_setParent (l : TreeLog) (n : ℕ) (p : Option ℕ) :
    (l.setParent n p).parents = l.parents.ins n p := rfl

theorem parent_setParent (l : TreeLog) (b : Tree) (n : ℕ) (p : Option ℕ)
    (q : ℕ) :
    (l.setParent n p).parent b q = if q = n then p else l.parent b q := by
  unfold TreeLog.parent
  by_cases h : q = n
  · subst h
    rw [parents_setParent, FMap.lookup_ins_self]
    simp
  · rw [parents_setParent, FMap.lookup_ins_ne _ _ _ _ h, if_neg h]

theorem cyclesView_setChildren (l : TreeLog) (b : Tree) (n : ℕ)
    (s : Finset ℕ) : (l.setChildren n s).cyclesView b = l.cyclesView b := rfl

theorem cyclesView_setDescendants (l : TreeLog) (b : Tree) (n : ℕ)
    (s : Finset ℕ) :
    (l.setDescendants n s).cyclesView b = l.cyclesView b := rfl

theorem cyclesView_setParent (l : TreeLog) (b : Tree) (n : ℕ) (p : Option ℕ) :
    (l.setParent n p).cyclesView b = l.cyclesView b := rfl

theorem cyclesView_setCycles (l : TreeLog) (b : Tree) (s : Finset ℕ) :
    (l.setCycles s).cyclesView b = s := rfl

theorem childrenOf_setChildren (l : TreeLog) (b : Tree) (n : ℕ) (s : Finset ℕ)
    (q : ℕ) :
    (l.setChildren n s).childrenOf b q = if q = n then s else l.childrenOf b q := by
  unfold TreeLog.childrenOf TreeLog.setChildren
  by_cases h : q = n
  · subst h
    rw [FMap.lookup_ins_self, if_pos rfl]
    rfl
  · rw [FMap.lookup_ins_ne _ _ _ _ h, if_neg h]

theorem childrenOf_setDescendants (l : TreeLog) (b : Tree) (n : ℕ)
    (s : Finset ℕ) (q : ℕ) :
    (l.setDescendants n s).childrenOf b q = l.childrenOf b q := rfl

theorem childrenOf_setParent (l : TreeLog) (b : Tree) (n : ℕ) (p : Option ℕ)
    (q : ℕ) : (l.setParent n p).childrenOf b q = l.childrenOf b q := rfl

theorem childrenOf_setCycles (l : TreeLog) (b : Tree) (s : Finset ℕ) (q : ℕ) :
    (l.setCycles s).childrenOf b q = l.childrenOf b q := rfl

theorem descendantsOf_setDescendants (l : TreeLog) (b : Tree) (n : ℕ)
    (s : Finset ℕ) (q : ℕ) :
    (l.setDescendants n s).descendantsOf b q
      = if q = n then s else l.descendantsOf b q := by
  unfold TreeLog.descendantsOf TreeLog.setDescendants
  by_cases h : q = n
  · subst h
    rw [FMap.lookup_ins_self, if_pos rfl]
    rfl
  · rw [FMap.lookup_ins_ne _ _ _ _ h, if_neg h]

theorem descendantsOf_setChildren (l : TreeLog) (b : Tree) (n : ℕ)
    (s : Finset ℕ) (q : ℕ) :
    (l.setChildren n s).descendantsOf b q = l.descendantsOf b q := rfl

theorem descendantsOf_setParent (l : TreeLog) (b : Tree) (n : ℕ)
    (p : Option ℕ) (q : ℕ) :
    (l.setParent n p).descendantsOf b q = l.descendantsOf b q := rfl

theorem descendantsOf_setCycles (l : TreeLog) (b : Tree) (s : Finset ℕ)
    (q : ℕ) : (l.setCycles s).descendantsOf b q = l.descendantsOf b q := rfl

theorem shrinkWalk_shape (b : Tree) :
    ∀ fuel l visited cur node desc,
      ((shrinkWalk b fuel l visited cur node desc).1.parents = l.parents)
      ∧ ((shrinkWalk b fuel l visited cur node desc).1.children = l.children)
      ∧ ((shrinkWalk b fuel l visited cur node desc).1.cycles = l.cycles) := by
  intro fuel
  induction fuel with
  | zero => intro l visited cur node desc; exact ⟨rfl, rfl, rfl⟩
  | succ f ih =>
      intro l visited cur node desc
      rcases cur with _ | p
      · exact ⟨rfl, rfl, rfl⟩
      · rw [shrinkWalk]
        by_cases hv : p ∈ visited
        · rw [if_pos hv]
          exact ⟨rfl, rfl, rfl⟩
        · rw [if_neg hv]
          exact ih _ _ _ _ _

theorem extendWalk_shape (b : Tree) :
    ∀ fuel l visited cur root descs,
      ((extendWalk b fuel l visited cur root descs).parents = l.parents)
      ∧ ((extendWalk b fuel l visited cur root descs).children = l.children)
      ∧ ((extendWalk b fuel l visited cur root descs).cycles = l.cycles) := by
  intro fuel
  induction fuel with
  | zero => intro l visited cur root descs; exact ⟨rfl, rfl, rfl⟩
  | succ f ih =>
      intro l visited cur root descs
      rcases cur with _ | p
      · exact ⟨rfl, rfl, rfl⟩
      · rw [extendWalk]
        by_cases hv : p ∈ visited
        · rw [if_pos hv]
          exact ⟨rfl, rfl, rfl⟩
        · rw [if_neg hv]
          exact ih _ _ _ _ _

theorem markFold_shape (b : Tree) (path : List ℕ) :
    ∀ l : TreeLog,
      ((path.foldl (fun acc n => acc.setCycles (insert n (acc.cyclesView b)))
          l).parents = l.parents)
      ∧ ((path.foldl (fun acc n => acc.setCycles (insert n (acc.cyclesView b)))
          l).children = l.children)
      ∧ ((path.foldl (fun acc n => acc.setCycles (insert n (acc.cyclesView b)))
          l).descendants = l.descendants)
      ∧ ((path.foldl (fun acc n => acc.setCycles (insert n (acc.cyclesView b)))
          l).cyclesView b = l.cyclesView b ∪ path.toFinset) := by
  induction path with
  | nil => intro l; exact ⟨rfl, rfl, rfl, by simp⟩
  | cons a t ih =>
      intro l
      obtain ⟨h1, h2, h3, h4⟩ := ih (l.setCycles (insert a (l.cyclesView b)))
      refine ⟨?_, ?_, ?_, ?_⟩
      · rw [List.foldl_cons]; exact h1
      · rw [List.foldl_cons]; exact h2
      · rw [List.foldl_cons]; exact h3
      · rw [List.foldl_cons, h4, cyclesView_setCycles]
        ext x
        simp only [Finset.mem_union, Finset.mem_insert, List.mem_toFinset,
          List.toFinset_cons, List.mem_cons]
        tauto

theorem detectAux_shape (b : Tree) :
    ∀ fuel l seen path cur,
      ((detectAux b fuel l seen path cur).parents = l.parents)
      ∧ ((detectAux b fuel l seen path cur).children = l.children)
      ∧ ((detectAux b fuel l seen path cur).descendants = l.descendants)
      ∧ (l.cyclesView b ⊆ (detectAux b fuel l seen path cur).cyclesView b) := by
  intro fuel
  induction fuel with
  | zero => intro l seen path cur; exact ⟨rfl, rfl, rfl, fun x hx => hx⟩
  | succ f ih =>
      intro l seen path cur
      rcases cur with _ | node
      · exact ⟨rfl, rfl, rfl, fun x hx => hx⟩
      · rw [detectAux]
        by_cases hs : node ∈ seen
        · rw [if_pos hs]
          obtain ⟨h1, h2, h3, h4⟩ := markFold_shape b
            (path.drop (path.findIdx (fun x => x == node))) l
          refine ⟨h1, h2, h3, ?_⟩
          rw [cyclesView_setCycles, h4]
          intro x hx
          exact Finset.mem_insert_of_mem (Finset.mem_union_left _ hx)
        · rw [if_neg hs]
          exact ih _ _ _ _

theorem detect_shape (b : Tree) (l : TreeLog) (start : ℕ) :
    ((detectAndMarkCycles b l start).parents = l.parents)
    ∧ ((detectAndMarkCycles b l start).children = l.children)
    ∧ ((detectAndMarkCycles b l start).descendants = l.descendants)
    ∧ (l.cyclesView b ⊆ (detectAndMarkCycles b l start).cyclesView b) :=
  detectAux_shape b (fuelFor b l) l ∅ [] (some start)

theorem detect_parent (b : Tree) (l : TreeLog) (start : ℕ) (q : ℕ) :
    (detectAndMarkCycles b l start).parent b q = l.parent b q := by
  unfold TreeLog.parent
  rw [(detect_shape b l start).1]

theorem evacStep_effects (b : Tree) (st : TreeLog × FMap RemoveItem)
    (id q : ℕ) :
    ((evacStep b st id).1.parents.lookup q
      = if q = id then some none else st.1.parents.lookup q)
    ∧ ((evacStep b st id).1.children.lookup q
      = if q = id then some ∅ else st.1.children.lookup q)
    ∧ ((evacStep b st id).1.descendants.lookup q
      = if q = id then some ∅ else st.1.descendants.lookup q)
    ∧ ((evacStep b st id).1.cycles = st.1.cycles)
    ∧ ((evacStep b st id).2.lookup q
      = if q = id then
          some ⟨st.1.childrenOf b id, st.1.descendantsOf b id,
            st.1.parent b id⟩
        else st.2.lookup q) := by
  unfold evacStep
  dsimp only
  by_cases h : q = id
  · subst h
    refine ⟨?_, ?_, ?_, rfl, ?_⟩ <;>
      simp [TreeLog.setParent, TreeLog.setChildren, TreeLog.setDescendants,
        FMap.lookup_ins_self, TreeLog.descendantsOf, TreeLog.parent,
        TreeLog.childrenOf]
  · refine ⟨?_, ?_, ?_, rfl, ?_⟩ <;>
      simp [TreeLog.setParent, TreeLog.setChildren, TreeLog.setDescendants,
        FMap.lookup_ins_ne _ _ _ _ h, h]

theorem evacStep_overlay_ne (b : Tree) (st : TreeLog × FMap RemoveItem)
    (id q : ℕ) (h : q ≠ id) :
    ((evacStep b st id).1.childrenOf b q = st.1.childrenOf b q)
    ∧ ((evacStep b st id).1.descendantsOf b q = st.1.descendantsOf b q)
    ∧ ((evacStep b st id).1.parent b q = st.1.parent b q) := by
  obtain ⟨h1, h2, h3, _, _⟩ := evacStep_effects b st id q
  rw [if_neg h] at h1 h2 h3
  refine ⟨?_, ?_, ?_⟩
  · unfold TreeLog.childrenOf
    rw [h2]
  · unfold TreeLog.descendantsOf
    rw [h3]
  · unfold TreeLog.parent
    rw [h1]

theorem evacFold_effects (b : Tree) :
    ∀ (ids : List ℕ), ids.Nodup →
    ∀ (st : TreeLog × FMap RemoveItem) (q : ℕ),
      ((ids.foldl (evacStep b) st).1.parents.lookup q
        = if q ∈ ids then some none else st.1.parents.lookup q)
      ∧ ((ids.foldl (evacStep b) st).1.children.lookup q
        = if q ∈ ids then some ∅ else st.1.children.lookup q)
      ∧ ((ids.foldl (evacStep b) st).1.descendants.lookup q
        = if q ∈ ids then some ∅ else st.1.descendants.lookup q)
      ∧ ((ids.foldl (evacStep b) st).1.cycles = st.1.cycles)
      ∧ ((ids.foldl (evacStep b) st).2.lookup q
        = if q ∈ ids then
            some ⟨st.1.childrenOf b q, st.1.descendantsOf b q,
              st.1.parent b q⟩
          else st.2.lookup q) := by
  intro ids
  induction ids with
  | nil => intro _ st q; simp
  | cons k rest ih =>
      intro hnd st q
      have hndr : rest.Nodup := hnd.of_cons
      have hknr : k ∉ rest := (List.nodup_cons.mp hnd).1
      simp only [List.foldl_cons]
      obtain ⟨ih1, ih2, ih3, ih4, ih5⟩ := ih hndr (evacStep b st k) q
      obtain ⟨s1, s2, s3, s4, s5⟩ := evacStep_effects b st k q
      by_cases hqr : q ∈ rest
      · have hqk : q ≠ k := fun hc => hknr (hc ▸ hqr)
        obtain ⟨o1, o2, o3⟩ := evacStep_overlay_ne b st k q hqk
        refine ⟨?_, ?_, ?_, ?_, ?_⟩
        · rw [ih1, if_pos hqr, if_pos (List.mem_cons.mpr (Or.inr hqr))]
        · rw [ih2, if_pos hqr, if_pos (List.mem_cons.mpr (Or.inr hqr))]
        · rw [ih3, if_pos hqr, if_pos (List.mem_cons.mpr (Or.inr hqr))]
        · rw [ih4, s4]
        · rw [ih5, if_pos hqr, if_pos (List.mem_cons.mpr (Or.inr hqr)),
            o1, o2, o3]
      · by_cases hqk : q = k
        · subst hqk
          have hmem : q ∈ q :: rest := List.mem_cons.mpr (Or.inl rfl)
          rw [if_pos rfl] at s1 s2 s3 s5
          refine ⟨?_, ?_, ?_, ?_, ?_⟩
          · rw [ih1, if_neg hqr, s1, if_pos hmem]
          · rw [ih2, if_neg hqr, s2, if_pos hmem]
          · rw [ih3, if_neg hqr, s3, if_pos hmem]
          · rw [ih4, s4]
          · rw [ih5, if_neg hqr, s5, if_pos hmem]
        · have hmem : q ∉ k :: rest := by simp [hqk, hqr]
          rw [if_neg hqk] at s1 s2 s3 s5
          refine ⟨?_, ?_, ?_, ?_, ?_⟩
          · rw [ih1, if_neg hqr, s1, if_neg hmem]
          · rw [ih2, if_neg hqr, s2, if_neg hmem]
          · rw [ih3, if_neg hqr, s3, if_neg hmem]
          · rw [ih4, s4]
          · rw [ih5, if_neg hqr, s5, if_neg hmem]

theorem removeImpl_parent (b : Tree) (l : TreeLog) (node : ℕ)
    (vis : Finset ℕ) (q : ℕ) :
    (removeImpl b l node vis).1.parent b q
      = if q = node ∨ q ∈ l.descendantsOf b node then none
        else l.parent b q := by
  unfold removeImpl
  dsimp only
  rw [parent_setParent]
  obtain ⟨e1, _, _, _, _⟩ := evacFold_effects b
    (sortList (l.descendantsOf b node)) (nodup_sortList _)
    (((l.setDescendants node ∅).setChildren node ∅), FMap.empty default) q
  have hfold_par : ∀ (w : TreeLog) (hw : w.parents
      = ((sortList (l.descendantsOf b node)).foldl (evacStep b)
          (((l.setDescendants node ∅).setChildren node ∅),
            FMap.empty default)).1.parents),
      w.parent b q = if q ∈ l.descendantsOf b node then none
        else l.parent b q := by
    intro w hw
    unfold TreeLog.parent
    rw [hw, e1]
    by_cases hq : q ∈ l.descendantsOf b node
    · rw [if_pos ((mem_sortList _ q).mpr hq), if_pos hq]
    · rw [if_neg (fun hc => hq ((mem_sortList _ q).mp hc)), if_neg hq]
      rfl
  by_cases hqn : q = node
  · rw [if_pos (Or.inl hqn), if_pos hqn]
  · rw [if_neg hqn]
    set l3 := ((sortList (l.descendantsOf b node)).foldl (evacStep b)
      (((l.setDescendants node ∅).setChildren node ∅), FMap.empty default)).1
      with hl3
    have hshrink := shrinkWalk_shape b
    rcases hm : l3.parent b node with _ | p
    · dsimp only
      rw [show (shrinkWalk b
          (fuelFor b l3) l3 vis (l3.parent b node) node
          (l.descendantsOf b node)).1.parent b q
          = l3.parent b q from by
        unfold TreeLog.parent
        rw [(hshrink _ _ _ _ _ _).1]]
      have := hfold_par l3 rfl
      rw [this]
      by_cases hq : q ∈ l.descendantsOf b node
      · rw [if_pos hq, if_pos (Or.inr hq)]
      · rw [if_neg hq, if_neg (fun hc => hc.elim hqn hq)]
    · dsimp only
      rw [show (shrinkWalk b
          (fuelFor b (l3.setChildren p ((l3.childrenOf b p).erase node)))
          (l3.setChildren p ((l3.childrenOf b p).erase node)) vis
          ((l3.setChildren p ((l3.childrenOf b p).erase node)).parent b node)
          node (l.descendantsOf b node)).1.parent b q
          = l3.parent b q from by
        unfold TreeLog.parent
        rw [(hshrink _ _ _ _ _ _).1]
        rfl]
      have := hfold_par l3 rfl
      rw [this]
      by_cases hq : q ∈ l.descendantsOf b node
      · rw [if_pos hq, if_pos (Or.inr hq)]
      · rw [if_neg hq, if_neg (fun hc => hc.elim hqn hq)]

theorem removeImpl_cycles (b : Tree) (l : TreeLog) (node : ℕ)
    (vis : Finset ℕ) :
    (removeImpl b l node vis).1.cycles = l.cycles := by
  unfold removeImpl
  dsimp only
  set l3 := ((sortList (l.descendantsOf b node)).foldl (evacStep b)
    (((l.setDescendants node ∅).setChildren node ∅), FMap.empty default)).1
    with hl3
  have hl3c : l3.cycles = l.cycles := by
    rw [hl3]
    exact (evacFold_effects b _ (nodup_sortList _) _ 0).2.2.2.1
  rcases hm : l3.parent b node with _ | p
  · dsimp only
    exact ((shrinkWalk_shape b _ _ _ _ _ _).2.2).trans hl3c
  · dsimp only
    exact ((shrinkWalk_shape b _ _ _ _ _ _).2.2).trans
      (show (l3.setChildren p ((l3.childrenOf b p).erase node)).cycles
        = l.cycles from hl3c)

theorem removeImpl_removed (b : Tree) (l : TreeLog) (node : ℕ)
    (vis : Finset ℕ) (q : ℕ) :
    (removeImpl b l node vis).2.1.lookup q
      = if q = node then
          some ⟨l.childrenOf b node, l.descendantsOf b node,
            if node ∈ l.descendantsOf b node then none
            else l.parent b node⟩
        else if q ∈ l.descendantsOf b node then
          some ⟨l.childrenOf b q, l.descendantsOf b q, l.parent b q⟩
        else none := by
  unfold removeImpl
  dsimp only
  by_cases hq : q = node
  · rw [hq, FMap.lookup_ins_self, if_pos rfl]
    set l3 := ((sortList (l.descendantsOf b node)).foldl (evacStep b)
      (((l.setDescendants node ∅).setChildren node ∅), FMap.empty default)).1
      with hl3
    have hl3p : l3.parent b node
        = if node ∈ l.descendantsOf b node then none
          else l.parent b node := by
      obtain ⟨f1, _, _, _, _⟩ := evacFold_effects b
        (sortList (l.descendantsOf b node)) (nodup_sortList _)
        (((l.setDescendants node ∅).setChildren node ∅), FMap.empty default)
        node
      by_cases hd : node ∈ l.descendantsOf b node
      · rw [if_pos hd]
        unfold TreeLog.parent
        rw [hl3, f1, if_pos ((mem_sortList _ _).mpr hd)]
      · rw [if_neg hd]
        unfold TreeLog.parent
        rw [hl3, f1, if_neg (fun hc => hd ((mem_sortList _ _).mp hc))]
        rfl
    rcases hm : l3.parent b node with _ | p
    · dsimp only
      rw [show (shrinkWalk b (fuelFor b l3) l3 vis (l3.parent b node) node
          (l.descendantsOf b node)).1.parent b node = l3.parent b node from by
        unfold TreeLog.parent
        rw [(shrinkWalk_shape b _ _ _ _ _ _).1]]
      rw [hl3p]
      rfl
    · dsimp only
      rw [show (shrinkWalk b
          (fuelFor b (l3.setChildren p ((l3.childrenOf b p).erase node)))
          (l3.setChildren p ((l3.childrenOf b p).erase node)) vis
          ((l3.setChildren p ((l3.childrenOf b p).erase node)).parent b node)
          node (l.descendantsOf b node)).1.parent b node
          = l3.parent b node from by
        unfold TreeLog.parent
        rw [(shrinkWalk_shape b _ _ _ _ _ _).1]
        rfl]
      rw [hl3p]
      rfl
  · rw [FMap.lookup_ins_ne _ _ _ _ hq, if_neg hq]
    obtain ⟨_, _, _, _, e5⟩ := evacFold_effects b
      (sortList (l.descendantsOf b node)) (nodup_sortList _)
      (((l.setDescendants node ∅).setChildren node ∅), FMap.empty default) q
    rw [e5]
    by_cases hd : q ∈ l.descendantsOf b node
    · rw [if_pos ((mem_sortList _ _).mpr hd), if_pos hd]
      rw [childrenOf_setChildren, if_neg hq, descendantsOf_setChildren,
        descendantsOf_setDescendants, if_neg hq]
      rfl
    · rw [if_neg (fun hc => hd ((mem_sortList _ _).mp hc)), if_neg hd]
      exact FMap.lookup_empty _ _

theorem restoreStep_effects (r : FMap RemoveItem) (acc : TreeLog)
    (n q : ℕ) :
    ((restoreStep r acc n).parents.lookup q
      = if q = n then some ((r.lookup n).getD default).parent
        else acc.parents.lookup q)
    ∧ ((restoreStep r acc n).children.lookup q
      = if q = n then some ((r.lookup n).getD default).children
        else acc.children.lookup q)
    ∧ ((restoreStep r acc n).descendants.lookup q
      = if q = n then some ((r.lookup n).getD default).descendants
        else acc.descendants.lookup q)
    ∧ ((restoreStep r acc n).cycles = acc.cycles) := by
  unfold restoreStep
  dsimp only
  by_cases h : q = n
  · subst h
    refine ⟨?_, ?_, ?_, rfl⟩ <;>
      simp [TreeLog.setParent, TreeLog.setChildren, TreeLog.setDescendants,
        FMap.lookup_ins_self]
  · refine ⟨?_, ?_, ?_, rfl⟩ <;>
      simp [TreeLog.setParent, TreeLog.setChildren, TreeLog.setDescendants,
        FMap.lookup_ins_ne _ _ _ _ h, h]

theorem restoreFold_lookup (r : FMap RemoveItem) :
    ∀ (ids : List ℕ) (acc : TreeLog) (q : ℕ),
      ((ids.foldl (restoreStep r) acc).parents.lookup q
        = if q ∈ ids then some ((r.lookup q).getD default).parent
          else acc.parents.lookup q)
      ∧ ((ids.foldl (restoreStep r) acc).children.lookup q
        = if q ∈ ids then some ((r.lookup q).getD default).children
          else acc.children.lookup q)
      ∧ ((ids.foldl (restoreStep r) acc).descendants.lookup q
        = if q ∈ ids then some ((r.lookup q).getD default).descendants
          else acc.descendants.lookup q) := by
  intro ids
  induction ids with
  | nil => intro acc q; simp
  | cons k rest ih =>
      intro acc q
      simp only [List.foldl_cons]
      obtain ⟨i1, i2, i3⟩ := ih (restoreStep r acc k) q
      obtain ⟨s1, s2, s3, _⟩ := restoreStep_effects r acc k q
      by_cases hqr : q ∈ rest
      · have hmem : q ∈ k :: rest := List.mem_cons.mpr (Or.inr hqr)
        refine ⟨?_, ?_, ?_⟩
        · rw [i1, if_pos hqr, if_pos hmem]
        · rw [i2, if_pos hqr, if_pos hmem]
        · rw [i3, if_pos hqr, if_pos hmem]
      · by_cases hqk : q = k
        · subst hqk
          have hmem : q ∈ q :: rest := List.mem_cons.mpr (Or.inl rfl)
          rw [if_pos rfl] at s1 s2 s3
          refine ⟨?_, ?_, ?_⟩
          · rw [i1, if_neg hqr, s1, if_pos hmem]
          · rw [i2, if_neg hqr, s2, if_pos hmem]
          · rw [i3, if_neg hqr, s3, if_pos hmem]
        · have hmem : q ∉ k :: rest := by simp [hqk, hqr]
          rw [if_neg hqk] at s1 s2 s3
          refine ⟨?_, ?_, ?_⟩
          · rw [i1, if_neg hqr, s1, if_neg hmem]
          · rw [i2, if_neg hqr, s2, if_neg hmem]
          · rw [i3, if_neg hqr, s3, if_neg hmem]

theorem restoreFold_cycles (r : FMap RemoveItem) :
    ∀ (ids : List ℕ) (acc : TreeLog),
      (ids.foldl (restoreStep r) acc).cycles = acc.cycles := by
  intro ids
  induction ids with
  | nil => intro acc; rfl
  | cons k rest ih =>
      intro acc
      rw [List.foldl_cons]
      exact (ih (restoreStep r acc k)).trans rfl

theorem reparent_parent (b : Tree) (l : TreeLog) (np : Option ℕ)
    (root : ℕ) (removed : FMap RemoveItem) (q : ℕ) :
    (reparentSubtree b l np root removed).parent b q
      = if q ∈ (removed.del root).keys then
          (((removed.del root).lookup q).getD default).parent
        else if q = root then np
        else l.parent b q := by
  have hcore : ∀ (l2 : TreeLog), l2.parents = l.parents.ins root np →
      ∀ (cur : Option ℕ) (item : RemoveItem),
      ((removed.del root).keyList.foldl (restoreStep (removed.del root))
        (((extendWalk b (fuelFor b l2) l2 ∅ cur root
            item.descendants).setChildren root item.children).setDescendants
          root item.descendants)).parent b q
      = if q ∈ (removed.del root).keys then
          (((removed.del root).lookup q).getD default).parent
        else if q = root then np
        else l.parent b q := by
    intro l2 hl2 cur item
    unfold TreeLog.parent
    rw [(restoreFold_lookup (removed.del root)
      ((removed.del root).keyList) _ q).1]
    simp only [FMap.keyList]
    by_cases hk : q ∈ (removed.del root).keys
    · rw [if_pos hk, if_pos hk]
    · rw [if_neg hk, if_neg hk]
      have hp : (((extendWalk b (fuelFor b l2) l2 ∅ cur root
          item.descendants).setChildren root item.children).setDescendants
            root item.descendants).parents = l.parents.ins root np := by
        show (extendWalk b (fuelFor b l2) l2 ∅ cur root
          item.descendants).parents = l.parents.ins root np
        rw [(extendWalk_shape b _ _ _ _ _ _).1, hl2]
      rw [hp]
      by_cases hr : q = root
      · rw [hr, FMap.lookup_ins_self, if_pos rfl]
      · rw [FMap.lookup_ins_ne _ _ _ _ hr, if_neg hr]
  rcases np with _ | p
  · unfold reparentSubtree
    dsimp only
    exact hcore (l.setParent root none) rfl none _
  · unfold reparentSubtree
    dsimp only
    exact hcore ((l.setParent root (some p)).setChildren p
      (insert root ((l.setParent root (some p)).childrenOf b p))) rfl
      (some p) _

theorem reparent_cycles (b : Tree) (l : TreeLog) (np : Option ℕ)
    (root : ℕ) (removed : FMap RemoveItem) :
    (reparentSubtree b l np root removed).cycles = l.cycles := by
  rcases np with _ | p
  · unfold reparentSubtree
    dsimp only
    rw [restoreFold_cycles]
    exact (extendWalk_shape b _ _ _ _ _ _).2.2
  · unfold reparentSubtree
    dsimp only
    rw [restoreFold_cycles]
    exact (extendWalk_shape b _ _ _ _ _ _).2.2

theorem insert_parent (b : Tree) (l : TreeLog) (p : Option ℕ) (c q : ℕ) :
    (l.insert b p c).parent b q = if q = c then p else l.parent b q := by
  unfold TreeLog.insert
  by_cases h0 : l.parent b c = p
  · rw [if_pos h0]
    by_cases hq : q = c
    · rw [if_pos hq, hq, h0]
    · rw [if_neg hq]
  · rw [if_neg h0]
    dsimp only
    rw [detect_parent, reparent_parent]
    by_cases hq : q = c
    · have hnm : ¬ q ∈ (((removeImpl b l c ∅).2.1).del c).keys :=
        fun hc => ((FMap.mem_del_keys _ _ _).mp hc).1 hq
      rw [if_neg hnm, if_pos hq, if_pos hq]
    · by_cases hd : q ∈ l.descendantsOf b c
      · have hm : q ∈ (((removeImpl b l c ∅).2.1).del c).keys := by
          rw [FMap.mem_del_keys]
          refine ⟨hq, ?_⟩
          rw [FMap.mem_keys_iff_lookup_isSome, removeImpl_removed,
            if_neg hq, if_pos hd]
          rfl
        rw [if_pos hm, FMap.lookup_del_ne _ _ _ hq, removeImpl_removed,
          if_neg hq, if_pos hd, if_neg hq]
        rfl
      · have hnm : ¬ q ∈ (((removeImpl b l c ∅).2.1).del c).keys := by
          rw [FMap.mem_del_keys]
          rintro ⟨_, hk⟩
          rw [FMap.mem_keys_iff_lookup_isSome, removeImpl_removed,
            if_neg hq, if_neg hd] at hk
          simp at hk
        rw [if_neg hnm, if_neg hq, if_neg hq, removeImpl_parent,
          if_neg (fun hc => hc.elim hq hd)]

theorem insert_cycles_mono (b : Tree) (l : TreeLog) (p : Option ℕ)
    (c : ℕ) : l.cyclesView b ⊆ (l.insert b p c).cyclesView b := by
  unfold TreeLog.insert
  by_cases h0 : l.parent b c = p
  · rw [if_pos h0]
  · rw [if_neg h0]
    dsimp only
    intro x hx
    apply (detect_shape b _ c).2.2.2
    have h1 : (reparentSubtree b (removeImpl b l c ∅).1 p c
        (removeImpl b l c ∅).2.1).cycles = l.cycles := by
      rw [reparent_cycles, removeImpl_cycles]
    unfold TreeLog.cyclesView at hx ⊢
    rw [h1]
    exact hx

/-! ### Iterated parent chasing as iteration of an optional successor -/

/-- Iteration of a partial successor function, the common shape of all
parent-chain walks. -/
def optIter (f : ℕ → Option ℕ) : ℕ → ℕ → Option ℕ
  | 0, n => some n
  | k + 1, n =>
      match f n with
      | some p => optIter f k p
      | none => none

theorem parentIter_eq_optIter (l : TreeLog) (b : Tree) :
    ∀ (k n : ℕ), l.parentIter b k n = optIter (fun q => l.parent b q) k n := by
  intro k
  induction k with
  | zero => intro n; rfl
  | succ k ih =>
      intro n
      rw [TreeLog.parentIter, optIter]
      rcases l.parent b n with _ | p
      · rfl
      · exact ih p

theorem optIter_congr (f g : ℕ → Option ℕ) (h : ∀ q, f q = g q) :
    ∀ (k n : ℕ), optIter f k n = optIter g k n := by
  intro k
  induction k with
  | zero => intro n; rfl
  | succ k ih =>
      intro n
      rw [optIter, optIter, h n]
      rcases g n with _ | p
      · rfl
      · exact ih p

theorem optIter_add (f : ℕ → Option ℕ) :
    ∀ (i j n : ℕ), optIter f (i + j) n
      = match optIter f i n with
        | some m => optIter f j m
        | none => none := by
  intro i
  induction i with
  | zero => intro j n; simp [optIter]
  | succ i ih =>
      intro j n
      rw [show i + 1 + j = (i + j) + 1 from by omega, optIter, optIter]
      rcases f n with _ | p
      · rfl
      · exact ih j p

theorem optIter_succ_right (f : ℕ → Option ℕ) (k n : ℕ) :
    optIter f (k + 1) n
      = match optIter f k n with
        | some m => f m
        | none => none := by
  rw [optIter_add f k 1 n]
  rcases optIter f k n with _ | m
  · rfl
  · dsimp only
    rw [optIter]
    rcases f m with _ | p
    · rfl
    · rfl

theorem optIter_prefix_isSome (f : ℕ → Option ℕ) (k n m : ℕ)
    (h : optIter f k n = some m) :
    ∀ i, i ≤ k → (optIter f i n).isSome := by
  intro i hi
  have := optIter_add f i (k - i) n
  rw [show i + (k - i) = k from by omega, h] at this
  rcases hx : optIter f i n with _ | y
  · rw [hx] at this
    exact absurd this.symm (by simp)
  · rfl

theorem optIter_add_period (f : ℕ → Option ℕ) (c per : ℕ)
    (h : optIter f per c = some c) (s : ℕ) :
    optIter f (per + s) c = optIter f s c := by
  rw [optIter_add f per s c, h]

theorem optIter_mod (f : ℕ → Option ℕ) (c per : ℕ) (hper : 0 < per)
    (h : optIter f per c = some c) :
    ∀ s, optIter f s c = optIter f (s % per) c := by
  intro s
  induction s using Nat.strong_induction_on with
  | _ s ih =>
      by_cases hs : s < per
      · rw [Nat.mod_eq_of_lt hs]
      · have h2 : optIter f s c = optIter f (s - per) c := by
          conv_lhs => rw [show s = per + (s - per) from by omega]
          exact optIter_add_period f c per h _
        rw [h2, ih (s - per) (by omega),
          Nat.mod_eq_sub_mod (show per ≤ s from by omega)]

/-! ### Cycle detection marks a whole minimal-period orbit -/

theorem detectAux_marks (b : Tree) (l : TreeLog) (x : ℕ → ℕ) (per : ℕ)
    (hper : 0 < per)
    (hstep : ∀ i, i < per → l.parent b (x i) = some (x (i + 1)))
    (hcyc : x per = x 0)
    (hdist : ∀ i j, i < per → j < per → x i = x j → i = j) :
    ∀ fuel t, t ≤ per → per + 1 - t ≤ fuel →
      (detectAux b fuel l ((Finset.range t).image x)
        ((List.range t).map x) (some (x t))).cyclesView b
      = l.cyclesView b ∪ ((List.range per).map x).toFinset := by
  intro fuel
  induction fuel with
  | zero =>
      intro t ht hfu
      exact absurd hfu (by omega)
  | succ f ih =>
      intro t ht hfu
      rw [detectAux]
      dsimp only
      by_cases hteq : t = per
      · subst hteq
        have hmem : x t ∈ (Finset.range t).image x := by
          rw [hcyc]
          exact Finset.mem_image.mpr ⟨0, Finset.mem_range.mpr hper, rfl⟩
        rw [if_pos hmem]
        have hcons : (List.range t).map x
            = x 0 :: ((List.range (t - 1)).map (fun i => x (i + 1))) := by
          conv_lhs => rw [show t = (t - 1) + 1 from by omega,
            List.range_succ_eq_map]
          rw [List.map_cons, List.map_map]
          rfl
        have hidx : (((List.range t).map x).findIdx (fun y => y == x t)) = 0 := by
          rw [hcons, List.findIdx_cons]
          simp [hcyc]
        rw [hidx, List.drop_zero, cyclesView_setCycles,
          (markFold_shape b ((List.range t).map x) l).2.2.2]
        refine Finset.insert_eq_self.mpr ?_
        refine Finset.mem_union_right _ ?_
        rw [hcyc, List.mem_toFinset, hcons]
        exact List.mem_cons_self _ _
      · have htlt : t < per := by omega
        have hnmem : x t ∉ (Finset.range t).image x := by
          intro hc
          obtain ⟨i, hi, hix⟩ := Finset.mem_image.mp hc
          have := hdist i t (by
            have := Finset.mem_range.mp hi
            omega) htlt hix
          have hilt := Finset.mem_range.mp hi
          omega
        rw [if_neg hnmem, hstep t htlt]
        have hseen : insert (x t) ((Finset.range t).image x)
            = (Finset.range (t + 1)).image x := by
          rw [Finset.range_succ, Finset.image_insert]
        have hpath : ((List.range t).map x) ++ [x t]
            = (List.range (t + 1)).map x := by
          rw [List.range_succ, List.map_append]
          rfl
        rw [hseen, hpath]
        exact ih (t + 1) (by omega) (by omega)

theorem orbit_card_le (b : Tree) (l : TreeLog) (x : ℕ → ℕ) (per : ℕ)
    (hstep : ∀ i, i < per → l.parent b (x i) = some (x (i + 1)))
    (hdist : ∀ i j, i < per → j < per → x i = x j → i = j) :
    per ≤ b.parents.keys.length + l.parents.keys.length := by
  classical
  have hsub : (Finset.range per).image x
      ⊆ l.parents.keys.toFinset ∪ b.parents.keys.toFinset := by
    intro y hy
    obtain ⟨i, hi, hix⟩ := Finset.mem_image.mp hy
    have hs := hstep i (Finset.mem_range.mp hi)
    rw [hix] at hs
    unfold TreeLog.parent at hs
    rcases hlk : l.parents.lookup y with _ | o
    · rw [hlk] at hs
      refine Finset.mem_union_right _ ?_
      rw [List.mem_toFinset, FMap.mem_keys_iff_lookup_isSome]
      have hs2 : b.parents.lookup y = some (x (i + 1)) := hs
      rw [hs2]
      rfl
    · refine Finset.mem_union_left _ ?_
      rw [List.mem_toFinset, FMap.mem_keys_iff_lookup_isSome, hlk]
      rfl
  have hcard : ((Finset.range per).image x).card = per := by
    rw [Finset.card_image_of_injOn fun i hi j hj hij =>
      hdist i j (Finset.mem_range.mp hi) (Finset.mem_range.mp hj) hij,
      Finset.card_range]
  have h1 := List.toFinset_card_le l.parents.keys
  have h2 := List.toFinset_card_le b.parents.keys
  have h3 := Finset.card_le_card hsub
  have h4 := Finset.card_union_le l.parents.keys.toFinset
    b.parents.keys.toFinset
  omega

theorem detect_marks_orbit (b : Tree) (l : TreeLog) (c k : ℕ)
    (hk : 0 < k)
    (hret : optIter (fun q => l.parent b q) k c = some c)
    (n s : ℕ)
    (hn : optIter (fun q => l.parent b q) s c = some n) :
    n ∈ (detectAndMarkCycles b l c).cyclesView b := by
  classical
  have hex : ∃ j, 0 < j ∧ optIter (fun q => l.parent b q) j c = some c :=
    ⟨k, hk, hret⟩
  obtain ⟨per, hper0, hperret, hmin⟩ :
      ∃ per, 0 < per ∧ optIter (fun q => l.parent b q) per c = some c
        ∧ ∀ m, m < per →
            ¬(0 < m ∧ optIter (fun q => l.parent b q) m c = some c) :=
    ⟨Nat.find hex, (Nat.find_spec hex).1, (Nat.find_spec hex).2,
      fun m hm => Nat.find_min hex hm⟩
  have hsome : ∀ i, i ≤ per →
      (optIter (fun q => l.parent b q) i c).isSome :=
    fun i hi => optIter_prefix_isSome _ per c c hperret i hi
  have hxval : ∀ i, i ≤ per → optIter (fun q => l.parent b q) i c
      = some ((optIter (fun q => l.parent b q) i c).getD 0) := by
    intro i hi
    have h1 := hsome i hi
    rcases hv : optIter (fun q => l.parent b q) i c with _ | y
    · rw [hv] at h1
      exact absurd h1 (by simp)
    · rfl
  have hx0 : (optIter (fun q => l.parent b q) 0 c).getD 0 = c := rfl
  have hcyc : (optIter (fun q => l.parent b q) per c).getD 0
      = (optIter (fun q => l.parent b q) 0 c).getD 0 := by
    rw [hperret, hx0]
    rfl
  have hstep : ∀ i, i < per →
      l.parent b ((optIter (fun q => l.parent b q) i c).getD 0)
        = some ((optIter (fun q => l.parent b q) (i + 1) c).getD 0) := by
    intro i hi
    have h3 := optIter_succ_right (fun q => l.parent b q) i c
    rw [hxval i (by omega)] at h3
    rw [hxval (i + 1) (by omega)] at h3
    exact h3.symm
  have key : ∀ i j, i < j → j < per →
      (optIter (fun q => l.parent b q) i c).getD 0
        ≠ (optIter (fun q => l.parent b q) j c).getD 0 := by
    intro i j hij hj heq
    have hreti := hxval i (by omega)
    have hretj := hxval j (by omega)
    have hsplit := optIter_add (fun q => l.parent b q) j (per - j) c
    rw [show j + (per - j) = per from by omega, hperret, hretj] at hsplit
    have hstep2 : optIter (fun q => l.parent b q) (per - j)
        ((optIter (fun q => l.parent b q) j c).getD 0) = some c :=
      hsplit.symm
    have hcomb := optIter_add (fun q => l.parent b q) i (per - j) c
    rw [hreti, heq] at hcomb
    have hret2 : optIter (fun q => l.parent b q) (i + (per - j)) c
        = some c := hcomb.trans hstep2
    exact hmin (i + (per - j)) (by omega) ⟨by omega, hret2⟩
  have hdist : ∀ i j, i < per → j < per →
      (optIter (fun q => l.parent b q) i c).getD 0
        = (optIter (fun q => l.parent b q) j c).getD 0 → i = j := by
    intro i j hi hj hij
    rcases lt_trichotomy i j with h | h | h
    · exact absurd hij (key i j h hj)
    · exact h
    · exact absurd hij.symm (key j i h hi)
  have hfuel : per + 1 - 0 ≤ fuelFor b l := by
    have := orbit_card_le b l
      (fun i => (optIter (fun q => l.parent b q) i c).getD 0) per hstep hdist
    unfold fuelFor
    omega
  have hmarks := detectAux_marks b l
    (fun i => (optIter (fun q => l.parent b q) i c).getD 0) per hper0 hstep
    hcyc hdist (fuelFor b l) 0 (by omega) hfuel
  rw [show ((Finset.range 0).image
      (fun i => (optIter (fun q => l.parent b q) i c).getD 0)) = ∅ from by
    simp] at hmarks
  rw [show ((List.range 0).map
      (fun i => (optIter (fun q => l.parent b q) i c).getD 0)) = [] from by
    simp] at hmarks
  dsimp only at hmarks
  rw [show (optIter (fun q => l.parent b q) 0 c).getD 0 = c from rfl]
    at hmarks
  unfold detectAndMarkCycles
  rw [hmarks]
  refine Finset.mem_union_right _ ?_
  have hmod := optIter_mod (fun q => l.parent b q) c per hper0 hperret s
  rw [hn] at hmod
  have hsp : s % per < per := Nat.mod_lt _ hper0
  have hxs := hxval (s % per) (by omega)
  have hnx : n = (optIter (fun q => l.parent b q) (s % per) c).getD 0 := by
    rw [hxs] at hmod
    exact Option.some_inj.mp hmod
  rw [hnx, List.mem_toFinset]
  exact List.mem_map.mpr ⟨s % per, List.mem_range.mpr hsp, rfl⟩

theorem optIter_congr_avoid (f g : ℕ → Option ℕ) (c : ℕ)
    (hfg : ∀ q, q ≠ c → g q = f q) :
    ∀ (k n : ℕ), (∀ t, t < k → optIter g t n ≠ some c) →
      optIter g k n = optIter f k n := by
  intro k
  induction k with
  | zero => intro n _; rfl
  | succ k ih =>
      intro n havoid
      have hnc : n ≠ c := by
        intro hcc
        exact havoid 0 (by omega) (by rw [hcc]; rfl)
      rw [optIter, optIter, hfg n hnc]
      rcases hfn : f n with _ | p
      · rfl
      · refine ih p ?_
        intro t ht hc2
        refine havoid (t + 1) (by omega) ?_
        rw [optIter, hfg n hnc, hfn]
        exact hc2

theorem detectFold_parent (b : Tree) :
    ∀ (starts : List ℕ) (l : TreeLog) (q : ℕ),
      ((starts.foldl (fun acc m => detectAndMarkCycles b acc m) l).parent b q)
        = l.parent b q := by
  intro starts
  induction starts with
  | nil => intro l q; rfl
  | cons s rest ih =>
      intro l q
      rw [List.foldl_cons, ih (detectAndMarkCycles b l s) q, detect_parent]

theorem detectFold_mono (b : Tree) :
    ∀ (starts : List ℕ) (l : TreeLog),
      l.cyclesView b ⊆
        (starts.foldl (fun acc m => detectAndMarkCycles b acc m)
          l).cyclesView b := by
  intro starts
  induction starts with
  | nil => intro l; exact fun y hy => hy
  | cons s rest ih =>
      intro l
      rw [List.foldl_cons]
      exact fun y hy => ih (detectAndMarkCycles b l s)
        ((detect_shape b l s).2.2.2 hy)

theorem detectFold_marks (b : Tree) :
    ∀ (starts : List ℕ) (l : TreeLog) (n k : ℕ), 0 < k →
      optIter (fun q => l.parent b q) k n = some n →
      n ∈ starts →
      n ∈ ((starts.foldl (fun acc m => detectAndMarkCycles b acc m)
        l).cyclesView b) := by
  intro starts
  induction starts with
  | nil => intro l n k hk hret hmem; exact absurd hmem (List.not_mem_nil n)
  | cons s rest ih =>
      intro l n k hk hret hmem
      rw [List.foldl_cons]
      rcases List.mem_cons.mp hmem with heq | hmem2
      · subst heq
        exact detectFold_mono b rest _
          (detect_marks_orbit b l n k hk hret n 0 rfl)
      · refine ih (detectAndMarkCycles b l s) n k hk ?_ hmem2
        exact (optIter_congr _ _
          (fun q => detect_parent b l s q) k n).trans hret

/-! ### The cycle-marking invariant preserved by insert and remove -/

/-- Every node to which the overlay parent chain returns (a node on a
parent cycle) is marked in the cycles set. -/
def cycleMarked (b : Tree) (l : TreeLog) : Prop :=
  ∀ n k, 0 < k → optIter (fun q => l.parent b q) k n = some n →
    n ∈ l.cyclesView b

theorem insert_cycleMarked (b : Tree) (l : TreeLog) (p : Option ℕ) (c : ℕ)
    (hinv : cycleMarked b l) : cycleMarked b (l.insert b p c) := by
  intro n k hk hret
  by_cases h0 : l.parent b c = p
  · have hid : l.insert b p c = l := by
      unfold TreeLog.insert
      rw [if_pos h0]
    rw [hid] at hret ⊢
    exact hinv n k hk hret
  · by_cases hc : ∃ t, t < k
        ∧ optIter (fun q => (l.insert b p c).parent b q) t n = some c
    · obtain ⟨t, htk, htc⟩ := hc
      have hsplit1 := optIter_add
        (fun q => (l.insert b p c).parent b q) t (k - t) n
      rw [show t + (k - t) = k from by omega, hret, htc] at hsplit1
      have hcn : optIter (fun q => (l.insert b p c).parent b q) (k - t) c
          = some n := hsplit1.symm
      have h2 := optIter_add
        (fun q => (l.insert b p c).parent b q) (k - t) t c
      rw [hcn] at h2
      have h3 : optIter (fun q => (l.insert b p c).parent b q)
          ((k - t) + t) c
          = optIter (fun q => (l.insert b p c).parent b q) t n := h2
      rw [htc, show (k - t) + t = k from by omega] at h3
      have hform : l.insert b p c = detectAndMarkCycles b
          (reparentSubtree b (removeImpl b l c ∅).1 p c
            (removeImpl b l c ∅).2.1) c := by
        unfold TreeLog.insert
        rw [if_neg h0]
      have hpar : ∀ q, (l.insert b p c).parent b q
          = (reparentSubtree b (removeImpl b l c ∅).1 p c
              (removeImpl b l c ∅).2.1).parent b q := by
        intro q
        rw [hform]
        exact detect_parent b _ c q
      have hcc1 : optIter (fun q => (reparentSubtree b
          (removeImpl b l c ∅).1 p c
          (removeImpl b l c ∅).2.1).parent b q) k c = some c :=
        (optIter_congr _ _ (fun q => (hpar q).symm) k c).trans h3
      have hcn1 : optIter (fun q => (reparentSubtree b
          (removeImpl b l c ∅).1 p c
          (removeImpl b l c ∅).2.1).parent b q) (k - t) c = some n :=
        (optIter_congr _ _ (fun q => (hpar q).symm) (k - t) c).trans hcn
      rw [hform]
      exact detect_marks_orbit b _ c k hk hcc1 n (k - t) hcn1
    · push_neg at hc
      have heq := optIter_congr_avoid (fun q => l.parent b q)
        (fun q => (l.insert b p c).parent b q) c
        (fun q hq => by
          show (l.insert b p c).parent b q = l.parent b q
          rw [insert_parent, if_neg hq]) k n
        (fun t ht => hc t ht)
      rw [heq] at hret
      exact insert_cycles_mono b l p c (hinv n k hk hret)

theorem remove_cycleMarked (b : Tree) (l : TreeLog) (node : ℕ)
    (hb : ∀ q, b.parent q = none) :
    cycleMarked b (l.remove b node) := by
  intro n k hk hret
  unfold TreeLog.remove at hret ⊢
  dsimp only at hret ⊢
  have hfpar : ∀ q, ((((removeImpl b l node ∅).1.setCycles
      ∅).parents.keyList.foldl (fun acc m => detectAndMarkCycles b acc m)
      ((removeImpl b l node ∅).1.setCycles ∅)).parent b q)
      = ((removeImpl b l node ∅).1.setCycles ∅).parent b q :=
    fun q => detectFold_parent b _ _ q
  have hret1 : optIter (fun q => ((removeImpl b l node ∅).1.setCycles
      ∅).parent b q) k n = some n :=
    (optIter_congr _ _ (fun q => (hfpar q).symm) k n).trans hret
  have hstep0 : (((removeImpl b l node ∅).1.setCycles ∅).parent b n).isSome := by
    rcases k with _ | k0
    · omega
    · rw [optIter] at hret1
      rcases hpn : ((removeImpl b l node ∅).1.setCycles ∅).parent b n
        with _ | pn
      · rw [hpn] at hret1
        exact absurd hret1 (by simp)
      · rfl
  have hkeys : n ∈ ((removeImpl b l node ∅).1.setCycles ∅).parents.keyList := by
    unfold TreeLog.parent at hstep0
    rcases hlk : ((removeImpl b l node ∅).1.setCycles ∅).parents.lookup n
      with _ | o
    · have h2 : (b.parent n).isSome := by
        rw [hlk] at hstep0
        exact hstep0
      rw [hb n] at h2
      exact absurd h2 (by simp)
    · exact (FMap.mem_keys_iff_lookup_isSome _ _).mpr (by rw [hlk]; rfl)
  exact detectFold_marks b _ _ n k hk hret1 hkeys

/-- The logs reachable from the empty log by `TreeLog::insert` and
`TreeLog::remove` operations over the base `b`. -/
inductive ReachedLog (b : Tree) : TreeLog → Prop where
  | base : ReachedLog b TreeLog.new
  | ins : ∀ (l : TreeLog) (p : Option ℕ) (c : ℕ), ReachedLog b l →
      ReachedLog b (l.insert b p c)
  | rem : ∀ (l : TreeLog) (n : ℕ), ReachedLog b l →
      ReachedLog b (l.remove b n)

theorem new_cycleMarked (b : Tree) (hb : ∀ q, b.parent q = none) :
    cycleMarked b TreeLog.new := by
  intro n k hk hret
  rcases k with _ | k0
  · omega
  · rw [optIter] at hret
    have hp : TreeLog.new.parent b n = none := by
      unfold TreeLog.parent TreeLog.new
      rw [FMap.lookup_empty]
      exact hb n
    rw [hp] at hret
    exact absurd hret (by simp)

theorem reached_cycleMarked (l : TreeLog)
    (hreach : ReachedLog Tree.new l) : cycleMarked Tree.new l := by
  have hb : ∀ q, Tree.new.parent q = none := fun q => FMap.lookup_empty _ _
  induction hreach with
  | base => exact new_cycleMarked Tree.new hb
  | ins l0 p c _ ih => exact insert_cycleMarked Tree.new l0 p c ih
  | rem l0 m _ ih => exact remove_cycleMarked Tree.new l0 m hb

/-- **C4, amended.**  In any state reached from an empty base tree and an
empty log by a sequence of `TreeLog::insert` and `TreeLog::remove`
operations, every node actually lying on a parent cycle — every `n` to
which the overlay parent chain returns after `k ≥ 1` steps — is marked in
the cycles set.  (The original claim also required the nodes on the
approach path from the walk's start into the loop to be marked; the
counterexample `c4_marking_counterexample` shows `detect_and_mark_cycles`
marks only the loop itself.) -/
theorem c4_cycle_marking_amended (l : TreeLog)
    (hreach : ReachedLog Tree.new l) (n k : ℕ) (hk : 0 < k)
    (hret : l.parentIter Tree.new k n = some n) :
    n ∈ l.cyclesView Tree.new := by
  refine reached_cycleMarked l hreach n k hk ?_
  rw [← parentIter_eq_optIter]
  exact hret

theorem c4_cycle_marking_amended_witness :
    (ReachedLog Tree.new ((TreeLog.new.insert Tree.new (some 1) 2).insert
        Tree.new (some 2) 1)
    ∧ (0 < 2)
    ∧ ((TreeLog.new.insert Tree.new (some 1) 2).insert Tree.new
        (some 2) 1).parentIter Tree.new 2 1 = some 1)
    ∧ 1 ∈ (((TreeLog.new.insert Tree.new (some 1) 2).insert Tree.new
        (some 2) 1).cyclesView Tree.new) := by
  have hreach : ReachedLog Tree.new ((TreeLog.new.insert Tree.new
      (some 1) 2).insert Tree.new (some 2) 1) :=
    ReachedLog.ins _ (some 2) 1 (ReachedLog.ins _ (some 1) 2 ReachedLog.base)
  have hp1 : ((TreeLog.new.insert Tree.new (some 1) 2).insert Tree.new
      (some 2) 1).parent Tree.new 1 = some 2 := by
    rw [insert_parent, if_pos rfl]
  have hp2 : ((TreeLog.new.insert Tree.new (some 1) 2).insert Tree.new
      (some 2) 1).parent Tree.new 2 = some 1 := by
    rw [insert_parent, if_neg (by decide), insert_parent, if_pos rfl]
  have hret : ((TreeLog.new.insert Tree.new (some 1) 2).insert Tree.new
      (some 2) 1).parentIter Tree.new 2 1 = some 1 := by
    show ((TreeLog.new.insert Tree.new (some 1) 2).insert Tree.new
      (some 2) 1).parentIter Tree.new (0 + 1 + 1) 1 = some 1
    rw [TreeLog.parentIter, hp1]
    dsimp only
    rw [TreeLog.parentIter, hp2]
    rfl
  exact ⟨⟨hreach, by omega, hret⟩,
    c4_cycle_marking_amended _ hreach 1 2 (by omega) hret⟩

/-! ### `Tree::apply` is faithful to the overlay reads -/

theorem applyParentsStep_lookup_ne (src : FMap (Option ℕ))
    (acc : FMap ℕ × Bool) (k q : ℕ) (h : q ≠ k) :
    (applyParentsStep src acc k).1.lookup q = acc.1.lookup q := by
  unfold applyParentsStep
  rcases hs : (src.lookup k).getD none with _ | p
  · exact FMap.lookup_del_ne _ _ _ h
  · exact FMap.lookup_ins_ne _ _ _ _ h

theorem applyParentsStep_lookup_self (src : FMap (Option ℕ))
    (acc : FMap ℕ × Bool) (k : ℕ) :
    (applyParentsStep src acc k).1.lookup k
      = match (src.lookup k).getD none with
        | some p => some p
        | none => none := by
  unfold applyParentsStep
  rcases hs : (src.lookup k).getD none with _ | p
  · exact FMap.lookup_del_self _ _
  · exact FMap.lookup_ins_self _ _ _

theorem applyParentsFold_lookup (src : FMap (Option ℕ)) :
    ∀ (keys : List ℕ), keys.Nodup →
    ∀ (m0 : FMap ℕ) (b0 : Bool) (q : ℕ),
      ((keys.foldl (applyParentsStep src) (m0, b0)).1.lookup q)
        = if q ∈ keys then
            (match (src.lookup q).getD none with
             | some p => some p
             | none => none)
          else m0.lookup q := by
  intro keys
  induction keys with
  | nil => intro _ m0 b0 q; simp
  | cons k rest ih =>
      intro hnd m0 b0 q
      have hndr : rest.Nodup := hnd.of_cons
      simp only [List.foldl_cons]
      have hstep := ih hndr (applyParentsStep src (m0, b0) k).1
        (applyParentsStep src (m0, b0) k).2 q
      rw [Prod.mk.eta] at hstep
      rw [hstep]
      by_cases hqr : q ∈ rest
      · simp [hqr]
      · by_cases hqk : q = k
        · subst hqk
          simp [hqr, applyParentsStep_lookup_self]
        · simp [hqr, hqk, applyParentsStep_lookup_ne src _ _ _ hqk]

theorem applyLog_parent (t : Tree) (log : TreeLog) (q : ℕ) :
    (t.applyLog log).1.parent q = log.parent t q := by
  unfold Tree.applyLog Tree.parent TreeLog.parent
  dsimp only
  rw [applyParentsFold_lookup log.parents log.parents.keyList
    log.parents.nodup t.parents _ q]
  by_cases hq : q ∈ log.parents.keyList
  · rw [if_pos hq]
    obtain ⟨o, ho⟩ : ∃ o, log.parents.lookup q = some o :=
      ⟨log.parents.val q, FMap.lookup_eq_of_mem hq⟩
    rw [ho]
    dsimp only
    rcases o with _ | p <;> rfl
  · rw [if_neg hq, FMap.lookup_eq_none_of_not_mem hq]
    rfl

theorem applyLog_childrenOf (t : Tree) (log : TreeLog) (q : ℕ) :
    (t.applyLog log).1.childrenOf q = log.childrenOf t q := by
  unfold Tree.applyLog Tree.childrenOf TreeLog.childrenOf
  dsimp only
  unfold applyBitmap
  rw [bitmapFold_lookup log.children log.children.keyList
    log.children.nodup t.children false q]
  by_cases hq : q ∈ log.children.keyList
  · rw [if_pos hq]
    obtain ⟨s, hs⟩ : ∃ s, log.children.lookup q = some s :=
      ⟨log.children.val q, FMap.lookup_eq_of_mem hq⟩
    rw [hs]
    by_cases hse : s = ∅
    · simp [hse]
    · simp [hse]
  · rw [if_neg hq, FMap.lookup_eq_none_of_not_mem hq]
    rfl

theorem applyLog_descendantsOf (t : Tree) (log : TreeLog) (q : ℕ) :
    (t.applyLog log).1.descendantsOf q = log.descendantsOf t q := by
  unfold Tree.applyLog Tree.descendantsOf TreeLog.descendantsOf
  dsimp only
  unfold applyBitmap
  rw [bitmapFold_lookup log.descendants log.descendants.keyList
    log.descendants.nodup t.descendants false q]
  by_cases hq : q ∈ log.descendants.keyList
  · rw [if_pos hq]
    obtain ⟨s, hs⟩ : ∃ s, log.descendants.lookup q = some s :=
      ⟨log.descendants.val q, FMap.lookup_eq_of_mem hq⟩
    rw [hs]
    by_cases hse : s = ∅
    · simp [hse]
    · simp [hse]
  · rw [if_neg hq, FMap.lookup_eq_none_of_not_mem hq]
    rfl

theorem applyLog_cycles (t : Tree) (log : TreeLog) :
    (t.applyLog log).1.cycles = log.cyclesView t := by
  unfold Tree.applyLog TreeLog.cyclesView
  dsimp only
  rcases log.cycles with _ | c
  · rfl
  · dsimp only [Option.getD]
    by_cases h : t.cycles ≠ c
    · rw [if_pos h]
    · rw [if_neg h]
      exact not_not.mp (fun hc => h (fun he => hc he)) |>.symm ▸ rfl

/-! ### The empty log reads through to the base -/

theorem newLog_parent (b : Tree) (q : ℕ) :
    TreeLog.new.parent b q = b.parent q := by
  unfold TreeLog.parent TreeLog.new
  rw [FMap.lookup_empty]

theorem newLog_childrenOf (b : Tree) (q : ℕ) :
    TreeLog.new.childrenOf b q = b.childrenOf q := by
  unfold TreeLog.childrenOf TreeLog.new
  rw [FMap.lookup_empty]
  rfl

theorem newLog_descendantsOf (b : Tree) (q : ℕ) :
    TreeLog.new.descendantsOf b q = b.descendantsOf q := by
  unfold TreeLog.descendantsOf TreeLog.new
  rw [FMap.lookup_empty]
  rfl

theorem newLog_cyclesView (b : Tree) :
    TreeLog.new.cyclesView b = b.cycles := rfl

/-! ### The consistency invariant of the overlay tree -/

/-- The joint invariant of a `(base, log)` tree state in the acyclic
regime: descendant sets record exactly parent-chain reachability,
children sets are exactly the parent fibers, the parent relation is
acyclic, and no cycle is marked. -/
structure TreeInv (b : Tree) (l : TreeLog) : Prop where
  hA : ∀ n d, d ∈ l.descendantsOf b n
    ↔ ∃ k, 0 < k ∧ optIter (fun q => l.parent b q) k d = some n
  hB : ∀ p c, c ∈ l.childrenOf b p ↔ l.parent b c = some p
  hC : ∀ n k, 0 < k → optIter (fun q => l.parent b q) k n ≠ some n
  hE : l.cyclesView b = ∅

theorem optIter_sub (f g : ℕ → Option ℕ)
    (h : ∀ q y, g q = some y → f q = some y) :
    ∀ k n m, optIter g k n = some m → optIter f k n = some m := by
  intro k
  induction k with
  | zero => intro n m hm; exact hm
  | succ k ih =>
      intro n m hm
      rw [optIter] at hm ⊢
      rcases hg : g n with _ | p
      · rw [hg] at hm
        exact absurd hm (by simp)
      · rw [hg] at hm
        rw [h n p hg]
        exact ih p m hm

theorem acyclic_chain_inj (f : ℕ → Option ℕ)
    (hC : ∀ n k, 0 < k → optIter f k n ≠ some n) (n : ℕ) :
    ∀ i j y, i < j → optIter f i n = some y → optIter f j n = some y →
      False := by
  intro i j y hij hi hj
  have hsplit := optIter_add f i (j - i) n
  rw [show i + (j - i) = j from by omega, hj, hi] at hsplit
  exact hC y (j - i) (by omega) hsplit.symm

/-- Any node with a parent is a key of one of the two parent maps. -/
theorem parent_support (b : Tree) (l : TreeLog) (y p : ℕ)
    (h : l.parent b y = some p) :
    y ∈ l.parents.keys ∨ y ∈ b.parents.keys := by
  unfold TreeLog.parent at h
  rcases hlk : l.parents.lookup y with _ | o
  · rw [hlk] at h
    refine Or.inr ?_
    rw [FMap.mem_keys_iff_lookup_isSome]
    have h2 : b.parents.lookup y = some p := h
    rw [h2]
    rfl
  · exact Or.inl ((FMap.mem_keys_iff_lookup_isSome _ _).mpr
      (by rw [hlk]; rfl))

/-- A chain under an acyclic overlay parent relation terminates within
the number of parent entries. -/
theorem chain_exists (b : Tree) (l : TreeLog)
    (hC : ∀ n k, 0 < k →
      optIter (fun q => l.parent b q) k n ≠ some n) (a0 : ℕ) :
    ∃ m, m ≤ b.parents.keys.length + l.parents.keys.length
      ∧ (∀ i, i ≤ m → (optIter (fun q => l.parent b q) i a0).isSome)
      ∧ optIter (fun q => l.parent b q) (m + 1) a0 = none := by
  classical
  by_cases hall : ∀ i,
      i ≤ b.parents.keys.length + l.parents.keys.length + 1 →
      (optIter (fun q => l.parent b q) i a0).isSome
  · exfalso
    -- a live chain longer than the key count is impossible
    set B := b.parents.keys.length + l.parents.keys.length with hB
    have hval : ∀ i, i ≤ B + 1 → optIter (fun q => l.parent b q) i a0
        = some ((optIter (fun q => l.parent b q) i a0).getD 0) := by
      intro i hi
      have h1 := hall i hi
      rcases hv : optIter (fun q => l.parent b q) i a0 with _ | y
      · rw [hv] at h1
        exact absurd h1 (by simp)
      · rfl
    have hstep : ∀ i, i < B + 1 →
        l.parent b ((optIter (fun q => l.parent b q) i a0).getD 0)
          = some ((optIter (fun q => l.parent b q) (i + 1) a0).getD 0) := by
      intro i hi
      have h3 := optIter_succ_right (fun q => l.parent b q) i a0
      rw [hval i (by omega), hval (i + 1) (by omega)] at h3
      exact h3.symm
    have hdist : ∀ i j, i < B + 1 → j < B + 1 →
        (optIter (fun q => l.parent b q) i a0).getD 0
          = (optIter (fun q => l.parent b q) j a0).getD 0 → i = j := by
      intro i j hi hj hij
      rcases lt_trichotomy i j with h | h | h
      · exact absurd (hij ▸ hval i (by omega))
          (fun hc => acyclic_chain_inj _ hC a0 i j _ h hc (hval j (by omega)))
      · exact h
      · exact absurd (hij ▸ hval j (by omega))
          (fun hc => acyclic_chain_inj _ hC a0 j i _ h
            (hij ▸ hval j (by omega)) (hval i (by omega)))
    have := orbit_card_le b l
      (fun i => (optIter (fun q => l.parent b q) i a0).getD 0) (B + 1)
      hstep hdist
    omega
  · push_neg at hall
    obtain ⟨i0, hi0, hnot⟩ := hall
    have hex : ∃ i, ¬(optIter (fun q => l.parent b q) i a0).isSome :=
      ⟨i0, hnot⟩
    have h0some : (optIter (fun q => l.parent b q) 0 a0).isSome := rfl
    obtain ⟨j, hjnot, hjmin⟩ :
        ∃ j, ¬(optIter (fun q => l.parent b q) j a0).isSome
          ∧ ∀ i, i < j → (optIter (fun q => l.parent b q) i a0).isSome :=
      ⟨Nat.find hex, Nat.find_spec hex,
        fun i hi => not_not.mp (Nat.find_min hex hi)⟩
    have hj1 : 1 ≤ j := by
      rcases Nat.eq_zero_or_pos j with h | h
      · rw [h] at hjnot
        exact absurd h0some hjnot
      · exact h
    refine ⟨j - 1, ?_, fun i hi => hjmin i (by omega), ?_⟩
    · -- j - 1 ≤ key count: the nodes before j form a distinct supported chain
      set B := b.parents.keys.length + l.parents.keys.length with hB
      by_cases hjB : j - 1 ≤ B
      · exact hjB
      · exfalso
        have hval : ∀ i, i ≤ j - 1 →
            optIter (fun q => l.parent b q) i a0
            = some ((optIter (fun q => l.parent b q) i a0).getD 0) := by
          intro i hi
          have h1 := hjmin i (by omega)
          rcases hv : optIter (fun q => l.parent b q) i a0 with _ | y
          · rw [hv] at h1
            exact absurd h1 (by simp)
          · rfl
        have hstep : ∀ i, i < j - 1 →
            l.parent b ((optIter (fun q => l.parent b q) i a0).getD 0)
              = some ((optIter (fun q => l.parent b q) (i + 1) a0).getD 0) := by
          intro i hi
          have h3 := optIter_succ_right (fun q => l.parent b q) i a0
          rw [hval i (by omega), hval (i + 1) (by omega)] at h3
          exact h3.symm
        have hdist : ∀ i j2, i < j - 1 → j2 < j - 1 →
            (optIter (fun q => l.parent b q) i a0).getD 0
              = (optIter (fun q => l.parent b q) j2 a0).getD 0 → i = j2 := by
          intro i j2 hi hj2 hij
          rcases lt_trichotomy i j2 with h | h | h
          · exact absurd trivial (fun _ => acyclic_chain_inj _ hC a0 i j2 _ h
              (hij ▸ hval i (by omega)) (hval j2 (by omega)))
          · exact h
          · exact absurd trivial (fun _ => acyclic_chain_inj _ hC a0 j2 i _ h
              (hij ▸ hval j2 (by omega)) (hval i (by omega)))
        have := orbit_card_le b l
          (fun i => (optIter (fun q => l.parent b q) i a0).getD 0) (j - 1)
          hstep hdist
        omega
    · rcases hv : optIter (fun q => l.parent b q) (j - 1 + 1) a0 with _ | y
      · rfl
      · rw [show j - 1 + 1 = j from by omega] at hv
        rw [hv] at hjnot
        exact absurd rfl hjnot

/-! ### Cycle detection is a no-op on an acyclic state -/

theorem detectAux_acyclic (b : Tree) (l : TreeLog)
    (hC : ∀ n k, 0 < k →
      optIter (fun q => l.parent b q) k n ≠ some n) :
    ∀ fuel (seen : Finset ℕ) (path : List ℕ) (cur : Option ℕ),
      (∀ z, cur = some z → ∀ y ∈ seen, ∃ j, 0 < j
        ∧ optIter (fun q => l.parent b q) j y = some z) →
      detectAux b fuel l seen path cur = l := by
  intro fuel
  induction fuel with
  | zero => intro seen path cur _; rfl
  | succ f ih =>
      intro seen path cur hinv
      rcases cur with _ | z
      · rfl
      · rw [detectAux]
        have hz : z ∉ seen := by
          intro hzin
          obtain ⟨j, hj0, hjret⟩ := hinv z rfl z hzin
          exact hC z j hj0 hjret
        rw [if_neg hz]
        refine ih (insert z seen) (path ++ [z]) (l.parent b z) ?_
        intro z' hz' y hy
        rcases Finset.mem_insert.mp hy with hyz | hyseen
        · refine ⟨1, by omega, ?_⟩
          rw [hyz, optIter, hz']
          rfl
        · obtain ⟨j, hj0, hjret⟩ := hinv z rfl y hyseen
          refine ⟨j + 1, by omega, ?_⟩
          rw [optIter_succ_right, hjret]
          exact hz'

theorem detect_acyclic (b : Tree) (l : TreeLog)
    (hC : ∀ n k, 0 < k →
      optIter (fun q => l.parent b q) k n ≠ some n) (start : ℕ) :
    detectAndMarkCycles b l start = l :=
  detectAux_acyclic b l hC (fuelFor b l) ∅ [] (some start)
    (fun _ _ y hy => absurd hy (Finset.not_mem_empty y))

theorem detectFold_acyclic (b : Tree) :
    ∀ (starts : List ℕ) (l : TreeLog),
      (∀ n k, 0 < k →
        optIter (fun q => l.parent b q) k n ≠ some n) →
      (starts.foldl (fun acc m => detectAndMarkCycles b acc m) l) = l := by
  intro starts
  induction starts with
  | nil => intro l _; rfl
  | cons s rest ih =>
      intro l hC
      rw [List.foldl_cons, detect_acyclic b l hC s]
      exact ih l hC

/-! ### The stated closure follows from the invariant -/

theorem closure_of_inv (b : Tree) (l : TreeLog)
    (hA : ∀ n d, d ∈ l.descendantsOf b n
      ↔ ∃ k, 0 < k ∧ optIter (fun q => l.parent b q) k d = some n)
    (hB : ∀ p c, c ∈ l.childrenOf b p ↔ l.parent b c = some p) (n : ℕ) :
    l.descendantsOf b n
      = (l.childrenOf b n).biUnion
          (fun c => insert c (l.descendantsOf b c)) := by
  ext d
  rw [hA, Finset.mem_biUnion]
  constructor
  · rintro ⟨k, hk0, hkret⟩
    rcases Nat.lt_or_ge k 2 with hk2 | hk2
    · have hk1 : k = 1 := by omega
      subst hk1
      rw [optIter] at hkret
      rcases hf : l.parent b d with _ | p
      · rw [hf] at hkret
        exact absurd hkret (by simp)
      · rw [hf] at hkret
        have hp : p = n := Option.some_inj.mp hkret
        subst hp
        exact ⟨d, (hB p d).mpr hf, Finset.mem_insert_self d _⟩
    · have hsp := optIter_succ_right (fun q => l.parent b q) (k - 1) d
      rw [show k - 1 + 1 = k from by omega, hkret] at hsp
      rcases hy : optIter (fun q => l.parent b q) (k - 1) d with _ | y
      · rw [hy] at hsp
        exact absurd hsp.symm (by simp)
      · rw [hy] at hsp
        have hyn : l.parent b y = some n := hsp.symm
        refine ⟨y, (hB n y).mpr hyn, Finset.mem_insert_of_mem ?_⟩
        rw [hA]
        exact ⟨k - 1, by omega, hy⟩
  · rintro ⟨c, hc, hd⟩
    have hcn : l.parent b c = some n := (hB n c).mp hc
    rcases Finset.mem_insert.mp hd with hdc | hdd
    · subst hdc
      refine ⟨1, by omega, ?_⟩
      rw [optIter, hcn]
      rfl
    · obtain ⟨k, hk0, hkret⟩ := (hA c d).mp hdd
      refine ⟨k + 1, by omega, ?_⟩
      rw [optIter_succ_right, hkret]
      exact hcn

/-! ### Exact effect of the two ancestor walks along a terminating chain -/

theorem shrinkWalk_none (b : Tree) (node : ℕ) (desc : Finset ℕ) :
    ∀ fuel (l : TreeLog) (vis : Finset ℕ),
      shrinkWalk b fuel l vis none node desc = (l, vis) := by
  intro fuel l vis
  cases fuel with
  | zero => rfl
  | succ f => rfl

theorem extendWalk_none (b : Tree) (root : ℕ) (descs : Finset ℕ) :
    ∀ fuel (l : TreeLog) (vis : Finset ℕ),
      extendWalk b fuel l vis none root descs = l := by
  intro fuel l vis
  cases fuel with
  | zero => rfl
  | succ f => rfl

theorem shrinkWalk_effect (b : Tree) (node : ℕ) (desc : Finset ℕ)
    (par : ℕ → Option ℕ) (x : ℕ → ℕ) (m : ℕ)
    (hstep : ∀ i, i < m → par (x i) = some (x (i + 1)))
    (hterm : par (x m) = none)
    (hdist : ∀ i j, i ≤ m → j ≤ m → x i = x j → i = j) :
    ∀ fuel t (l : TreeLog), t ≤ m → m + 2 - t ≤ fuel →
      (∀ y, l.parent b y = par y) →
      ∀ q, (shrinkWalk b fuel l ((Finset.range t).image x)
          (some (x t)) node desc).1.descendantsOf b q
        = if ∃ i, i ∈ Finset.Icc t m ∧ q = x i
          then ((l.descendantsOf b q).erase node).filter
            (fun k => k ∉ desc)
          else l.descendantsOf b q := by
  intro fuel
  induction fuel with
  | zero =>
      intro t l ht hfu
      exact absurd hfu (by omega)
  | succ f ih =>
      intro t l ht hfu hpar q
      rw [shrinkWalk]
      have hnmem : x t ∉ (Finset.range t).image x := by
        intro hc
        obtain ⟨i, hi, hix⟩ := Finset.mem_image.mp hc
        have := hdist i t (by
          have := Finset.mem_range.mp hi
          omega) ht hix
        have := Finset.mem_range.mp hi
        omega
      rw [if_neg hnmem]
      dsimp only
      rw [show insert (x t) ((Finset.range t).image x)
          = (Finset.range (t + 1)).image x from by
        rw [Finset.range_succ, Finset.image_insert]]
      rw [parent_setDescendants, hpar (x t)]
      have hl1par : ∀ y,
          (l.setDescendants (x t)
            (((l.descendantsOf b (x t)).erase node).filter
              (fun k => k ∉ desc))).parent b y = par y :=
        fun y => hpar y
      have hl1desc : ∀ y,
          (l.setDescendants (x t)
            (((l.descendantsOf b (x t)).erase node).filter
              (fun k => k ∉ desc))).descendantsOf b y
          = if y = x t
            then ((l.descendantsOf b (x t)).erase node).filter
              (fun k => k ∉ desc)
            else l.descendantsOf b y :=
        fun y => descendantsOf_setDescendants l b (x t) _ y
      by_cases htm : t = m
      · subst htm
        rw [hterm, shrinkWalk_none]
        dsimp only
        rw [hl1desc q]
        by_cases hqx : q = x t
        · rw [if_pos hqx, if_pos ⟨t, Finset.mem_Icc.mpr ⟨le_refl t, le_refl t⟩, hqx⟩,
            hqx]
        · rw [if_neg hqx, if_neg ?_]
          rintro ⟨i, hi, hqi⟩
          obtain ⟨h1, h2⟩ := Finset.mem_Icc.mp hi
          have : i = t := by omega
          exact hqx (by rw [hqi, this])
      · have htlt : t < m := by omega
        rw [hstep t htlt]
        have := ih (t + 1) (l.setDescendants (x t)
          (((l.descendantsOf b (x t)).erase node).filter
            (fun k => k ∉ desc))) (by omega) (by omega) hl1par q
        rw [this]
        by_cases hqx : q = x t
        · have hnoti : ¬ ∃ i, i ∈ Finset.Icc (t + 1) m ∧ q = x i := by
            rintro ⟨i, hi, hqi⟩
            obtain ⟨h1, h2⟩ := Finset.mem_Icc.mp hi
            have := hdist i t (by omega) ht (by rw [← hqi, hqx])
            omega
          rw [if_neg hnoti, hl1desc q, if_pos hqx,
            if_pos ⟨t, Finset.mem_Icc.mpr ⟨le_refl t, by omega⟩, hqx⟩, hqx]
        · by_cases hqi : ∃ i, i ∈ Finset.Icc (t + 1) m ∧ q = x i
          · obtain ⟨i, hi, hqii⟩ := hqi
            rw [if_pos ⟨i, hi, hqii⟩, hl1desc q, if_neg hqx,
              if_pos ⟨i, Finset.mem_Icc.mpr
                ⟨by
                  have := (Finset.mem_Icc.mp hi).1
                  omega, (Finset.mem_Icc.mp hi).2⟩, hqii⟩]
          · rw [if_neg hqi, hl1desc q, if_neg hqx, if_neg ?_]
            rintro ⟨i, hi, hqii⟩
            obtain ⟨h1, h2⟩ := Finset.mem_Icc.mp hi
            rcases Nat.eq_or_lt_of_le h1 with h | h
            · exact hqx (by rw [hqii, ← h])
            · exact hqi ⟨i, Finset.mem_Icc.mpr ⟨by omega, h2⟩, hqii⟩

theorem extendWalk_effect (b : Tree) (root : ℕ) (descs : Finset ℕ)
    (par : ℕ → Option ℕ) (x : ℕ → ℕ) (m : ℕ)
    (hstep : ∀ i, i < m → par (x i) = some (x (i + 1)))
    (hterm : par (x m) = none)
    (hdist : ∀ i j, i ≤ m → j ≤ m → x i = x j → i = j) :
    ∀ fuel t (l : TreeLog), t ≤ m → m + 2 - t ≤ fuel →
      (∀ y, l.parent b y = par y) →
      ∀ q, (extendWalk b fuel l ((Finset.range t).image x)
          (some (x t)) root descs).descendantsOf b q
        = if ∃ i, i ∈ Finset.Icc t m ∧ q = x i
          then insert root (l.descendantsOf b q ∪ descs)
          else l.descendantsOf b q := by
  intro fuel
  induction fuel with
  | zero =>
      intro t l ht hfu
      exact absurd hfu (by omega)
  | succ f ih =>
      intro t l ht hfu hpar q
      rw [extendWalk]
      have hnmem : x t ∉ (Finset.range t).image x := by
        intro hc
        obtain ⟨i, hi, hix⟩ := Finset.mem_image.mp hc
        have := hdist i t (by
          have := Finset.mem_range.mp hi
          omega) ht hix
        have := Finset.mem_range.mp hi
        omega
      rw [if_neg hnmem]
      dsimp only
      rw [show insert (x t) ((Finset.range t).image x)
          = (Finset.range (t + 1)).image x from by
        rw [Finset.range_succ, Finset.image_insert]]
      rw [parent_setDescendants, hpar (x t)]
      have hl1par : ∀ y,
          (l.setDescendants (x t)
            (insert root (l.descendantsOf b (x t) ∪ descs))).parent b y
            = par y :=
        fun y => hpar y
      have hl1desc : ∀ y,
          (l.setDescendants (x t)
            (insert root (l.descendantsOf b (x t) ∪ descs))).descendantsOf
              b y
          = if y = x t then insert root (l.descendantsOf b (x t) ∪ descs)
            else l.descendantsOf b y :=
        fun y => descendantsOf_setDescendants l b (x t) _ y
      by_cases htm : t = m
      · subst htm
        rw [hterm, extendWalk_none]
        rw [hl1desc q]
        by_cases hqx : q = x t
        · rw [if_pos hqx, if_pos ⟨t, Finset.mem_Icc.mpr ⟨le_refl t, le_refl t⟩,
            hqx⟩, hqx]
        · rw [if_neg hqx, if_neg ?_]
          rintro ⟨i, hi, hqi⟩
          obtain ⟨h1, h2⟩ := Finset.mem_Icc.mp hi
          have : i = t := by omega
          exact hqx (by rw [hqi, this])
      · have htlt : t < m := by omega
        rw [hstep t htlt]
        have := ih (t + 1) (l.setDescendants (x t)
          (insert root (l.descendantsOf b (x t) ∪ descs))) (by omega)
          (by omega) hl1par q
        rw [this]
        by_cases hqx : q = x t
        · have hnoti : ¬ ∃ i, i ∈ Finset.Icc (t + 1) m ∧ q = x i := by
            rintro ⟨i, hi, hqi⟩
            obtain ⟨h1, h2⟩ := Finset.mem_Icc.mp hi
            have := hdist i t (by omega) ht (by rw [← hqi, hqx])
            omega
          rw [if_neg hnoti, hl1desc q, if_pos hqx,
            if_pos ⟨t, Finset.mem_Icc.mpr ⟨le_refl t, by omega⟩, hqx⟩, hqx]
        · by_cases hqi : ∃ i, i ∈ Finset.Icc (t + 1) m ∧ q = x i
          · obtain ⟨i, hi, hqii⟩ := hqi
            rw [if_pos ⟨i, hi, hqii⟩, hl1desc q, if_neg hqx,
              if_pos ⟨i, Finset.mem_Icc.mpr
                ⟨by
                  have := (Finset.mem_Icc.mp hi).1
                  omega, (Finset.mem_Icc.mp hi).2⟩, hqii⟩]
          · rw [if_neg hqi, hl1desc q, if_neg hqx, if_neg ?_]
            rintro ⟨i, hi, hqii⟩
            obtain ⟨h1, h2⟩ := Finset.mem_Icc.mp hi
            rcases Nat.eq_or_lt_of_le h1 with h | h
            · exact hqx (by rw [hqii, ← h])
            · exact hqi ⟨i, Finset.mem_Icc.mpr ⟨by omega, h2⟩, hqii⟩

/-! ### Assembled overlay effect of `remove_impl` -/

theorem removeImpl_l3_overlay (b : Tree) (l : TreeLog) (node : ℕ) (y : ℕ) :
    (((sortList (l.descendantsOf b node)).foldl (evacStep b)
        (((l.setDescendants node ∅).setChildren node ∅),
          FMap.empty default)).1.childrenOf b y
      = if y ∈ l.descendantsOf b node then ∅
        else if y = node then ∅ else l.childrenOf b y)
    ∧ (((sortList (l.descendantsOf b node)).foldl (evacStep b)
        (((l.setDescendants node ∅).setChildren node ∅),
          FMap.empty default)).1.descendantsOf b y
      = if y ∈ l.descendantsOf b node then ∅
        else if y = node then ∅ else l.descendantsOf b y)
    ∧ (((sortList (l.descendantsOf b node)).foldl (evacStep b)
        (((l.setDescendants node ∅).setChildren node ∅),
          FMap.empty default)).1.parent b y
      = if y ∈ l.descendantsOf b node then none else l.parent b y) := by
  obtain ⟨e1, e2, e3, _, _⟩ := evacFold_effects b
    (sortList (l.descendantsOf b node)) (nodup_sortList _)
    (((l.setDescendants node ∅).setChildren node ∅), FMap.empty default) y
  have hch : ∀ (w : TreeLog),
      w.childrenOf b y = (w.children.lookup y).getD (b.childrenOf y) :=
    fun w => rfl
  have hds : ∀ (w : TreeLog),
      w.descendantsOf b y
        = (w.descendants.lookup y).getD (b.descendantsOf y) :=
    fun w => rfl
  have hpr : ∀ (w : TreeLog),
      w.parent b y = match w.parents.lookup y with
        | some o => o
        | none => b.parent y :=
    fun w => rfl
  by_cases hy : y ∈ l.descendantsOf b node
  · rw [if_pos ((mem_sortList _ _).mpr hy)] at e1 e2 e3
    refine ⟨?_, ?_, ?_⟩
    · rw [hch, e2, if_pos hy]
      rfl
    · rw [hds, e3, if_pos hy]
      rfl
    · rw [hpr, e1, if_pos hy]
  · rw [if_neg (fun hc => hy ((mem_sortList _ _).mp hc))] at e1 e2 e3
    refine ⟨?_, ?_, ?_⟩
    · rw [hch, e2, if_neg hy,
        show ((l.setDescendants node ∅).setChildren node ∅).children
          = (l.setDescendants node ∅).children.ins node ∅ from rfl]
      by_cases hn : y = node
      · rw [if_pos hn, hn, FMap.lookup_ins_self]
        rfl
      · rw [if_neg hn, FMap.lookup_ins_ne _ _ _ _ hn]
        rfl
    · rw [hds, e3, if_neg hy,
        show ((l.setDescendants node ∅).setChildren node ∅).descendants
          = l.descendants.ins node ∅ from rfl]
      by_cases hn : y = node
      · rw [if_pos hn, hn, FMap.lookup_ins_self]
        rfl
      · rw [if_neg hn, FMap.lookup_ins_ne _ _ _ _ hn]
        rfl
    · rw [hpr, e1, if_neg hy]
      rfl

theorem removeImpl_childrenOf_some (b : Tree) (l : TreeLog) (node p0 : ℕ)
    (hnd : node ∉ l.descendantsOf b node)
    (hpar : l.parent b node = some p0) (q : ℕ) :
    (removeImpl b l node ∅).1.childrenOf b q
      = if q = node ∨ q ∈ l.descendantsOf b node then ∅
        else if q = p0 then (l.childrenOf b q).erase node
        else l.childrenOf b q := by
  unfold removeImpl
  dsimp only
  set l3 := ((sortList (l.descendantsOf b node)).foldl (evacStep b)
    (((l.setDescendants node ∅).setChildren node ∅), FMap.empty default)).1
    with hl3
  have hov := fun yy => removeImpl_l3_overlay b l node yy
  rw [← hl3] at hov
  have hl3pn : l3.parent b node = some p0 := by
    rw [(hov node).2.2, if_neg hnd, hpar]
  rcases hm : l3.parent b node with _ | pp
  · rw [hm] at hl3pn
    exact absurd hl3pn (by simp)
  · have hpp : pp = p0 := by
      rw [hm] at hl3pn
      exact Option.some_inj.mp hl3pn
    subst hpp
    dsimp only
    rw [show ∀ (w : TreeLog) (pr : Option ℕ),
        (w.setParent node pr).childrenOf b q = w.childrenOf b q from
      fun w pr => rfl]
    rw [show ∀ (w : TreeLog),
        w.childrenOf b q = (w.children.lookup q).getD (b.childrenOf q) from
      fun w => rfl]
    rw [(shrinkWalk_shape b _ _ _ _ _ _).2.1]
    rw [show ((l3.setChildren pp ((l3.childrenOf b pp).erase node)).children.lookup
        q).getD (b.childrenOf q)
        = (l3.setChildren pp ((l3.childrenOf b pp).erase node)).childrenOf b q
      from rfl]
    rw [childrenOf_setChildren]
    by_cases hqD : q = node ∨ q ∈ l.descendantsOf b node
    · rw [if_pos hqD]
      by_cases hqp : q = pp
      · rw [if_pos hqp, (hov pp).1, ← hqp]
        rcases hqD with h | h
        · subst h
          rw [if_neg hnd, if_pos rfl]
          exact Finset.erase_empty _
        · rw [if_pos h]
          exact Finset.erase_empty node
      · rw [if_neg hqp, (hov q).1]
        rcases hqD with h | h
        · subst h
          rw [if_neg hnd, if_pos rfl]
        · rw [if_pos h]
    · push_neg at hqD
      rw [if_neg (show ¬(q = node ∨ q ∈ l.descendantsOf b node) from
        fun hc => hc.elim hqD.1 hqD.2)]
      by_cases hqp : q = pp
      · rw [if_pos hqp, if_pos hqp, (hov pp).1, ← hqp,
          if_neg hqD.2, if_neg hqD.1]
      · rw [if_neg hqp, if_neg hqp, (hov q).1, if_neg hqD.2, if_neg hqD.1]

theorem removeImpl_childrenOf_none (b : Tree) (l : TreeLog) (node : ℕ)
    (hnd : node ∉ l.descendantsOf b node)
    (hpar : l.parent b node = none) (q : ℕ) :
    (removeImpl b l node ∅).1.childrenOf b q
      = if q = node ∨ q ∈ l.descendantsOf b node then ∅
        else l.childrenOf b q := by
  unfold removeImpl
  dsimp only
  set l3 := ((sortList (l.descendantsOf b node)).foldl (evacStep b)
    (((l.setDescendants node ∅).setChildren node ∅), FMap.empty default)).1
    with hl3
  have hov := fun yy => removeImpl_l3_overlay b l node yy
  rw [← hl3] at hov
  have hl3pn : l3.parent b node = none := by
    rw [(hov node).2.2, if_neg hnd, hpar]
  rcases hm : l3.parent b node with _ | pp
  · dsimp only
    rw [show ∀ (w : TreeLog) (pr : Option ℕ),
        (w.setParent node pr).childrenOf b q = w.childrenOf b q from
      fun w pr => rfl]
    rw [show ∀ (w : TreeLog),
        w.childrenOf b q = (w.children.lookup q).getD (b.childrenOf q) from
      fun w => rfl]
    rw [(shrinkWalk_shape b _ _ _ _ _ _).2.1]
    rw [show ((l3.children.lookup q).getD (b.childrenOf q))
        = l3.childrenOf b q from rfl]
    rw [(hov q).1]
    by_cases hqD : q = node ∨ q ∈ l.descendantsOf b node
    · rw [if_pos hqD]
      rcases hqD with h | h
      · subst h
        rw [if_neg hnd, if_pos rfl]
      · rw [if_pos h]
    · push_neg at hqD
      rw [if_neg hqD.2, if_neg hqD.1,
        if_neg (show ¬(q = node ∨ q ∈ l.descendantsOf b node) from
          fun hc => hc.elim hqD.1 hqD.2)]
  · rw [hm] at hl3pn
    exact absurd hl3pn (by simp)

theorem removeImpl_descendantsOf_none (b : Tree) (l : TreeLog) (node : ℕ)
    (hnd : node ∉ l.descendantsOf b node)
    (hpar : l.parent b node = none) (q : ℕ) :
    (removeImpl b l node ∅).1.descendantsOf b q
      = if q = node ∨ q ∈ l.descendantsOf b node then ∅
        else l.descendantsOf b q := by
  unfold removeImpl
  dsimp only
  set l3 := ((sortList (l.descendantsOf b node)).foldl (evacStep b)
    (((l.setDescendants node ∅).setChildren node ∅), FMap.empty default)).1
    with hl3
  have hov := fun yy => removeImpl_l3_overlay b l node yy
  rw [← hl3] at hov
  have hl3pn : l3.parent b node = none := by
    rw [(hov node).2.2, if_neg hnd, hpar]
  rcases hm : l3.parent b node with _ | pp
  · dsimp only
    rw [show ∀ (w : TreeLog) (pr : Option ℕ),
        (w.setParent node pr).descendantsOf b q = w.descendantsOf b q from
      fun w pr => rfl]
    rw [show (shrinkWalk b (fuelFor b l3) l3 ∅ (l3.parent b node) node
        (l.descendantsOf b node)).1.descendantsOf b q
        = l3.descendantsOf b q from by
      rw [hm, shrinkWalk_none]]
    rw [(hov q).2.1]
    by_cases hqD : q = node ∨ q ∈ l.descendantsOf b node
    · rw [if_pos hqD]
      rcases hqD with h | h
      · subst h
        rw [if_neg hnd, if_pos rfl]
      · rw [if_pos h]
    · push_neg at hqD
      rw [if_neg hqD.2, if_neg hqD.1,
        if_neg (show ¬(q = node ∨ q ∈ l.descendantsOf b node) from
          fun hc => hc.elim hqD.1 hqD.2)]
  · rw [hm] at hl3pn
    exact absurd hl3pn (by simp)

theorem removeImpl_descendantsOf_some (b : Tree) (l : TreeLog) (node : ℕ)
    (x : ℕ → ℕ) (m : ℕ)
    (hnd : node ∉ l.descendantsOf b node)
    (hpar : l.parent b node = some (x 0))
    (hstep : ∀ i, i < m →
      (if x i ∈ l.descendantsOf b node then none else l.parent b (x i))
        = some (x (i + 1)))
    (hterm : (if x m ∈ l.descendantsOf b node then none
        else l.parent b (x m)) = none)
    (hdist : ∀ i j, i ≤ m → j ≤ m → x i = x j → i = j) (q : ℕ) :
    (removeImpl b l node ∅).1.descendantsOf b q
      = if q = node ∨ q ∈ l.descendantsOf b node then ∅
        else if q ∈ (Finset.Icc 0 m).image x
          then ((l.descendantsOf b q).erase node).filter
            (fun k => k ∉ l.descendantsOf b node)
          else l.descendantsOf b q := by
  unfold removeImpl
  dsimp only
  set l3 := ((sortList (l.descendantsOf b node)).foldl (evacStep b)
    (((l.setDescendants node ∅).setChildren node ∅), FMap.empty default)).1
    with hl3
  have hov := fun yy => removeImpl_l3_overlay b l node yy
  rw [← hl3] at hov
  have hl3pn : l3.parent b node = some (x 0) := by
    rw [(hov node).2.2, if_neg hnd, hpar]
  rcases hm : l3.parent b node with _ | pp
  · rw [hm] at hl3pn
    exact absurd hl3pn (by simp)
  · have hpp : pp = x 0 := by
      rw [hm] at hl3pn
      exact Option.some_inj.mp hl3pn
    subst hpp
    dsimp only
    rw [show ∀ (w : TreeLog) (pr : Option ℕ),
        (w.setParent node pr).descendantsOf b q = w.descendantsOf b q from
      fun w pr => rfl]
    set l4 := l3.setChildren (x 0) ((l3.childrenOf b (x 0)).erase node)
      with hl4
    have hl4par : ∀ y, l4.parent b y
        = if y ∈ l.descendantsOf b node then none else l.parent b y := by
      intro y
      rw [hl4, parent_setChildren, (hov y).2.2]
    have hl4desc : ∀ y, l4.descendantsOf b y
        = if y ∈ l.descendantsOf b node then ∅
          else if y = node then ∅ else l.descendantsOf b y := by
      intro y
      rw [hl4, descendantsOf_setChildren, (hov y).2.1]
    have hstep4 : ∀ i, i < m → l4.parent b (x i) = some (x (i + 1)) :=
      fun i hi => (hl4par (x i)).trans (hstep i hi)
    have hdist4 : ∀ i j, i < m → j < m → x i = x j → i = j :=
      fun i j hi hj => hdist i j (by omega) (by omega)
    have hfuel : m + 2 ≤ fuelFor b l4 := by
      have := orbit_card_le b l4 x m hstep4 hdist4
      unfold fuelFor
      omega
    have heff := shrinkWalk_effect b node (l.descendantsOf b node)
      (fun y => if y ∈ l.descendantsOf b node then none else l.parent b y)
      x m hstep hterm hdist (fuelFor b l4) 0 l4 (by omega) (by omega)
      hl4par q
    rw [show ((Finset.range 0).image x) = (∅ : Finset ℕ) from by simp]
      at heff
    rw [show l4.parent b node = some (x 0) from by
      rw [hl4par node, if_neg hnd, hpar]]
    rw [heff]
    have hmem : (∃ i, i ∈ Finset.Icc 0 m ∧ q = x i)
        ↔ q ∈ (Finset.Icc 0 m).image x := by
      rw [Finset.mem_image]
      constructor
      · rintro ⟨i, hi, hq⟩
        exact ⟨i, hi, hq.symm⟩
      · rintro ⟨i, hi, hq⟩
        exact ⟨i, hi, hq.symm⟩
    by_cases hqD : q = node ∨ q ∈ l.descendantsOf b node
    · rw [if_pos hqD]
      have hl4q : l4.descendantsOf b q = ∅ := by
        rw [hl4desc q]
        rcases hqD with h | h
        · subst h
          rw [if_neg hnd, if_pos rfl]
        · rw [if_pos h]
      by_cases hqc : q ∈ (Finset.Icc 0 m).image x
      · rw [if_pos (hmem.mpr hqc), hl4q]
        simp
      · rw [if_neg (fun hc => hqc (hmem.mp hc)), hl4q]
    · push_neg at hqD
      have hl4q : l4.descendantsOf b q = l.descendantsOf b q := by
        rw [hl4desc q, if_neg hqD.2, if_neg hqD.1]
      rw [if_neg (show ¬(q = node ∨ q ∈ l.descendantsOf b node) from
        fun hc => hc.elim hqD.1 hqD.2)]
      by_cases hqc : q ∈ (Finset.Icc 0 m).image x
      · rw [if_pos (hmem.mpr hqc), if_pos hqc, hl4q]
      · rw [if_neg (fun hc => hqc (hmem.mp hc)), if_neg hqc, hl4q]

/-! ### Assembled overlay effect of `reparent_subtree` -/

theorem reparent_childrenOf_some (b : Tree) (lR : TreeLog) (p root : ℕ)
    (removed : FMap RemoveItem) (q : ℕ) :
    (reparentSubtree b lR (some p) root removed).childrenOf b q
      = if q ∈ (removed.del root).keys then
          (((removed.del root).lookup q).getD default).children
        else if q = root then
          ((removed.lookup root).getD default).children
        else if q = p then insert root (lR.childrenOf b p)
        else lR.childrenOf b q := by
  unfold reparentSubtree
  dsimp only
  rw [show ∀ (w : TreeLog),
      w.childrenOf b q = (w.children.lookup q).getD (b.childrenOf q) from
    fun w => rfl]
  rw [(restoreFold_lookup (removed.del root)
    ((removed.del root).keyList) _ q).2.1]
  simp only [FMap.keyList]
  by_cases hk : q ∈ (removed.del root).keys
  · rw [if_pos hk, if_pos hk]
    rfl
  · rw [if_neg hk, if_neg hk]
    rw [show ∀ (w : TreeLog) (s : Finset ℕ),
        (w.setDescendants root s).children = w.children from fun w s => rfl]
    rw [show ∀ (w : TreeLog) (s : Finset ℕ),
        (w.setChildren root s).children = w.children.ins root s from
      fun w s => rfl]
    by_cases hr : q = root
    · rw [hr, FMap.lookup_ins_self, if_pos rfl]
      rfl
    · rw [FMap.lookup_ins_ne _ _ _ _ hr, if_neg hr,
        (extendWalk_shape b _ _ _ _ _ _).2.1]
      rw [show ∀ (w : TreeLog) (s : Finset ℕ),
          (w.setChildren p s).children = w.children.ins p s from
        fun w s => rfl]
      by_cases hp : q = p
      · rw [hp, FMap.lookup_ins_self, if_pos rfl]
        rfl
      · rw [FMap.lookup_ins_ne _ _ _ _ hp, if_neg hp]
        rfl

theorem reparent_childrenOf_none (b : Tree) (lR : TreeLog) (root : ℕ)
    (removed : FMap RemoveItem) (q : ℕ) :
    (reparentSubtree b lR none root removed).childrenOf b q
      = if q ∈ (removed.del root).keys then
          (((removed.del root).lookup q).getD default).children
        else if q = root then
          ((removed.lookup root).getD default).children
        else lR.childrenOf b q := by
  unfold reparentSubtree
  dsimp only
  rw [show ∀ (w : TreeLog),
      w.childrenOf b q = (w.children.lookup q).getD (b.childrenOf q) from
    fun w => rfl]
  rw [(restoreFold_lookup (removed.del root)
    ((removed.del root).keyList) _ q).2.1]
  simp only [FMap.keyList]
  by_cases hk : q ∈ (removed.del root).keys
  · rw [if_pos hk, if_pos hk]
    rfl
  · rw [if_neg hk, if_neg hk]
    rw [show ∀ (w : TreeLog) (s : Finset ℕ),
        (w.setDescendants root s).children = w.children from fun w s => rfl]
    rw [show ∀ (w : TreeLog) (s : Finset ℕ),
        (w.setChildren root s).children = w.children.ins root s from
      fun w s => rfl]
    by_cases hr : q = root
    · rw [hr, FMap.lookup_ins_self, if_pos rfl]
      rfl
    · rw [FMap.lookup_ins_ne _ _ _ _ hr, if_neg hr,
        (extendWalk_shape b _ _ _ _ _ _).2.1]
      rfl

theorem reparent_descendantsOf_none (b : Tree) (lR : TreeLog) (root : ℕ)
    (removed : FMap RemoveItem) (q : ℕ) :
    (reparentSubtree b lR none root removed).descendantsOf b q
      = if q ∈ (removed.del root).keys then
          (((removed.del root).lookup q).getD default).descendants
        else if q = root then
          ((removed.lookup root).getD default).descendants
        else lR.descendantsOf b q := by
  unfold reparentSubtree
  dsimp only
  rw [show ∀ (w : TreeLog),
      w.descendantsOf b q
        = (w.descendants.lookup q).getD (b.descendantsOf q) from
    fun w => rfl]
  rw [(restoreFold_lookup (removed.del root)
    ((removed.del root).keyList) _ q).2.2]
  simp only [FMap.keyList]
  by_cases hk : q ∈ (removed.del root).keys
  · rw [if_pos hk, if_pos hk]
    rfl
  · rw [if_neg hk, if_neg hk]
    rw [show ∀ (w : TreeLog) (s : Finset ℕ),
        (w.setDescendants root s).descendants
          = w.descendants.ins root s from fun w s => rfl]
    by_cases hr : q = root
    · rw [hr, FMap.lookup_ins_self, if_pos rfl]
      rfl
    · rw [FMap.lookup_ins_ne _ _ _ _ hr, if_neg hr]
      rw [show ∀ (w : TreeLog) (s : Finset ℕ),
          (w.setChildren root s).descendants = w.descendants from
        fun w s => rfl]
      rw [extendWalk_none]
      rw [show ∀ (w : TreeLog) (pr : Option ℕ),
          (w.setParent root pr).descendants = w.descendants from
        fun w pr => rfl]
      rfl

theorem reparent_descendantsOf_some (b : Tree) (lR : TreeLog) (p root : ℕ)
    (removed : FMap RemoveItem)
    (y : ℕ → ℕ) (m : ℕ) (hy0 : y 0 = p)
    (hstep : ∀ i, i < m →
      (if y i = root then some p else lR.parent b (y i))
        = some (y (i + 1)))
    (hterm : (if y m = root then some p else lR.parent b (y m)) = none)
    (hdist : ∀ i j, i ≤ m → j ≤ m → y i = y j → i = j) (q : ℕ) :
    (reparentSubtree b lR (some p) root removed).descendantsOf b q
      = if q ∈ (removed.del root).keys then
          (((removed.del root).lookup q).getD default).descendants
        else if q = root then
          ((removed.lookup root).getD default).descendants
        else if q ∈ (Finset.Icc 0 m).image y then
          insert root (lR.descendantsOf b q
            ∪ ((removed.lookup root).getD default).descendants)
        else lR.descendantsOf b q := by
  unfold reparentSubtree
  dsimp only
  rw [show ∀ (w : TreeLog),
      w.descendantsOf b q
        = (w.descendants.lookup q).getD (b.descendantsOf q) from
    fun w => rfl]
  rw [(restoreFold_lookup (removed.del root)
    ((removed.del root).keyList) _ q).2.2]
  simp only [FMap.keyList]
  by_cases hk : q ∈ (removed.del root).keys
  · rw [if_pos hk, if_pos hk]
    rfl
  · rw [if_neg hk, if_neg hk]
    rw [show ∀ (w : TreeLog) (s : Finset ℕ),
        (w.setDescendants root s).descendants
          = w.descendants.ins root s from fun w s => rfl]
    by_cases hr : q = root
    · rw [hr, FMap.lookup_ins_self, if_pos rfl]
      rfl
    · rw [FMap.lookup_ins_ne _ _ _ _ hr, if_neg hr]
      rw [show ∀ (w : TreeLog) (s : Finset ℕ),
          (w.setChildren root s).descendants = w.descendants from
        fun w s => rfl]
      set l2 := ((lR.setParent root (some p)).setChildren p
        (insert root ((lR.setParent root (some p)).childrenOf b p)))
        with hl2
      have hl2par : ∀ z, l2.parent b z
          = if z = root then some p else lR.parent b z := by
        intro z
        rw [hl2, parent_setChildren, parent_setParent]
      have hl2desc : ∀ z, l2.descendantsOf b z = lR.descendantsOf b z := by
        intro z
        rw [hl2]
        rfl
      have hstep2 : ∀ i, i < m → l2.parent b (y i) = some (y (i + 1)) :=
        fun i hi => (hl2par (y i)).trans (hstep i hi)
      have hdist2 : ∀ i j, i < m → j < m → y i = y j → i = j :=
        fun i j hi hj => hdist i j (by omega) (by omega)
      have hfuel : m + 2 ≤ fuelFor b l2 := by
        have := orbit_card_le b l2 y m hstep2 hdist2
        unfold fuelFor
        omega
      have heff := extendWalk_effect b root
        ((removed.lookup root).getD default).descendants
        (fun z => if z = root then some p else lR.parent b z)
        y m hstep hterm hdist (fuelFor b l2) 0 l2 (by omega) (by omega)
        hl2par q
      rw [show ((Finset.range 0).image y) = (∅ : Finset ℕ) from by simp]
        at heff
      rw [hy0] at heff
      have hmem : (∃ i, i ∈ Finset.Icc 0 m ∧ q = y i)
          ↔ q ∈ (Finset.Icc 0 m).image y := by
        rw [Finset.mem_image]
        constructor
        · rintro ⟨i, hi, hq⟩
          exact ⟨i, hi, hq.symm⟩
        · rintro ⟨i, hi, hq⟩
          exact ⟨i, hi, hq.symm⟩
      rw [show ((extendWalk b (fuelFor b l2) l2 ∅ (some p) root
          ((removed.lookup root).getD default).descendants).descendants.lookup
            q).getD (b.descendantsOf q)
          = (extendWalk b (fuelFor b l2) l2 ∅ (some p) root
            ((removed.lookup root).getD default).descendants).descendantsOf
              b q from rfl]
      rw [heff]
      by_cases hqc : q ∈ (Finset.Icc 0 m).image y
      · rw [if_pos (hmem.mpr hqc), if_pos hqc, hl2desc q]
      · rw [if_neg (fun hc => hqc (hmem.mp hc)), if_neg hqc, hl2desc q]

/-! ### Chain combinatorics for the invariant proofs -/

theorem optIter_none_stable (f : ℕ → Option ℕ) (n j : ℕ)
    (h : optIter f j n = none) :
    ∀ s, optIter f (j + s) n = none := by
  intro s
  rw [optIter_add f j s n, h]

theorem first_arrival (f : ℕ → Option ℕ) (d target k : ℕ)
    (hret : optIter f k d = some target) :
    ∃ k', k' ≤ k ∧ optIter f k' d = some target
      ∧ ∀ t, t < k' → optIter f t d ≠ some target := by
  classical
  have hex : ∃ j, optIter f j d = some target := ⟨k, hret⟩
  refine ⟨Nat.find hex, ?_, Nat.find_spec hex, fun t ht => Nat.find_min hex ht⟩
  exact Nat.find_min' hex hret

theorem optIter_congr_on (f g : ℕ → Option ℕ) :
    ∀ (k n : ℕ), (∀ t w, t < k → optIter f t n = some w → g w = f w) →
      optIter g k n = optIter f k n := by
  intro k
  induction k with
  | zero => intro n _; rfl
  | succ k ih =>
      intro n hcond
      rw [optIter, optIter,
        hcond 0 n (by omega) rfl]
      rcases hfn : f n with _ | p
      · rfl
      · refine ih p ?_
        intro t w ht hw
        refine hcond (t + 1) w (by omega) ?_
        rw [optIter, hfn]
        exact hw

/-- A terminating parent chain from `a0`, packaged with coverage of the
iterates. -/
theorem chain_data (b : Tree) (l : TreeLog)
    (hC : ∀ n k, 0 < k →
      optIter (fun q => l.parent b q) k n ≠ some n) (a0 : ℕ) :
    ∃ (x : ℕ → ℕ) (m : ℕ), x 0 = a0
      ∧ (∀ i, i < m → l.parent b (x i) = some (x (i + 1)))
      ∧ l.parent b (x m) = none
      ∧ (∀ i j, i ≤ m → j ≤ m → x i = x j → i = j)
      ∧ (∀ i, i ≤ m →
          optIter (fun q => l.parent b q) i a0 = some (x i))
      ∧ (∀ s w, optIter (fun q => l.parent b q) s a0 = some w →
          s ≤ m ∧ w = x s) := by
  obtain ⟨m, _, hsome, hnone⟩ := chain_exists b l hC a0
  refine ⟨fun i => (optIter (fun q => l.parent b q) i a0).getD 0, m,
    rfl, ?_, ?_, ?_, ?_, ?_⟩
  all_goals
    have hval : ∀ i, i ≤ m → optIter (fun q => l.parent b q) i a0
        = some ((optIter (fun q => l.parent b q) i a0).getD 0) := by
      intro i hi
      have h1 := hsome i hi
      rcases hv : optIter (fun q => l.parent b q) i a0 with _ | z
      · rw [hv] at h1
        exact absurd h1 (by simp)
      · rfl
  · intro i hi
    have h3 := optIter_succ_right (fun q => l.parent b q) i a0
    rw [hval i (by omega), hval (i + 1) (by omega)] at h3
    exact h3.symm
  · have h3 := optIter_succ_right (fun q => l.parent b q) m a0
    rw [hval m (le_refl m), hnone] at h3
    exact h3.symm
  · intro i j hi hj hij
    have hij2 : (optIter (fun q => l.parent b q) i a0).getD 0
        = (optIter (fun q => l.parent b q) j a0).getD 0 := hij
    rcases lt_trichotomy i j with h | h | h
    · exact absurd trivial (fun _ => acyclic_chain_inj _ hC a0 i j _ h
        ((hval i hi).trans (congrArg some hij2)) (hval j hj))
    · exact h
    · exact absurd trivial (fun _ => acyclic_chain_inj _ hC a0 j i _ h
        ((hval j hj).trans (congrArg some hij2.symm)) (hval i hi))
  · exact hval
  · intro s w hw
    by_cases hs : s ≤ m
    · refine ⟨hs, ?_⟩
      rw [hval s hs] at hw
      exact (Option.some_inj.mp hw).symm
    · exfalso
      have := optIter_none_stable (fun q => l.parent b q) a0 (m + 1)
        hnone (s - (m + 1))
      rw [show m + 1 + (s - (m + 1)) = s from by omega, hw] at this
      exact absurd this (by simp)

theorem optIter_head (f : ℕ → Option ℕ) (n p : ℕ) (k : ℕ)
    (h : f n = some p) : optIter f (k + 1) n = optIter f k p := by
  rw [optIter, h]

theorem optIter_head_none (f : ℕ → Option ℕ) (n : ℕ) (k : ℕ)
    (h : f n = none) : optIter f (k + 1) n = none := by
  rw [optIter, h]

/-! ### Facts derived from the tree invariant -/

theorem inv_desc_trans (b : Tree) (l : TreeLog)
    (hA : ∀ n d, d ∈ l.descendantsOf b n
      ↔ ∃ k, 0 < k ∧ optIter (fun q => l.parent b q) k d = some n)
    (z w v : ℕ) (h1 : z ∈ l.descendantsOf b w)
    (h2 : w ∈ l.descendantsOf b v) : z ∈ l.descendantsOf b v := by
  obtain ⟨k1, hk1, hr1⟩ := (hA w z).mp h1
  obtain ⟨k2, hk2, hr2⟩ := (hA v w).mp h2
  refine (hA v z).mpr ⟨k1 + k2, by omega, ?_⟩
  rw [optIter_add, hr1]
  exact hr2

theorem inv_not_self_desc (b : Tree) (l : TreeLog)
    (hA : ∀ n d, d ∈ l.descendantsOf b n
      ↔ ∃ k, 0 < k ∧ optIter (fun q => l.parent b q) k d = some n)
    (hC : ∀ n k, 0 < k →
      optIter (fun q => l.parent b q) k n ≠ some n)
    (z : ℕ) : z ∉ l.descendantsOf b z := by
  intro hc
  obtain ⟨k, hk, hr⟩ := (hA z z).mp hc
  exact hC z k hk hr

theorem inv_parent_desc (b : Tree) (l : TreeLog)
    (hA : ∀ n d, d ∈ l.descendantsOf b n
      ↔ ∃ k, 0 < k ∧ optIter (fun q => l.parent b q) k d = some n)
    (z w : ℕ) (h : l.parent b z = some w) : z ∈ l.descendantsOf b w := by
  refine (hA w z).mpr ⟨1, by omega, ?_⟩
  rw [optIter, h]
  rfl

theorem inv_desc_step (b : Tree) (l : TreeLog)
    (hA : ∀ n d, d ∈ l.descendantsOf b n
      ↔ ∃ k, 0 < k ∧ optIter (fun q => l.parent b q) k d = some n)
    (z w v : ℕ) (h1 : l.parent b z = some w)
    (h2 : w ∈ l.descendantsOf b v ∨ w = v) : z ∈ l.descendantsOf b v := by
  rcases h2 with h2 | h2
  · exact inv_desc_trans b l hA z w v (inv_parent_desc b l hA z w h1) h2
  · subst h2
    exact inv_parent_desc b l hA z w h1

/-! ### The invariant after a subtree removal -/

theorem removedState_hB (b : Tree) (l : TreeLog) (node : ℕ) (l' : TreeLog)
    (hA : ∀ n d, d ∈ l.descendantsOf b n
      ↔ ∃ k, 0 < k ∧ optIter (fun q => l.parent b q) k d = some n)
    (hB : ∀ p c, c ∈ l.childrenOf b p ↔ l.parent b c = some p)
    (hC : ∀ n k, 0 < k →
      optIter (fun q => l.parent b q) k n ≠ some n)
    (hpar' : ∀ q, l'.parent b q
      = if q = node ∨ q ∈ l.descendantsOf b node then none
        else l.parent b q)
    (hch' : ∀ q, l'.childrenOf b q
      = if q = node ∨ q ∈ l.descendantsOf b node then ∅
        else if some q = l.parent b node then (l.childrenOf b q).erase node
        else l.childrenOf b q) :
    ∀ p' c', c' ∈ l'.childrenOf b p' ↔ l'.parent b c' = some p' := by
  intro p' c'
  rw [hch' p', hpar' c']
  by_cases hpD : p' = node ∨ p' ∈ l.descendantsOf b node
  · rw [if_pos hpD]
    constructor
    · intro hc
      exact absurd hc (Finset.not_mem_empty c')
    · intro hc
      by_cases hcD : c' = node ∨ c' ∈ l.descendantsOf b node
      · rw [if_pos hcD] at hc
        exact absurd hc (by simp)
      · rw [if_neg hcD] at hc
        push_neg at hcD
        have h2 := inv_parent_desc b l hA c' p' hc
        rcases hpD with h | h
        · rw [h] at h2
          exact absurd h2 hcD.2
        · exact absurd (inv_desc_trans b l hA c' p' node h2 h) hcD.2
  · rw [if_neg hpD]
    push_neg at hpD
    have hstepfact : ∀ (cc : ℕ), l.parent b cc = some p' →
        cc ∈ l.descendantsOf b node → False := by
      intro cc hcc hccD
      obtain ⟨k, hk, hr⟩ := (hA node cc).mp hccD
      rcases k with _ | k0
      · omega
      · rw [optIter_head _ _ p' k0 hcc] at hr
        rcases Nat.eq_zero_or_pos k0 with h0 | h0
        · rw [h0] at hr
          exact hpD.1 (Option.some_inj.mp hr)
        · exact hpD.2 ((hA node p').mpr ⟨k0, h0, hr⟩)
    by_cases hp0 : some p' = l.parent b node
    · rw [if_pos hp0, Finset.mem_erase]
      constructor
      · rintro ⟨hne, hmem⟩
        have hc := (hB p' c').mp hmem
        have hcD : ¬(c' = node ∨ c' ∈ l.descendantsOf b node) := by
          rintro (h | h)
          · exact hne h
          · exact hstepfact c' hc h
        rw [if_neg hcD]
        exact hc
      · intro hc
        by_cases hcD : c' = node ∨ c' ∈ l.descendantsOf b node
        · rw [if_pos hcD] at hc
          exact absurd hc (by simp)
        · rw [if_neg hcD] at hc
          push_neg at hcD
          exact ⟨hcD.1, (hB p' c').mpr hc⟩
    · rw [if_neg hp0]
      constructor
      · intro hmem
        have hc := (hB p' c').mp hmem
        have hcD : ¬(c' = node ∨ c' ∈ l.descendantsOf b node) := by
          rintro (h | h)
          · rw [h] at hc
            exact hp0 hc.symm
          · exact hstepfact c' hc h
        rw [if_neg hcD]
        exact hc
      · intro hc
        by_cases hcD : c' = node ∨ c' ∈ l.descendantsOf b node
        · rw [if_pos hcD] at hc
          exact absurd hc (by simp)
        · rw [if_neg hcD] at hc
          exact (hB p' c').mpr hc

theorem removedState_hA (b : Tree) (l : TreeLog) (node : ℕ) (l' : TreeLog)
    (A : Finset ℕ)
    (hA : ∀ n d, d ∈ l.descendantsOf b n
      ↔ ∃ k, 0 < k ∧ optIter (fun q => l.parent b q) k d = some n)
    (hC : ∀ n k, 0 < k →
      optIter (fun q => l.parent b q) k n ≠ some n)
    (hpar' : ∀ q, l'.parent b q
      = if q = node ∨ q ∈ l.descendantsOf b node then none
        else l.parent b q)
    (hds' : ∀ q, l'.descendantsOf b q
      = if q = node ∨ q ∈ l.descendantsOf b node then ∅
        else if q ∈ A then
          ((l.descendantsOf b q).erase node).filter
            (fun k => k ∉ l.descendantsOf b node)
        else l.descendantsOf b q)
    (hAchar : ∀ w, w ∈ A
      ↔ ∃ s, 0 < s ∧ optIter (fun q => l.parent b q) s node = some w) :
    ∀ n d, d ∈ l'.descendantsOf b n
      ↔ ∃ k, 0 < k ∧ optIter (fun q => l'.parent b q) k d = some n := by
  have hup : ∀ q y, l'.parent b q = some y → l.parent b q = some y := by
    intro q y h
    rw [hpar' q] at h
    by_cases hq : q = node ∨ q ∈ l.descendantsOf b node
    · rw [if_pos hq] at h
      exact absurd h (by simp)
    · rw [if_neg hq] at h
      exact h
  have hsub' : ∀ k dd w,
      optIter (fun q => l'.parent b q) k dd = some w →
      optIter (fun q => l.parent b q) k dd = some w :=
    fun k dd w h => optIter_sub _ _ hup k dd w h
  have hblock : ∀ dd, (dd = node ∨ dd ∈ l.descendantsOf b node) →
      ∀ k w, 0 < k → optIter (fun q => l'.parent b q) k dd ≠ some w := by
    intro dd hdd k w hk hr
    rcases k with _ | k0
    · omega
    · rw [optIter_head_none _ _ k0 (by rw [hpar' dd, if_pos hdd])] at hr
      exact absurd hr (by simp)
  intro n d
  rw [hds' n]
  by_cases hnD : n = node ∨ n ∈ l.descendantsOf b node
  · rw [if_pos hnD]
    simp only [Finset.not_mem_empty, false_iff]
    rintro ⟨k, hk, hr⟩
    rcases k with _ | k0
    · omega
    · have hsp := optIter_succ_right (fun q => l'.parent b q) k0 d
      rw [hr] at hsp
      rcases hw : optIter (fun q => l'.parent b q) k0 d with _ | w
      · rw [hw] at hsp
        exact absurd hsp.symm (by simp)
      · rw [hw] at hsp
        have hwp : l'.parent b w = some n := hsp.symm
        have hwl := hup w n hwp
        have h2 := inv_parent_desc b l hA w n hwl
        have hwD : ¬(w = node ∨ w ∈ l.descendantsOf b node) := by
          intro hc
          rw [hpar' w, if_pos hc] at hwp
          exact absurd hwp (by simp)
        push_neg at hwD
        rcases hnD with h | h
        · rw [h] at h2
          exact hwD.2 h2
        · exact hwD.2 (inv_desc_trans b l hA w n node h2 h)
  · rw [if_neg hnD]
    push_neg at hnD
    have htransfer : ∀ k, 0 < k →
        optIter (fun q => l.parent b q) k d = some n →
        (∀ t w, t < k → optIter (fun q => l.parent b q) t d = some w →
          ¬(w = node ∨ w ∈ l.descendantsOf b node)) →
        optIter (fun q => l'.parent b q) k d = some n := by
      intro k hk hr hcond
      rw [optIter_congr_on (fun q => l.parent b q)
        (fun q => l'.parent b q) k d ?_]
      · exact hr
      · intro t w ht hw
        show l'.parent b w = l.parent b w
        rw [hpar' w, if_neg (hcond t w ht hw)]
    by_cases hnA : n ∈ A
    · rw [if_pos hnA, Finset.mem_filter, Finset.mem_erase]
      constructor
      · rintro ⟨⟨hdne, hdn⟩, hdD⟩
        obtain ⟨k, hk, hr⟩ := (hA n d).mp hdn
        refine ⟨k, hk, htransfer k hk hr ?_⟩
        rintro t w ht hw (hwn | hwD)
        · rw [hwn] at hw
          rcases Nat.eq_zero_or_pos t with h0 | h0
          · rw [h0] at hw
            exact hdne (Option.some_inj.mp hw)
          · exact hdD ((hA node d).mpr ⟨t, h0, hw⟩)
        · obtain ⟨s, hs, hrs⟩ := (hA node w).mp hwD
          refine hdD ((hA node d).mpr ⟨t + s, by omega, ?_⟩)
          rw [optIter_add, hw]
          exact hrs
      · rintro ⟨k, hk, hr⟩
        have hrl := hsub' k d n hr
        have hdn := (hA n d).mpr ⟨k, hk, hrl⟩
        have hdok : ¬(d = node ∨ d ∈ l.descendantsOf b node) := by
          intro hc
          exact hblock d hc k n hk hr
        push_neg at hdok
        exact ⟨⟨hdok.1, hdn⟩, hdok.2⟩
    · rw [if_neg hnA]
      constructor
      · intro hdn
        obtain ⟨k, hk, hr⟩ := (hA n d).mp hdn
        refine ⟨k, hk, htransfer k hk hr ?_⟩
        rintro t w ht hw (hwn | hwD)
        · rw [hwn] at hw
          -- the chain passes `node` and then reaches n: n is a strict
          -- iterate of node, contradicting n ∉ A
          have hsplit := optIter_add (fun q => l.parent b q) t (k - t) d
          rw [show t + (k - t) = k from by omega, hr, hw] at hsplit
          have hnode : optIter (fun q => l.parent b q) (k - t) node
              = some n := hsplit.symm
          exact hnA ((hAchar n).mpr ⟨k - t, by omega, hnode⟩)
        · -- w ∈ D, so w reaches node; comparing with the continuation to n
          obtain ⟨s1, hs1, hrs1⟩ := (hA node w).mp hwD
          have hsplit := optIter_add (fun q => l.parent b q) t (k - t) d
          rw [show t + (k - t) = k from by omega, hr, hw] at hsplit
          have hwn : optIter (fun q => l.parent b q) (k - t) w = some n :=
            hsplit.symm
          rcases le_or_lt s1 (k - t) with hcmp | hcmp
          · have hsplit2 := optIter_add (fun q => l.parent b q)
              s1 (k - t - s1) w
            rw [show s1 + (k - t - s1) = k - t from by omega, hwn, hrs1]
              at hsplit2
            have hnn : optIter (fun q => l.parent b q) (k - t - s1) node
                = some n := hsplit2.symm
            rcases Nat.eq_zero_or_pos (k - t - s1) with h0 | h0
            · rw [h0] at hnn
              exact hnD.1 (Option.some_inj.mp hnn).symm
            · exact hnA ((hAchar n).mpr ⟨k - t - s1, h0, hnn⟩)
          · have hsplit2 := optIter_add (fun q => l.parent b q)
              (k - t) (s1 - (k - t)) w
            rw [show (k - t) + (s1 - (k - t)) = s1 from by omega, hrs1, hwn]
              at hsplit2
            have hnn : optIter (fun q => l.parent b q) (s1 - (k - t)) n
                = some node := hsplit2.symm
            exact hnD.2 ((hA node n).mpr ⟨s1 - (k - t), by omega, hnn⟩)
      · rintro ⟨k, hk, hr⟩
        exact (hA n d).mpr ⟨k, hk, hsub' k d n hr⟩

/-! ### The invariant after an insert: chain-transfer helpers -/

theorem insert_D_reach (b : Tree) (l : TreeLog) (param : Option ℕ) (c : ℕ)
    (lN : TreeLog)
    (hA : ∀ n d, d ∈ l.descendantsOf b n
      ↔ ∃ k, 0 < k ∧ optIter (fun q => l.parent b q) k d = some n)
    (hC : ∀ n k, 0 < k →
      optIter (fun q => l.parent b q) k n ≠ some n)
    (hpar' : ∀ q, lN.parent b q = if q = c then param else l.parent b q)
    (d : ℕ) (hd : d ∈ l.descendantsOf b c) :
    ∃ k, 0 < k ∧ optIter (fun q => lN.parent b q) k d = some c := by
  obtain ⟨s, hs, hr⟩ := (hA c d).mp hd
  obtain ⟨k, hks, hrk, hmin⟩ := first_arrival (fun q => l.parent b q) d c s hr
  have hkpos : 0 < k := by
    rcases Nat.eq_zero_or_pos k with h0 | h0
    · rw [h0] at hrk
      have hdc : d = c := Option.some_inj.mp hrk
      exact absurd hd (by
        rw [hdc]
        exact inv_not_self_desc b l hA hC c)
    · exact h0
  refine ⟨k, hkpos, ?_⟩
  rw [← optIter_congr_avoid (fun q => lN.parent b q) (fun q => l.parent b q) c
    (fun q hq => by
      show l.parent b q = lN.parent b q
      rw [hpar' q, if_neg hq]) k d hmin]
  exact hrk

theorem insert_no_back_edge (b : Tree) (l : TreeLog) (param : Option ℕ)
    (c : ℕ) (lN : TreeLog)
    (hA : ∀ n d, d ∈ l.descendantsOf b n
      ↔ ∃ k, 0 < k ∧ optIter (fun q => l.parent b q) k d = some n)
    (hC : ∀ n k, 0 < k →
      optIter (fun q => l.parent b q) k n ≠ some n)
    (hCn : ∀ n k, 0 < k →
      optIter (fun q => lN.parent b q) k n ≠ some n)
    (hpar' : ∀ q, lN.parent b q = if q = c then param else l.parent b q)
    (q : ℕ) (hq : q = c ∨ q ∈ l.descendantsOf b c) : param ≠ some q := by
  intro hpq
  have hfc : lN.parent b c = some q := by
    rw [hpar' c, if_pos rfl, hpq]
  rcases hq with hq | hq
  · subst hq
    refine hCn q 1 one_pos ?_
    rw [optIter, hfc]
    rfl
  · obtain ⟨k, hk, hrk⟩ := insert_D_reach b l param c lN hA hC hpar' q hq
    refine hCn c (k + 1) (by omega) ?_
    rw [optIter_head _ _ q k hfc]
    exact hrk

theorem new_chain_cases (b : Tree) (l : TreeLog) (param : Option ℕ)
    (c : ℕ) (lN : TreeLog)
    (hpar' : ∀ q, lN.parent b q = if q = c then param else l.parent b q)
    (k d n : ℕ)
    (hr : optIter (fun q => lN.parent b q) k d = some n) :
    (optIter (fun q => l.parent b q) k d = some n)
    ∨ (∃ t, t < k ∧ optIter (fun q => l.parent b q) t d = some c
        ∧ optIter (fun q => lN.parent b q) (k - t) c = some n) := by
  by_cases hc : ∃ t, t < k ∧ optIter (fun q => lN.parent b q) t d = some c
  · right
    obtain ⟨t0, ht0, hrt0⟩ := hc
    obtain ⟨t, htle, hrt, hmin⟩ :=
      first_arrival (fun q => lN.parent b q) d c t0 hrt0
    refine ⟨t, by omega, ?_, ?_⟩
    · rw [← optIter_congr_avoid (fun q => l.parent b q)
        (fun q => lN.parent b q) c
        (fun q hq => by
          show lN.parent b q = l.parent b q
          rw [hpar' q, if_neg hq]) t d hmin]
      exact hrt
    · have hsplit := optIter_add (fun q => lN.parent b q) t (k - t) d
      rw [show t + (k - t) = k from by omega, hr, hrt] at hsplit
      exact hsplit.symm
  · left
    push_neg at hc
    rw [← optIter_congr_avoid (fun q => l.parent b q)
      (fun q => lN.parent b q) c
      (fun q hq => by
        show lN.parent b q = l.parent b q
        rw [hpar' q, if_neg hq]) k d
      (fun t ht => hc t ht)]
    exact hr

theorem insertedState_hB (b : Tree) (l : TreeLog) (param : Option ℕ)
    (c : ℕ) (lN : TreeLog)
    (hA : ∀ n d, d ∈ l.descendantsOf b n
      ↔ ∃ k, 0 < k ∧ optIter (fun q => l.parent b q) k d = some n)
    (hB : ∀ p c0, c0 ∈ l.childrenOf b p ↔ l.parent b c0 = some p)
    (hC : ∀ n k, 0 < k →
      optIter (fun q => l.parent b q) k n ≠ some n)
    (hCn : ∀ n k, 0 < k →
      optIter (fun q => lN.parent b q) k n ≠ some n)
    (hpar' : ∀ q, lN.parent b q = if q = c then param else l.parent b q)
    (hch' : ∀ q, lN.childrenOf b q
      = if q = c ∨ q ∈ l.descendantsOf b c then l.childrenOf b q
        else if param = some q then insert c (l.childrenOf b q)
        else if some q = l.parent b c then (l.childrenOf b q).erase c
        else l.childrenOf b q) :
    ∀ p' c', c' ∈ lN.childrenOf b p' ↔ lN.parent b c' = some p' := by
  intro p' c'
  rw [hch' p', hpar' c']
  by_cases hp1 : p' = c ∨ p' ∈ l.descendantsOf b c
  · rw [if_pos hp1]
    by_cases hc' : c' = c
    · rw [if_pos hc', hc']
      constructor
      · intro hmem
        exfalso
        have hpc := (hB p' c).mp hmem
        rcases hp1 with h | h
        · subst h
          refine hC p' 1 one_pos ?_
          rw [optIter, hpc]
          rfl
        · obtain ⟨s, hs, hrs⟩ := (hA c p').mp h
          refine hC c (1 + s) (by omega) ?_
          rw [optIter_add, show optIter (fun q => l.parent b q) 1 c
            = some p' from by rw [optIter, hpc]; rfl]
          exact hrs
      · intro hmem
        exact absurd hmem
          (insert_no_back_edge b l param c lN hA hC hCn hpar' p' hp1)
    · rw [if_neg hc']
      exact hB p' c'
  · rw [if_neg hp1]
    by_cases hpq : param = some p'
    · rw [if_pos hpq]
      by_cases hc' : c' = c
      · rw [if_pos hc', hc']
        constructor
        · intro _
          exact hpq
        · intro _
          exact Finset.mem_insert_self c _
      · rw [if_neg hc']
        rw [Finset.mem_insert]
        constructor
        · rintro (h | h)
          · exact absurd h hc'
          · exact (hB p' c').mp h
        · intro h
          exact Or.inr ((hB p' c').mpr h)
    · rw [if_neg hpq]
      by_cases hp0 : some p' = l.parent b c
      · rw [if_pos hp0]
        by_cases hc' : c' = c
        · rw [if_pos hc']
          constructor
          · intro h
            exact absurd rfl (Finset.ne_of_mem_erase (hc' ▸ h))
          · intro h
            exact absurd h hpq
        · rw [if_neg hc', Finset.mem_erase]
          constructor
          · rintro ⟨_, h⟩
            exact (hB p' c').mp h
          · intro h
            exact ⟨hc', (hB p' c').mpr h⟩
      · rw [if_neg hp0]
        by_cases hc' : c' = c
        · rw [if_pos hc', hc']
          constructor
          · intro h
            exact absurd ((hB p' c).mp h).symm hp0
          · intro h
            exact absurd h hpq
        · rw [if_neg hc']
          exact hB p' c'

theorem insertedState_hA (b : Tree) (l : TreeLog) (param : Option ℕ)
    (c : ℕ) (lN : TreeLog) (A NA : Finset ℕ)
    (hA : ∀ n d, d ∈ l.descendantsOf b n
      ↔ ∃ k, 0 < k ∧ optIter (fun q => l.parent b q) k d = some n)
    (hC : ∀ n k, 0 < k →
      optIter (fun q => l.parent b q) k n ≠ some n)
    (hCn : ∀ n k, 0 < k →
      optIter (fun q => lN.parent b q) k n ≠ some n)
    (hpar' : ∀ q, lN.parent b q = if q = c then param else l.parent b q)
    (hds' : ∀ q, lN.descendantsOf b q
      = if q = c then l.descendantsOf b c
        else if q ∈ l.descendantsOf b c then l.descendantsOf b q
        else if q ∈ NA then
          insert c ((if q ∈ A then
              ((l.descendantsOf b q).erase c).filter
                (fun k => k ∉ l.descendantsOf b c)
            else l.descendantsOf b q) ∪ l.descendantsOf b c)
        else if q ∈ A then
          ((l.descendantsOf b q).erase c).filter
            (fun k => k ∉ l.descendantsOf b c)
        else l.descendantsOf b q)
    (hAchar : ∀ w, w ∈ A
      ↔ ∃ s, 0 < s ∧ optIter (fun q => l.parent b q) s c = some w)
    (hNAchar : ∀ w, w ∈ NA
      ↔ ∃ s, 0 < s ∧ optIter (fun q => lN.parent b q) s c = some w) :
    ∀ n d, d ∈ lN.descendantsOf b n
      ↔ ∃ k, 0 < k ∧ optIter (fun q => lN.parent b q) k d = some n := by
  have hON : ∀ k d0, (∀ t, t < k →
      optIter (fun q => l.parent b q) t d0 ≠ some c) →
      optIter (fun q => lN.parent b q) k d0
        = optIter (fun q => l.parent b q) k d0 := by
    intro k d0 hav
    exact (optIter_congr_avoid (fun q => lN.parent b q)
      (fun q => l.parent b q) c
      (fun q hq => by
        show l.parent b q = lN.parent b q
        rw [hpar' q, if_neg hq]) k d0 hav).symm
  intro n d
  rw [hds' n]
  by_cases hnc : n = c
  · rw [if_pos hnc, hnc]
    constructor
    · exact fun hd => insert_D_reach b l param c lN hA hC hpar' d hd
    · rintro ⟨k, hk, hr⟩
      rcases new_chain_cases b l param c lN hpar' k d c hr with
        hold | ⟨t, ht, hoc, hnc2⟩
      · exact (hA c d).mpr ⟨k, hk, hold⟩
      · exact absurd hnc2 (hCn c (k - t) (by omega))
  · rw [if_neg hnc]
    by_cases hnD : n ∈ l.descendantsOf b c
    · rw [if_pos hnD]
      constructor
      · intro hdn
        obtain ⟨k, hk, hr⟩ := (hA n d).mp hdn
        have hav : ∀ t, t < k →
            optIter (fun q => l.parent b q) t d ≠ some c := by
          intro t ht hoc
          have hsplit := optIter_add (fun q => l.parent b q) t (k - t) d
          rw [show t + (k - t) = k from by omega, hr, hoc] at hsplit
          have hcn : optIter (fun q => l.parent b q) (k - t) c = some n :=
            hsplit.symm
          obtain ⟨s, hs, hrs⟩ := (hA c n).mp hnD
          refine hC c ((k - t) + s) (by omega) ?_
          rw [optIter_add (fun q => l.parent b q) (k - t) s c, hcn]
          exact hrs
        refine ⟨k, hk, ?_⟩
        rw [hON k d hav]
        exact hr
      · rintro ⟨k, hk, hr⟩
        rcases new_chain_cases b l param c lN hpar' k d n hr with
          hold | ⟨t, ht, hoc, hnc2⟩
        · exact (hA n d).mpr ⟨k, hk, hold⟩
        · exfalso
          obtain ⟨k0, hk0, hr0⟩ :=
            insert_D_reach b l param c lN hA hC hpar' n hnD
          refine hCn c ((k - t) + k0) (by omega) ?_
          rw [optIter_add (fun q => lN.parent b q) (k - t) k0 c, hnc2]
          exact hr0
    · rw [if_neg hnD]
      by_cases hnNA : n ∈ NA
      · rw [if_pos hnNA, Finset.mem_insert, Finset.mem_union]
        constructor
        · rintro (hdc | hmem | hdD)
          · obtain ⟨s, hs, hrs⟩ := (hNAchar n).mp hnNA
            refine ⟨s, hs, ?_⟩
            rw [hdc]
            exact hrs
          · by_cases hnA : n ∈ A
            · rw [if_pos hnA, Finset.mem_filter, Finset.mem_erase] at hmem
              obtain ⟨⟨hdc, hdn⟩, hdD⟩ := hmem
              obtain ⟨k, hk, hr⟩ := (hA n d).mp hdn
              have hav : ∀ t, t < k →
                  optIter (fun q => l.parent b q) t d ≠ some c := by
                intro t ht hoc
                rcases Nat.eq_zero_or_pos t with h0 | h0
                · rw [h0] at hoc
                  exact hdc (Option.some_inj.mp hoc)
                · exact hdD ((hA c d).mpr ⟨t, h0, hoc⟩)
              refine ⟨k, hk, ?_⟩
              rw [hON k d hav]
              exact hr
            · rw [if_neg hnA] at hmem
              obtain ⟨k, hk, hr⟩ := (hA n d).mp hmem
              have hav : ∀ t, t < k →
                  optIter (fun q => l.parent b q) t d ≠ some c := by
                intro t ht hoc
                have hsplit := optIter_add (fun q => l.parent b q)
                  t (k - t) d
                rw [show t + (k - t) = k from by omega, hr, hoc] at hsplit
                exact hnA ((hAchar n).mpr ⟨k - t, by omega, hsplit.symm⟩)
              refine ⟨k, hk, ?_⟩
              rw [hON k d hav]
              exact hr
          · obtain ⟨k0, hk0, hr0⟩ :=
              insert_D_reach b l param c lN hA hC hpar' d hdD
            obtain ⟨s, hs, hrs⟩ := (hNAchar n).mp hnNA
            refine ⟨k0 + s, by omega, ?_⟩
            rw [optIter_add (fun q => lN.parent b q) k0 s d, hr0]
            exact hrs
        · rintro ⟨k, hk, hr⟩
          by_cases hdc : d = c
          · exact Or.inl hdc
          · by_cases hdD : d ∈ l.descendantsOf b c
            · exact Or.inr (Or.inr hdD)
            · rcases new_chain_cases b l param c lN hpar' k d n hr with
                hold | ⟨t, ht, hoc, hnc2⟩
              · refine Or.inr (Or.inl ?_)
                have hdn := (hA n d).mpr ⟨k, hk, hold⟩
                by_cases hnA : n ∈ A
                · rw [if_pos hnA, Finset.mem_filter, Finset.mem_erase]
                  exact ⟨⟨hdc, hdn⟩, hdD⟩
                · rw [if_neg hnA]
                  exact hdn
              · exfalso
                rcases Nat.eq_zero_or_pos t with h0 | h0
                · rw [h0] at hoc
                  exact hdc (Option.some_inj.mp hoc)
                · exact hdD ((hA c d).mpr ⟨t, h0, hoc⟩)
      · rw [if_neg hnNA]
        by_cases hnA : n ∈ A
        · rw [if_pos hnA, Finset.mem_filter, Finset.mem_erase]
          constructor
          · rintro ⟨⟨hdc, hdn⟩, hdD⟩
            obtain ⟨k, hk, hr⟩ := (hA n d).mp hdn
            have hav : ∀ t, t < k →
                optIter (fun q => l.parent b q) t d ≠ some c := by
              intro t ht hoc
              rcases Nat.eq_zero_or_pos t with h0 | h0
              · rw [h0] at hoc
                exact hdc (Option.some_inj.mp hoc)
              · exact hdD ((hA c d).mpr ⟨t, h0, hoc⟩)
            refine ⟨k, hk, ?_⟩
            rw [hON k d hav]
            exact hr
          · rintro ⟨k, hk, hr⟩
            rcases new_chain_cases b l param c lN hpar' k d n hr with
              hold | ⟨t, ht, hoc, hnc2⟩
            · have hdc : d ≠ c := by
                intro h0
                refine hnNA ((hNAchar n).mpr ⟨k, hk, ?_⟩)
                rw [← h0]
                exact hr
              have hdD : d ∉ l.descendantsOf b c := by
                intro hdD
                obtain ⟨s, hs, hrs⟩ := (hA c d).mp hdD
                obtain ⟨s', hle, hrs', hmin⟩ :=
                  first_arrival (fun q => l.parent b q) d c s hrs
                have hs'pos : 0 < s' := by
                  rcases Nat.eq_zero_or_pos s' with h0 | h0
                  · rw [h0] at hrs'
                    exact absurd (Option.some_inj.mp hrs') hdc
                  · exact h0
                rcases le_or_lt s' k with hcmp | hcmp
                · have hnew : optIter (fun q => lN.parent b q) s' d
                      = some c := by
                    rw [hON s' d hmin]
                    exact hrs'
                  have hsplit := optIter_add (fun q => lN.parent b q)
                    s' (k - s') d
                  rw [show s' + (k - s') = k from by omega, hr, hnew]
                    at hsplit
                  rcases Nat.eq_zero_or_pos (k - s') with h0 | h0
                  · rw [h0] at hsplit
                    exact hnc (Option.some_inj.mp hsplit.symm).symm
                  · exact hnNA ((hNAchar n).mpr ⟨k - s', h0, hsplit.symm⟩)
                · have hsplit := optIter_add (fun q => l.parent b q)
                    k (s' - k) d
                  rw [show k + (s' - k) = s' from by omega, hrs', hold]
                    at hsplit
                  exact hnD ((hA c n).mpr ⟨s' - k, by omega, hsplit.symm⟩)
              exact ⟨⟨hdc, (hA n d).mpr ⟨k, hk, hold⟩⟩, hdD⟩
            · exact absurd ((hNAchar n).mpr ⟨k - t, by omega, hnc2⟩) hnNA
        · rw [if_neg hnA]
          constructor
          · intro hdn
            obtain ⟨k, hk, hr⟩ := (hA n d).mp hdn
            have hav : ∀ t, t < k →
                optIter (fun q => l.parent b q) t d ≠ some c := by
              intro t ht hoc
              have hsplit := optIter_add (fun q => l.parent b q) t (k - t) d
              rw [show t + (k - t) = k from by omega, hr, hoc] at hsplit
              exact hnA ((hAchar n).mpr ⟨k - t, by omega, hsplit.symm⟩)
            refine ⟨k, hk, ?_⟩
            rw [hON k d hav]
            exact hr
          · rintro ⟨k, hk, hr⟩
            rcases new_chain_cases b l param c lN hpar' k d n hr with
              hold | ⟨t, ht, hoc, hnc2⟩
            · exact (hA n d).mpr ⟨k, hk, hold⟩
            · exact absurd ((hNAchar n).mpr ⟨k - t, by omega, hnc2⟩) hnNA

theorem removeImpl_childrenOf_inv (b : Tree) (l : TreeLog) (node : ℕ)
    (hnd : node ∉ l.descendantsOf b node) :
    ∀ q, (removeImpl b l node ∅).1.childrenOf b q
      = if q = node ∨ q ∈ l.descendantsOf b node then ∅
        else if some q = l.parent b node then (l.childrenOf b q).erase node
        else l.childrenOf b q := by
  intro q
  rcases hpnode : l.parent b node with _ | p0
  · rw [removeImpl_childrenOf_none b l node hnd hpnode q]
    by_cases hq : q = node ∨ q ∈ l.descendantsOf b node
    · rw [if_pos hq, if_pos hq]
    · rw [if_neg hq, if_neg hq,
        if_neg (show ¬(some q = none) from by simp)]
  · rw [removeImpl_childrenOf_some b l node p0 hnd hpnode q]
    by_cases hq : q = node ∨ q ∈ l.descendantsOf b node
    · rw [if_pos hq, if_pos hq]
    · rw [if_neg hq, if_neg hq]
      by_cases hqp : q = p0
      · rw [if_pos hqp, if_pos (by rw [hqp])]
      · rw [if_neg hqp, if_neg (fun hc => hqp (Option.some_inj.mp hc))]

theorem removeImpl_descendantsOf_inv (b : Tree) (l : TreeLog) (node : ℕ)
    (hA : ∀ n d, d ∈ l.descendantsOf b n
      ↔ ∃ k, 0 < k ∧ optIter (fun q => l.parent b q) k d = some n)
    (hC : ∀ n k, 0 < k →
      optIter (fun q => l.parent b q) k n ≠ some n) :
    ∃ (A : Finset ℕ),
      (∀ q, (removeImpl b l node ∅).1.descendantsOf b q
        = if q = node ∨ q ∈ l.descendantsOf b node then ∅
          else if q ∈ A then
            ((l.descendantsOf b q).erase node).filter
              (fun k => k ∉ l.descendantsOf b node)
          else l.descendantsOf b q)
      ∧ (∀ w, w ∈ A
        ↔ ∃ s, 0 < s ∧ optIter (fun q => l.parent b q) s node = some w) := by
  have hnd : node ∉ l.descendantsOf b node := inv_not_self_desc b l hA hC node
  rcases hpnode : l.parent b node with _ | p0
  · refine ⟨∅, ?_, ?_⟩
    · intro q
      rw [removeImpl_descendantsOf_none b l node hnd hpnode q]
      by_cases hq : q = node ∨ q ∈ l.descendantsOf b node
      · rw [if_pos hq, if_pos hq]
      · rw [if_neg hq, if_neg hq, if_neg (Finset.not_mem_empty q)]
    · intro w
      simp only [Finset.not_mem_empty, false_iff]
      rintro ⟨s, hs, hr⟩
      rcases s with _ | s0
      · omega
      · rw [optIter_head_none _ _ s0 hpnode] at hr
        exact absurd hr (by simp)
  · obtain ⟨x, m, hx0, hstep, hterm, hdist, hval, huniq⟩ :=
      chain_data b l hC p0
    subst hx0
    have hnotD : ∀ i, i ≤ m → x i ∉ l.descendantsOf b node := by
      intro i hi hc
      obtain ⟨s, hs, hr⟩ := (hA node (x i)).mp hc
      have h1 : optIter (fun q => l.parent b q) (i + 1) node
          = some (x i) := by
        rw [optIter_head _ _ (x 0) i hpnode]
        exact hval i hi
      refine hC node (i + 1 + s) (by omega) ?_
      rw [optIter_add, h1]
      exact hr
    refine ⟨(Finset.Icc 0 m).image x, ?_, ?_⟩
    · exact removeImpl_descendantsOf_some b l node x m hnd hpnode
        (fun i hi => by
          rw [if_neg (hnotD i (by omega)), hstep i hi])
        (by
          by_cases hm : x m ∈ l.descendantsOf b node
          · rw [if_pos hm]
          · rw [if_neg hm, hterm])
        hdist
    · intro w
      constructor
      · intro hw
        obtain ⟨i, hi, hxi⟩ := Finset.mem_image.mp hw
        refine ⟨i + 1, by omega, ?_⟩
        rw [optIter_head _ _ (x 0) i hpnode]
        rw [show w = x i from hxi.symm]
        exact hval i (Finset.mem_Icc.mp hi).2
      · rintro ⟨s, hs, hr⟩
        rcases s with _ | s0
        · omega
        · rw [optIter_head _ _ (x 0) s0 hpnode] at hr
          obtain ⟨hsm, hws⟩ := huniq s0 w hr
          exact Finset.mem_image.mpr
            ⟨s0, Finset.mem_Icc.mpr ⟨by omega, hsm⟩, hws.symm⟩

theorem remove_TreeInv (b : Tree) (l : TreeLog) (node : ℕ)
    (hinv : TreeInv b l) : TreeInv b (l.remove b node) := by
  obtain ⟨hA, hB, hC, hE⟩ := hinv
  have hnd : node ∉ l.descendantsOf b node := inv_not_self_desc b l hA hC node
  have hpar' : ∀ q, (removeImpl b l node ∅).1.parent b q
      = if q = node ∨ q ∈ l.descendantsOf b node then none
        else l.parent b q := fun q => removeImpl_parent b l node ∅ q
  have hch' := removeImpl_childrenOf_inv b l node hnd
  obtain ⟨A, hds', hAchar⟩ := removeImpl_descendantsOf_inv b l node hA hC
  have hA' := removedState_hA b l node (removeImpl b l node ∅).1 A
    hA hC hpar' hds' hAchar
  have hB' := removedState_hB b l node (removeImpl b l node ∅).1
    hA hB hC hpar' hch'
  have hup : ∀ q y, (removeImpl b l node ∅).1.parent b q = some y →
      l.parent b q = some y := by
    intro q y h
    rw [hpar' q] at h
    by_cases hq : q = node ∨ q ∈ l.descendantsOf b node
    · rw [if_pos hq] at h
      exact absurd h (by simp)
    · rw [if_neg hq] at h
      exact h
  have hC' : ∀ n k, 0 < k →
      optIter (fun q => (removeImpl b l node ∅).1.parent b q) k n
        ≠ some n := by
    intro n k hk hr
    exact hC n k hk (optIter_sub _ _ hup k n n hr)
  have hrm : l.remove b node = ((removeImpl b l node ∅).1.setCycles ∅) := by
    show ((removeImpl b l node ∅).1.setCycles
        ∅).parents.keyList.foldl (fun acc n => detectAndMarkCycles b acc n)
        ((removeImpl b l node ∅).1.setCycles ∅)
      = ((removeImpl b l node ∅).1.setCycles ∅)
    exact detectFold_acyclic b _ _ hC'
  rw [hrm]
  exact ⟨fun n d => hA' n d, fun p c => hB' p c, fun n k hk => hC' n k hk, rfl⟩

theorem insert_TreeInv (b : Tree) (l : TreeLog) (param : Option ℕ) (c : ℕ)
    (hinv : TreeInv b l)
    (hE' : (l.insert b param c).cyclesView b = ∅) :
    TreeInv b (l.insert b param c) := by
  obtain ⟨hA, hB, hC, hE⟩ := hinv
  have hCn : ∀ n k, 0 < k →
      optIter (fun q => (l.insert b param c).parent b q) k n ≠ some n := by
    intro n k hk hret
    have hm : cycleMarked b l := fun n0 k0 hk0 hret0 =>
      absurd hret0 (hC n0 k0 hk0)
    have hmem := insert_cycleMarked b l param c hm n k hk hret
    rw [hE'] at hmem
    exact absurd hmem (Finset.not_mem_empty n)
  have hpar' : ∀ q, (l.insert b param c).parent b q
      = if q = c then param else l.parent b q :=
    fun q => insert_parent b l param c q
  by_cases h0 : l.parent b c = param
  · have hid : l.insert b param c = l := by
      unfold TreeLog.insert
      rw [if_pos h0]
    rw [hid] at hE' ⊢
    exact ⟨hA, hB, hC, hE'⟩
  · have hnd : c ∉ l.descendantsOf b c := inv_not_self_desc b l hA hC c
    have hdef : l.insert b param c
        = detectAndMarkCycles b
            (reparentSubtree b (removeImpl b l c ∅).1 param c
              (removeImpl b l c ∅).2.1) c := by
      unfold TreeLog.insert
      rw [if_neg h0]
    have hCrep : ∀ n k, 0 < k →
        optIter (fun q => (reparentSubtree b (removeImpl b l c ∅).1 param c
          (removeImpl b l c ∅).2.1).parent b q) k n ≠ some n := by
      intro n k hk hret
      refine hCn n k hk ?_
      rw [hdef]
      exact (optIter_congr _ _ (fun q => detect_parent b _ c q) k n).trans hret
    have hins : l.insert b param c
        = reparentSubtree b (removeImpl b l c ∅).1 param c
            (removeImpl b l c ∅).2.1 := by
      rw [hdef]
      exact detect_acyclic b _ hCrep c
    have hdl : ∀ q, (((removeImpl b l c ∅).2.1).del c).lookup q
        = if q ∈ l.descendantsOf b c then
            some ⟨l.childrenOf b q, l.descendantsOf b q, l.parent b q⟩
          else none := by
      intro q
      by_cases hq : q = c
      · rw [hq, FMap.lookup_del_self, if_neg hnd]
      · rw [FMap.lookup_del_ne _ _ _ hq, removeImpl_removed b l c ∅ q,
          if_neg hq]
    have hkeys : ∀ q, q ∈ (((removeImpl b l c ∅).2.1).del c).keys
        ↔ q ∈ l.descendantsOf b c := by
      intro q
      rw [FMap.mem_keys_iff_lookup_isSome, hdl q]
      by_cases hq : q ∈ l.descendantsOf b c
      · simp [hq]
      · simp [hq]
    have hroot : (((removeImpl b l c ∅).2.1).lookup c).getD default
        = (⟨l.childrenOf b c, l.descendantsOf b c, l.parent b c⟩
            : RemoveItem) := by
      rw [removeImpl_removed b l c ∅ c, if_pos rfl, if_neg hnd]
      rfl
    have hchR := removeImpl_childrenOf_inv b l c hnd
    obtain ⟨A, hdsR, hAchar⟩ := removeImpl_descendantsOf_inv b l c hA hC
    have hfresh : ∀ q, (q = c ∨ q ∈ l.descendantsOf b c) →
        param ≠ some q :=
      fun q hq => insert_no_back_edge b l param c (l.insert b param c)
        hA hC hCn hpar' q hq
    have hch' : ∀ q, (l.insert b param c).childrenOf b q
        = if q = c ∨ q ∈ l.descendantsOf b c then l.childrenOf b q
          else if param = some q then insert c (l.childrenOf b q)
          else if some q = l.parent b c then (l.childrenOf b q).erase c
          else l.childrenOf b q := by
      intro q
      rw [hins]
      rcases param with _ | p
      · rw [reparent_childrenOf_none b (removeImpl b l c ∅).1 c
          (removeImpl b l c ∅).2.1 q]
        by_cases h1 : q = c ∨ q ∈ l.descendantsOf b c
        · rw [if_pos h1]
          rcases h1 with h1 | h1
          · have hk : ¬ q ∈ (((removeImpl b l c ∅).2.1).del c).keys := by
              rw [hkeys q, h1]
              exact hnd
            rw [if_neg hk, if_pos h1, hroot, h1]
          · have hk : q ∈ (((removeImpl b l c ∅).2.1).del c).keys :=
              (hkeys q).mpr h1
            have hlq : ((((removeImpl b l c ∅).2.1).del c).lookup q)
                = some ⟨l.childrenOf b q, l.descendantsOf b q,
                    l.parent b q⟩ := by
              rw [hdl q, if_pos h1]
            rw [if_pos hk, hlq]
            rfl
        · rw [if_neg h1,
            if_neg (show ¬((none : Option ℕ) = some q) from by simp)]
          push_neg at h1
          have hk : ¬ q ∈ (((removeImpl b l c ∅).2.1).del c).keys :=
            fun hc => h1.2 ((hkeys q).mp hc)
          rw [if_neg hk, if_neg h1.1, hchR q,
            if_neg (not_or.mpr ⟨h1.1, h1.2⟩)]
      · rw [reparent_childrenOf_some b (removeImpl b l c ∅).1 p c
          (removeImpl b l c ∅).2.1 q]
        have hpfresh : ¬(p = c ∨ p ∈ l.descendantsOf b c) :=
          fun hc => hfresh p hc rfl
        by_cases h1 : q = c ∨ q ∈ l.descendantsOf b c
        · rw [if_pos h1]
          rcases h1 with h1 | h1
          · have hk : ¬ q ∈ (((removeImpl b l c ∅).2.1).del c).keys := by
              rw [hkeys q, h1]
              exact hnd
            rw [if_neg hk, if_pos h1, hroot, h1]
          · have hk : q ∈ (((removeImpl b l c ∅).2.1).del c).keys :=
              (hkeys q).mpr h1
            have hlq : ((((removeImpl b l c ∅).2.1).del c).lookup q)
                = some ⟨l.childrenOf b q, l.descendantsOf b q,
                    l.parent b q⟩ := by
              rw [hdl q, if_pos h1]
            rw [if_pos hk, hlq]
            rfl
        · rw [if_neg h1]
          push_neg at h1
          have hk : ¬ q ∈ (((removeImpl b l c ∅).2.1).del c).keys :=
            fun hc => h1.2 ((hkeys q).mp hc)
          rw [if_neg hk, if_neg h1.1]
          by_cases hqp : (some p : Option ℕ) = some q
          · have hpq : q = p := (Option.some_inj.mp hqp).symm
            rw [if_pos hqp, if_pos hpq, hchR p,
              if_neg hpfresh,
              if_neg (show ¬(some p = l.parent b c) from
                fun hc => h0 (hc.symm.trans rfl))]
            rw [hpq]
          · rw [if_neg hqp,
              if_neg (show ¬(q = p) from
                fun hc => hqp (by rw [hc])),
              hchR q, if_neg (not_or.mpr ⟨h1.1, h1.2⟩)]
    have hNAD : ∃ (NA : Finset ℕ),
        (∀ q, (l.insert b param c).descendantsOf b q
          = if q = c then l.descendantsOf b c
            else if q ∈ l.descendantsOf b c then l.descendantsOf b q
            else if q ∈ NA then
              insert c ((if q ∈ A then
                  ((l.descendantsOf b q).erase c).filter
                    (fun k => k ∉ l.descendantsOf b c)
                else l.descendantsOf b q) ∪ l.descendantsOf b c)
            else if q ∈ A then
              ((l.descendantsOf b q).erase c).filter
                (fun k => k ∉ l.descendantsOf b c)
            else l.descendantsOf b q)
        ∧ (∀ w, w ∈ NA ↔ ∃ s, 0 < s ∧
            optIter (fun q => (l.insert b param c).parent b q) s c
              = some w) := by
      rcases param with _ | p
      · refine ⟨∅, ?_, ?_⟩
        · intro q
          rw [hins]
          rw [reparent_descendantsOf_none b (removeImpl b l c ∅).1 c
            (removeImpl b l c ∅).2.1 q]
          by_cases h1 : q = c
          · have hk : ¬ q ∈ (((removeImpl b l c ∅).2.1).del c).keys := by
              rw [hkeys q, h1]
              exact hnd
            rw [if_neg hk, if_pos h1, hroot, if_pos h1]
          · rw [if_neg h1]
            by_cases h2 : q ∈ l.descendantsOf b c
            · have hk : q ∈ (((removeImpl b l c ∅).2.1).del c).keys :=
                (hkeys q).mpr h2
              have hlq : ((((removeImpl b l c ∅).2.1).del c).lookup q)
                  = some ⟨l.childrenOf b q, l.descendantsOf b q,
                      l.parent b q⟩ := by
                rw [hdl q, if_pos h2]
              rw [if_pos hk, hlq, if_pos h2, if_neg h1]
              rfl
            · have hk : ¬ q ∈ (((removeImpl b l c ∅).2.1).del c).keys :=
                fun hc => h2 ((hkeys q).mp hc)
              rw [if_neg hk, if_neg h1, if_neg h2,
                if_neg (Finset.not_mem_empty q), hdsR q,
                if_neg (not_or.mpr ⟨h1, h2⟩)]
        · intro w
          simp only [Finset.not_mem_empty, false_iff]
          rintro ⟨s, hs, hr⟩
          rcases s with _ | s0
          · omega
          · rw [optIter_head_none _ _ s0
              (by rw [hpar' c, if_pos rfl])] at hr
            exact absurd hr (by simp)
      · have hpfresh : ¬(p = c ∨ p ∈ l.descendantsOf b c) :=
          fun hc => hfresh p hc rfl
        obtain ⟨x, m, hx0, hstep, hterm, hdist, hval, huniq⟩ :=
          chain_data b l hC p
        subst hx0
        have hfc : (l.insert b (some (x 0)) c).parent b c = some (x 0) := by
          rw [hpar' c, if_pos rfl]
        have hxfree : ∀ i, i ≤ m →
            ¬(x i = c ∨ x i ∈ l.descendantsOf b c) := by
          intro i
          induction i with
          | zero => exact fun _ => hpfresh
          | succ j ih =>
              intro hj
              have hprev := ih (by omega)
              push_neg at hprev
              have hstepj := hstep j (by omega)
              rintro (hc1 | hc1)
              · refine hprev.2 ((hA c (x j)).mpr ⟨1, one_pos, ?_⟩)
                rw [optIter_head _ _ (x (j + 1)) 0 hstepj, hc1]
                rfl
              · obtain ⟨s, hs, hrs⟩ := (hA c (x (j + 1))).mp hc1
                refine hprev.2 ((hA c (x j)).mpr ⟨s + 1, by omega, ?_⟩)
                rw [optIter_head _ _ (x (j + 1)) s hstepj]
                exact hrs
        have hstepR : ∀ i, i < m →
            (if x i = c then some (x 0)
              else (removeImpl b l c ∅).1.parent b (x i))
              = some (x (i + 1)) := by
          intro i hi
          have hfi := hxfree i (by omega)
          push_neg at hfi
          rw [if_neg hfi.1, removeImpl_parent b l c ∅ (x i),
            if_neg (not_or.mpr ⟨hfi.1, hfi.2⟩)]
          exact hstep i hi
        have htermR : (if x m = c then some (x 0)
            else (removeImpl b l c ∅).1.parent b (x m)) = none := by
          have hfm := hxfree m (le_refl m)
          push_neg at hfm
          rw [if_neg hfm.1, removeImpl_parent b l c ∅ (x m),
            if_neg (not_or.mpr ⟨hfm.1, hfm.2⟩)]
          exact hterm
        refine ⟨(Finset.Icc 0 m).image x, ?_, ?_⟩
        · intro q
          rw [hins]
          rw [reparent_descendantsOf_some b (removeImpl b l c ∅).1 (x 0) c
            (removeImpl b l c ∅).2.1 x m rfl hstepR htermR hdist q]
          by_cases h1 : q = c
          · have hk : ¬ q ∈ (((removeImpl b l c ∅).2.1).del c).keys := by
              rw [hkeys q, h1]
              exact hnd
            rw [if_neg hk, if_pos h1, hroot, if_pos h1]
          · rw [if_neg h1]
            by_cases h2 : q ∈ l.descendantsOf b c
            · have hk : q ∈ (((removeImpl b l c ∅).2.1).del c).keys :=
                (hkeys q).mpr h2
              have hlq : ((((removeImpl b l c ∅).2.1).del c).lookup q)
                  = some ⟨l.childrenOf b q, l.descendantsOf b q,
                      l.parent b q⟩ := by
                rw [hdl q, if_pos h2]
              rw [if_pos hk, hlq, if_pos h2, if_neg h1]
              rfl
            · have hk : ¬ q ∈ (((removeImpl b l c ∅).2.1).del c).keys :=
                fun hc => h2 ((hkeys q).mp hc)
              rw [if_neg hk, if_neg h1, if_neg h2]
              by_cases h3 : q ∈ (Finset.Icc 0 m).image x
              · rw [if_pos h3, if_pos h3, hroot, hdsR q,
                  if_neg (not_or.mpr ⟨h1, h2⟩)]
              · rw [if_neg h3, if_neg h3, hdsR q,
                  if_neg (not_or.mpr ⟨h1, h2⟩)]
        · intro w
          constructor
          · intro hw
            obtain ⟨i, hi, hxi⟩ := Finset.mem_image.mp hw
            have him : i ≤ m := (Finset.mem_Icc.mp hi).2
            refine ⟨i + 1, by omega, ?_⟩
            rw [optIter_head _ _ (x 0) i hfc]
            have havoid : ∀ t, t < i →
                optIter (fun q0 => l.parent b q0) t (x 0) ≠ some c := by
              intro t ht hoc
              obtain ⟨htm, hwc⟩ := huniq t c hoc
              have hft := hxfree t htm
              push_neg at hft
              exact hft.1 hwc.symm
            rw [← optIter_congr_avoid
              (fun q0 => (l.insert b (some (x 0)) c).parent b q0)
              (fun q0 => l.parent b q0) c
              (fun q0 hq0 => by
                show l.parent b q0 = (l.insert b (some (x 0)) c).parent b q0
                rw [hpar' q0, if_neg hq0]) i (x 0) havoid]
            rw [show w = x i from hxi.symm]
            exact hval i him
          · rintro ⟨s, hs, hr⟩
            rcases s with _ | s0
            · omega
            · rw [optIter_head _ _ (x 0) s0 hfc] at hr
              have havoid : ∀ t, t < s0 →
                  optIter (fun q0 =>
                    (l.insert b (some (x 0)) c).parent b q0) t (x 0)
                    ≠ some c := by
                intro t ht hoc
                refine hCn c (t + 1) (by omega) ?_
                rw [optIter_head _ _ (x 0) t hfc]
                exact hoc
              rw [optIter_congr_avoid
                (fun q0 => l.parent b q0)
                (fun q0 => (l.insert b (some (x 0)) c).parent b q0) c
                (fun q0 hq0 => by
                  show (l.insert b (some (x 0)) c).parent b q0
                    = l.parent b q0
                  rw [hpar' q0, if_neg hq0]) s0 (x 0) havoid] at hr
              obtain ⟨hsm, hws⟩ := huniq s0 w hr
              exact Finset.mem_image.mpr
                ⟨s0, Finset.mem_Icc.mpr ⟨by omega, hsm⟩, hws.symm⟩
    obtain ⟨NA, hds', hNAchar⟩ := hNAD
    exact ⟨insertedState_hA b l param c (l.insert b param c) A NA
        hA hC hCn hpar' hds' hAchar hNAchar,
      insertedState_hB b l param c (l.insert b param c)
        hA hB hC hCn hpar' hch',
      hCn, hE'⟩

/-! ### The invariant across `Tree::apply` and at the initial state -/

theorem apply_TreeInv (b : Tree) (l : TreeLog) (hinv : TreeInv b l) :
    TreeInv (b.applyLog l).1 TreeLog.new := by
  obtain ⟨hA, hB, hC, hE⟩ := hinv
  have hp : ∀ q, TreeLog.new.parent (b.applyLog l).1 q = l.parent b q :=
    fun q => (newLog_parent (b.applyLog l).1 q).trans (applyLog_parent b l q)
  have hceq : ∀ k n, optIter
      (fun q => TreeLog.new.parent (b.applyLog l).1 q) k n
      = optIter (fun q => l.parent b q) k n :=
    fun k n => optIter_congr _ _ hp k n
  refine ⟨?_, ?_, ?_, ?_⟩
  · intro n d
    rw [newLog_descendantsOf (b.applyLog l).1 n, applyLog_descendantsOf b l n]
    rw [show (∃ k, 0 < k ∧ optIter
        (fun q => TreeLog.new.parent (b.applyLog l).1 q) k d = some n)
        ↔ (∃ k, 0 < k ∧ optIter (fun q => l.parent b q) k d = some n) from by
      constructor
      · rintro ⟨k, hk, hr⟩
        rw [hceq k d] at hr
        exact ⟨k, hk, hr⟩
      · rintro ⟨k, hk, hr⟩
        refine ⟨k, hk, ?_⟩
        rw [hceq k d]
        exact hr]
    exact hA n d
  · intro p c
    rw [newLog_childrenOf (b.applyLog l).1 p, applyLog_childrenOf b l p,
      hp c]
    exact hB p c
  · intro n k hk
    rw [hceq k n]
    exact hC n k hk
  · rw [newLog_cyclesView (b.applyLog l).1, applyLog_cycles b l]
    exact hE

theorem new_TreeInv : TreeInv Tree.new TreeLog.new := by
  have hp : ∀ q, TreeLog.new.parent Tree.new q = none := by
    intro q
    rw [newLog_parent Tree.new q]
    exact FMap.lookup_empty _ _
  refine ⟨?_, ?_, ?_, ?_⟩
  · intro n d
    constructor
    · intro hd
      exfalso
      rw [newLog_descendantsOf Tree.new n] at hd
      have : Tree.new.descendantsOf n = ∅ := rfl
      rw [this] at hd
      exact Finset.not_mem_empty d hd
    · rintro ⟨k, hk, hr⟩
      exfalso
      rcases k with _ | k0
      · omega
      · rw [optIter_head_none _ _ k0 (hp d)] at hr
        exact absurd hr (by simp)
  · intro p c
    constructor
    · intro hmem
      exfalso
      rw [newLog_childrenOf Tree.new p] at hmem
      have : Tree.new.childrenOf p = ∅ := rfl
      rw [this] at hmem
      exact Finset.not_mem_empty c hmem
    · intro hmem
      rw [hp c] at hmem
      exact absurd hmem (by simp)
  · intro n k hk hr
    rcases k with _ | k0
    · omega
    · rw [optIter_head_none _ _ k0 (hp n)] at hr
      exact absurd hr (by simp)
  · rfl

/-! ### Reachability in the cycle-free regime and the closure law -/

theorem acyclic_of_decreasing (g : ℕ → Option ℕ)
    (hdec : ∀ n p, g n = some p → p < n) :
    ∀ n k, 0 < k → optIter g k n ≠ some n := by
  have key : ∀ k n m, optIter g k n = some m → m ≤ n ∧ (0 < k → m < n) := by
    intro k
    induction k with
    | zero =>
        intro n m h
        have hnm : n = m := Option.some_inj.mp h
        exact ⟨le_of_eq hnm.symm, fun hc => absurd hc (by omega)⟩
    | succ k ih =>
        intro n m h
        rcases hg : g n with _ | p
        · rw [optIter_head_none _ _ k hg] at h
          exact absurd h (by simp)
        · rw [optIter_head _ _ p k hg] at h
          have hp := hdec n p hg
          obtain ⟨h1, _⟩ := ih p m h
          exact ⟨by omega, fun _ => by omega⟩
  intro n k hk hr
  have := (key k n n hr).2 hk
  omega

theorem insert_acyclic_cyclesView (b : Tree) (l : TreeLog) (p : Option ℕ)
    (c : ℕ) (hE : l.cyclesView b = ∅)
    (hg : ∀ n k, 0 < k →
      optIter (fun q => if q = c then p else l.parent b q) k n ≠ some n) :
    (l.insert b p c).cyclesView b = ∅ := by
  by_cases h0 : l.parent b c = p
  · have hid : l.insert b p c = l := by
      unfold TreeLog.insert
      rw [if_pos h0]
    rw [hid]
    exact hE
  · have hdef : l.insert b p c
        = detectAndMarkCycles b
            (reparentSubtree b (removeImpl b l c ∅).1 p c
              (removeImpl b l c ∅).2.1) c := by
      unfold TreeLog.insert
      rw [if_neg h0]
    have hrepar : ∀ q, (reparentSubtree b (removeImpl b l c ∅).1 p c
        (removeImpl b l c ∅).2.1).parent b q
        = if q = c then p else l.parent b q := by
      intro q
      have h1 := insert_parent b l p c q
      rw [hdef] at h1
      exact (detect_parent b _ c q).symm.trans h1
    have hCrep : ∀ n k, 0 < k →
        optIter (fun q => (reparentSubtree b (removeImpl b l c ∅).1 p c
          (removeImpl b l c ∅).2.1).parent b q) k n ≠ some n := by
      intro n k hk hret
      refine hg n k hk ?_
      exact (optIter_congr _ _ hrepar k n).symm.trans hret
    rw [hdef, detect_acyclic b _ hCrep c]
    unfold TreeLog.cyclesView
    rw [reparent_cycles b (removeImpl b l c ∅).1 p c
      (removeImpl b l c ∅).2.1, removeImpl_cycles b l c ∅]
    unfold TreeLog.cyclesView at hE
    exact hE

/-- The `(base, log)` tree states reachable from the empty base and empty
log by `TreeLog::insert` calls that leave the cycles view empty,
`TreeLog::remove` calls, and `Tree::apply` of the accumulated log. -/
inductive ReachedAcyclic : Tree → TreeLog → Prop where
  | base : ReachedAcyclic Tree.new TreeLog.new
  | ins : ∀ b l p c, ReachedAcyclic b l →
      (l.insert b p c).cyclesView b = ∅ →
      ReachedAcyclic b (l.insert b p c)
  | rem : ∀ b l n, ReachedAcyclic b l → ReachedAcyclic b (l.remove b n)
  | app : ∀ b l, ReachedAcyclic b l →
      ReachedAcyclic (b.applyLog l).1 TreeLog.new

theorem reachedAcyclic_TreeInv (b : Tree) (l : TreeLog)
    (h : ReachedAcyclic b l) : TreeInv b l := by
  induction h with
  | base => exact new_TreeInv
  | ins b l p c _ hE' ih => exact insert_TreeInv b l p c ih hE'
  | rem b l n _ ih => exact remove_TreeInv b l n ih
  | app b l _ ih => exact apply_TreeInv b l ih

/-- **C1** (corrected). In every tree state reached from an empty base
`Tree` and empty `TreeLog` by `TreeLog::insert` calls each of which leaves
the cycles view empty, by `TreeLog::remove` calls, and by `Tree::apply` of
such logs, the overlay read `descendants(n)` equals the union over the
children `c` of `n` of `{c} ∪ descendants(c)`.  (As originally stated -
with cycle-creating inserts allowed along the way as long as the final
cycles view is empty - the claim fails; the restriction to runs whose
inserts never mark a cycle is what the counterexample forces.) -/
theorem c1_closure_amended (b : Tree) (l : TreeLog)
    (hreach : ReachedAcyclic b l) (n : ℕ) :
    l.descendantsOf b n
      = (l.childrenOf b n).biUnion
          (fun c => insert c (l.descendantsOf b c)) := by
  obtain ⟨hA, hB, _, _⟩ := reachedAcyclic_TreeInv b l hreach
  exact closure_of_inv b l hA hB n

/-- Witness for the amended C1: the chain `2 → 1`, `3 → 2` built by two
inserts satisfies the closure law. -/
theorem c1_closure_amended_witness :
    ((TreeLog.new.insert Tree.new (some 1) 2).insert Tree.new
        (some 2) 3).descendantsOf Tree.new 1
      = ((((TreeLog.new.insert Tree.new (some 1) 2).insert Tree.new
            (some 2) 3).childrenOf Tree.new 1).biUnion
          (fun c => insert c (((TreeLog.new.insert Tree.new (some 1) 2).insert
            Tree.new (some 2) 3).descendantsOf Tree.new c))) := by
  have hq : ∀ q, TreeLog.new.parent Tree.new q = none := by
    intro q
    rw [newLog_parent Tree.new q]
    exact FMap.lookup_empty _ _
  have hp1 : ∀ q, (TreeLog.new.insert Tree.new (some 1) 2).parent Tree.new q
      = if q = 2 then some 1 else none := by
    intro q
    rw [insert_parent Tree.new TreeLog.new (some 1) 2 q, hq q]
  have hE1 : ((TreeLog.new.insert Tree.new (some 1) 2).cyclesView
      Tree.new) = ∅ := by
    refine insert_acyclic_cyclesView Tree.new TreeLog.new (some 1) 2 rfl
      (acyclic_of_decreasing _ ?_)
    intro n p h
    by_cases h2 : n = 2
    · rw [if_pos h2] at h
      have : p = 1 := Option.some_inj.mp h.symm
      omega
    · rw [if_neg h2, hq n] at h
      exact absurd h (by simp)
  have hE2 : (((TreeLog.new.insert Tree.new (some 1) 2).insert Tree.new
      (some 2) 3).cyclesView Tree.new) = ∅ := by
    refine insert_acyclic_cyclesView Tree.new
      (TreeLog.new.insert Tree.new (some 1) 2) (some 2) 3 hE1
      (acyclic_of_decreasing _ ?_)
    intro n p h
    by_cases h3 : n = 3
    · rw [if_pos h3] at h
      have : p = 2 := Option.some_inj.mp h.symm
      omega
    · rw [if_neg h3, hp1 n] at h
      by_cases h2 : n = 2
      · rw [if_pos h2] at h
        have : p = 1 := Option.some_inj.mp h.symm
        omega
      · rw [if_neg h2] at h
        exact absurd h (by simp)
  exact c1_closure_amended Tree.new
    ((TreeLog.new.insert Tree.new (some 1) 2).insert Tree.new (some 2) 3)
    (ReachedAcyclic.ins Tree.new (TreeLog.new.insert Tree.new (some 1) 2)
      (some 2) 3
      (ReachedAcyclic.ins Tree.new TreeLog.new (some 1) 2
        ReachedAcyclic.base hE1) hE2) 1

/-! ### C2: the item walks and the coverage law -/

theorem directItemsOf_setDirect (log : NodeSetIndexLog) (base : NodeSetIndex)
    (n : ℕ) (s : Finset ℕ) (q : ℕ) :
    (log.setDirect n s).directItemsOf base q
      = if q = n then s else log.directItemsOf base q := by
  unfold NodeSetIndexLog.directItemsOf NodeSetIndexLog.setDirect
  by_cases h : q = n
  · subst h
    rw [FMap.lookup_ins_self, if_pos rfl]
    rfl
  · rw [FMap.lookup_ins_ne _ _ _ _ h, if_neg h]

theorem subtreeItemsOf_setDirect (log : NodeSetIndexLog)
    (base : NodeSetIndex) (n : ℕ) (s : Finset ℕ) (q : ℕ) :
    (log.setDirect n s).subtreeItemsOf base q
      = log.subtreeItemsOf base q := rfl

theorem subtreeItemsOf_setSubtree (log : NodeSetIndexLog)
    (base : NodeSetIndex) (n : ℕ) (s : Finset ℕ) (q : ℕ) :
    (log.setSubtree n s).subtreeItemsOf base q
      = if q = n then s else log.subtreeItemsOf base q := by
  unfold NodeSetIndexLog.subtreeItemsOf NodeSetIndexLog.setSubtree
  by_cases h : q = n
  · subst h
    rw [FMap.lookup_ins_self, if_pos rfl]
    rfl
  · rw [FMap.lookup_ins_ne _ _ _ _ h, if_neg h]

theorem itemInsertWalk_nil (base : NodeSetIndex) (bt : Tree) (lt : TreeLog)
    (item : ℕ) : ∀ fuel (l : NodeSetIndexLog) (vis : Finset ℕ),
    itemInsertWalk base bt lt item fuel l vis [] = l := by
  intro fuel l vis
  cases fuel with
  | zero => rfl
  | succ f => rfl

theorem itemRemoveWalk_nil (base : NodeSetIndex) (bt : Tree) (lt : TreeLog)
    (item : ℕ) : ∀ fuel (l : NodeSetIndexLog) (vis : Finset ℕ),
    itemRemoveWalk base bt lt item fuel l vis [] = l := by
  intro fuel l vis
  cases fuel with
  | zero => rfl
  | succ f => rfl

theorem itemInsertWalk_effect (base : NodeSetIndex) (bt : Tree)
    (lt : TreeLog) (item : ℕ) (x : ℕ → ℕ) (m : ℕ)
    (hstep : ∀ i, i < m → lt.parent bt (x i) = some (x (i + 1)))
    (hterm : lt.parent bt (x m) = none)
    (hdist : ∀ i j, i ≤ m → j ≤ m → x i = x j → i = j) :
    ∀ fuel t (l : NodeSetIndexLog), t ≤ m → m + 1 - t ≤ fuel →
      ((itemInsertWalk base bt lt item fuel l
          ((Finset.range t).image x) [x t]).directItems = l.directItems)
      ∧ (∀ q, (itemInsertWalk base bt lt item fuel l
          ((Finset.range t).image x) [x t]).subtreeItemsOf base q
        = if q ∈ (Finset.Icc t m).image x
          then insert item (l.subtreeItemsOf base q)
          else l.subtreeItemsOf base q) := by
  intro fuel
  induction fuel with
  | zero =>
      intro t l ht hfu
      exact absurd hfu (by omega)
  | succ f ih =>
      intro t l ht hfu
      rw [itemInsertWalk]
      have hnmem : x t ∉ (Finset.range t).image x := by
        intro hc
        obtain ⟨i, hi, hix⟩ := Finset.mem_image.mp hc
        have h2 := Finset.mem_range.mp hi
        have := hdist i t (by omega) ht hix
        omega
      rw [if_neg hnmem]
      dsimp only
      rw [show insert (x t) ((Finset.range t).image x)
          = (Finset.range (t + 1)).image x from by
        rw [Finset.range_succ, Finset.image_insert]]
      by_cases htm : t = m
      · subst htm
        rw [hterm]
        dsimp only
        rw [itemInsertWalk_nil]
        refine ⟨rfl, ?_⟩
        intro q
        rw [subtreeItemsOf_setSubtree]
        by_cases hqx : q = x t
        · have hmem : q ∈ (Finset.Icc t t).image x :=
            Finset.mem_image.mpr
              ⟨t, Finset.mem_Icc.mpr ⟨le_refl t, le_refl t⟩, hqx.symm⟩
          rw [if_pos hqx, if_pos hmem, hqx]
        · have hnot : ¬ q ∈ (Finset.Icc t t).image x := by
            intro hc
            obtain ⟨i, hi, hix⟩ := Finset.mem_image.mp hc
            obtain ⟨h1, h2⟩ := Finset.mem_Icc.mp hi
            have : i = t := by omega
            exact hqx (by rw [← hix, this])
          rw [if_neg hqx, if_neg hnot]
      · have htlt : t < m := by omega
        rw [hstep t htlt]
        dsimp only
        obtain ⟨ihd, ihs⟩ := ih (t + 1)
          (l.setSubtree (x t) (insert item (l.subtreeItemsOf base (x t))))
          (by omega) (by omega)
        refine ⟨by rw [ihd]; rfl, ?_⟩
        intro q
        rw [ihs q]
        by_cases hqx : q = x t
        · have hnoti : ¬ q ∈ (Finset.Icc (t + 1) m).image x := by
            intro hc
            obtain ⟨i, hi, hix⟩ := Finset.mem_image.mp hc
            obtain ⟨h1, h2⟩ := Finset.mem_Icc.mp hi
            have := hdist i t (by omega) (by omega) (by rw [hix, hqx])
            omega
          have hmem : q ∈ (Finset.Icc t m).image x :=
            Finset.mem_image.mpr
              ⟨t, Finset.mem_Icc.mpr ⟨le_refl t, by omega⟩, hqx.symm⟩
          rw [if_neg hnoti, subtreeItemsOf_setSubtree, if_pos hqx,
            if_pos hmem, hqx]
        · by_cases hqi : q ∈ (Finset.Icc (t + 1) m).image x
          · have hmem : q ∈ (Finset.Icc t m).image x := by
              obtain ⟨i, hi, hix⟩ := Finset.mem_image.mp hqi
              obtain ⟨h1, h2⟩ := Finset.mem_Icc.mp hi
              exact Finset.mem_image.mpr
                ⟨i, Finset.mem_Icc.mpr ⟨by omega, h2⟩, hix⟩
            rw [if_pos hqi, subtreeItemsOf_setSubtree, if_neg hqx,
              if_pos hmem]
          · have hnot : ¬ q ∈ (Finset.Icc t m).image x := by
              intro hc
              obtain ⟨i, hi, hix⟩ := Finset.mem_image.mp hc
              obtain ⟨h1, h2⟩ := Finset.mem_Icc.mp hi
              rcases Nat.eq_or_lt_of_le h1 with h | h
              · exact hqx (by rw [← hix, ← h])
              · exact hqi (Finset.mem_image.mpr
                  ⟨i, Finset.mem_Icc.mpr ⟨by omega, h2⟩, hix⟩)
            rw [if_neg hqi, subtreeItemsOf_setSubtree, if_neg hqx,
              if_neg hnot]

theorem itemRemoveWalk_effect (base : NodeSetIndex) (bt : Tree)
    (lt : TreeLog) (item : ℕ) (x : ℕ → ℕ) (m : ℕ)
    (hstep : ∀ i, i < m → lt.parent bt (x i) = some (x (i + 1)))
    (hterm : lt.parent bt (x m) = none)
    (hdist : ∀ i j, i ≤ m → j ≤ m → x i = x j → i = j) :
    ∀ fuel t (l : NodeSetIndexLog), t ≤ m → m + 1 - t ≤ fuel →
      ((itemRemoveWalk base bt lt item fuel l
          ((Finset.range t).image x) [x t]).directItems = l.directItems)
      ∧ (∀ q, (itemRemoveWalk base bt lt item fuel l
          ((Finset.range t).image x) [x t]).subtreeItemsOf base q
        = if q ∈ (Finset.Icc t m).image x
          then (l.subtreeItemsOf base q).erase item
          else l.subtreeItemsOf base q) := by
  intro fuel
  induction fuel with
  | zero =>
      intro t l ht hfu
      exact absurd hfu (by omega)
  | succ f ih =>
      intro t l ht hfu
      rw [itemRemoveWalk]
      have hnmem : x t ∉ (Finset.range t).image x := by
        intro hc
        obtain ⟨i, hi, hix⟩ := Finset.mem_image.mp hc
        have h2 := Finset.mem_range.mp hi
        have := hdist i t (by omega) ht hix
        omega
      rw [if_neg hnmem]
      dsimp only
      rw [show insert (x t) ((Finset.range t).image x)
          = (Finset.range (t + 1)).image x from by
        rw [Finset.range_succ, Finset.image_insert]]
      by_cases htm : t = m
      · subst htm
        rw [hterm]
        dsimp only
        rw [itemRemoveWalk_nil]
        refine ⟨rfl, ?_⟩
        intro q
        rw [subtreeItemsOf_setSubtree]
        by_cases hqx : q = x t
        · have hmem : q ∈ (Finset.Icc t t).image x :=
            Finset.mem_image.mpr
              ⟨t, Finset.mem_Icc.mpr ⟨le_refl t, le_refl t⟩, hqx.symm⟩
          rw [if_pos hqx, if_pos hmem, hqx]
        · have hnot : ¬ q ∈ (Finset.Icc t t).image x := by
            intro hc
            obtain ⟨i, hi, hix⟩ := Finset.mem_image.mp hc
            obtain ⟨h1, h2⟩ := Finset.mem_Icc.mp hi
            have : i = t := by omega
            exact hqx (by rw [← hix, this])
          rw [if_neg hqx, if_neg hnot]
      · have htlt : t < m := by omega
        rw [hstep t htlt]
        dsimp only
        have hnmem2 : x (t + 1) ∉ (Finset.range (t + 1)).image x := by
          intro hc
          obtain ⟨i, hi, hix⟩ := Finset.mem_image.mp hc
          have h2 := Finset.mem_range.mp hi
          have := hdist i (t + 1) (by omega) (by omega) hix
          omega
        rw [if_neg hnmem2]
        obtain ⟨ihd, ihs⟩ := ih (t + 1)
          (l.setSubtree (x t) ((l.subtreeItemsOf base (x t)).erase item))
          (by omega) (by omega)
        refine ⟨by rw [ihd]; rfl, ?_⟩
        intro q
        rw [ihs q]
        by_cases hqx : q = x t
        · have hnoti : ¬ q ∈ (Finset.Icc (t + 1) m).image x := by
            intro hc
            obtain ⟨i, hi, hix⟩ := Finset.mem_image.mp hc
            obtain ⟨h1, h2⟩ := Finset.mem_Icc.mp hi
            have := hdist i t (by omega) (by omega) (by rw [hix, hqx])
            omega
          have hmem : q ∈ (Finset.Icc t m).image x :=
            Finset.mem_image.mpr
              ⟨t, Finset.mem_Icc.mpr ⟨le_refl t, by omega⟩, hqx.symm⟩
          rw [if_neg hnoti, subtreeItemsOf_setSubtree, if_pos hqx,
            if_pos hmem, hqx]
        · by_cases hqi : q ∈ (Finset.Icc (t + 1) m).image x
          · have hmem : q ∈ (Finset.Icc t m).image x := by
              obtain ⟨i, hi, hix⟩ := Finset.mem_image.mp hqi
              obtain ⟨h1, h2⟩ := Finset.mem_Icc.mp hi
              exact Finset.mem_image.mpr
                ⟨i, Finset.mem_Icc.mpr ⟨by omega, h2⟩, hix⟩
            rw [if_pos hqi, subtreeItemsOf_setSubtree, if_neg hqx,
              if_pos hmem]
          · have hnot : ¬ q ∈ (Finset.Icc t m).image x := by
              intro hc
              obtain ⟨i, hi, hix⟩ := Finset.mem_image.mp hc
              obtain ⟨h1, h2⟩ := Finset.mem_Icc.mp hi
              rcases Nat.eq_or_lt_of_le h1 with h | h
              · exact hqx (by rw [← hix, ← h])
              · exact hqi (Finset.mem_image.mpr
                  ⟨i, Finset.mem_Icc.mpr ⟨by omega, h2⟩, hix⟩)
            rw [if_neg hqi, subtreeItemsOf_setSubtree, if_neg hqx,
              if_neg hnot]

theorem biUnion_update_mem (s : Finset ℕ) (f : ℕ → Finset ℕ) (a it : ℕ)
    (ha : a ∈ s) :
    s.biUnion (fun d => if d = a then insert it (f d) else f d)
      = insert it (s.biUnion f) := by
  ext z
  simp only [Finset.mem_biUnion, Finset.mem_insert]
  constructor
  · rintro ⟨d, hd, hz⟩
    by_cases hda : d = a
    · rw [if_pos hda] at hz
      rcases Finset.mem_insert.mp hz with h | h
      · exact Or.inl h
      · exact Or.inr ⟨d, hd, h⟩
    · rw [if_neg hda] at hz
      exact Or.inr ⟨d, hd, hz⟩
  · rintro (hz | ⟨d, hd, hz⟩)
    · refine ⟨a, ha, ?_⟩
      rw [if_pos rfl]
      exact Finset.mem_insert.mpr (Or.inl hz)
    · refine ⟨d, hd, ?_⟩
      by_cases hda : d = a
      · rw [if_pos hda]
        exact Finset.mem_insert.mpr (Or.inr hz)
      · rw [if_neg hda]
        exact hz

theorem biUnion_update_not_mem (s : Finset ℕ) (f : ℕ → Finset ℕ)
    (a it : ℕ) (ha : a ∉ s) :
    s.biUnion (fun d => if d = a then insert it (f d) else f d)
      = s.biUnion f := by
  refine Finset.biUnion_congr rfl ?_
  intro d hd
  have hda : d ≠ a := by
    intro hc
    rw [hc] at hd
    exact ha hd
  rw [if_neg hda]

theorem biUnion_erase_mem (s : Finset ℕ) (f : ℕ → Finset ℕ) (a it : ℕ)
    (ha : a ∈ s) (hother : ∀ d, d ∈ s → d ≠ a → it ∉ f d) :
    s.biUnion (fun d => if d = a then (f d).erase it else f d)
      = (s.biUnion f).erase it := by
  ext z
  simp only [Finset.mem_biUnion, Finset.mem_erase]
  constructor
  · rintro ⟨d, hd, hz⟩
    by_cases hda : d = a
    · rw [if_pos hda] at hz
      obtain ⟨hz1, hz2⟩ := Finset.mem_erase.mp hz
      exact ⟨hz1, d, hd, hz2⟩
    · rw [if_neg hda] at hz
      refine ⟨?_, d, hd, hz⟩
      intro hzit
      exact hother d hd hda (hzit ▸ hz)
  · rintro ⟨hz1, d, hd, hz⟩
    refine ⟨d, hd, ?_⟩
    by_cases hda : d = a
    · rw [if_pos hda]
      exact Finset.mem_erase.mpr ⟨hz1, hz⟩
    · rw [if_neg hda]
      exact hz

theorem biUnion_erase_not_mem (s : Finset ℕ) (f : ℕ → Finset ℕ)
    (a it : ℕ) (ha : a ∉ s) :
    s.biUnion (fun d => if d = a then (f d).erase it else f d)
      = s.biUnion f := by
  refine Finset.biUnion_congr rfl ?_
  intro d hd
  have hda : d ≠ a := by
    intro hc
    rw [hc] at hd
    exact ha hd
  rw [if_neg hda]

theorem ItemsInv_insert (bt : Tree) (lt : TreeLog)
    (hTI : TreeInv bt lt) (base : NodeSetIndex) (log : NodeSetIndexLog)
    (node item : ℕ)
    (hcov : ∀ n, log.subtreeItemsOf base n
      = (Insert.insert n (lt.descendantsOf bt n)).biUnion
          (fun d => log.directItemsOf base d))
    (huniq : ∀ it q1 q2, it ∈ log.directItemsOf base q1 →
      it ∈ log.directItemsOf base q2 → q1 = q2)
    (hone : ∀ q, q ≠ node → item ∉ log.directItemsOf base q) :
    (∀ n, (log.insert base bt lt node item).subtreeItemsOf base n
      = (Insert.insert n (lt.descendantsOf bt n)).biUnion
          (fun d => (log.insert base bt lt node item).directItemsOf base d))
    ∧ (∀ it q1 q2,
      it ∈ (log.insert base bt lt node item).directItemsOf base q1 →
      it ∈ (log.insert base bt lt node item).directItemsOf base q2 →
      q1 = q2) := by
  obtain ⟨hA, hB, hC, hE⟩ := hTI
  unfold NodeSetIndexLog.insert
  dsimp only
  by_cases hmem : item ∈ log.directItemsOf base node
  · rw [if_pos hmem]
    have hdir : ∀ q, (log.setDirect node
        (Insert.insert item (log.directItemsOf base node))).directItemsOf
          base q = log.directItemsOf base q := by
      intro q
      rw [directItemsOf_setDirect]
      by_cases hq : q = node
      · rw [if_pos hq, hq, Finset.insert_eq_self.mpr hmem]
      · rw [if_neg hq]
    constructor
    · intro n
      rw [subtreeItemsOf_setDirect, hcov n]
      exact Finset.biUnion_congr rfl (fun d _ => (hdir d).symm)
    · intro it q1 q2 h1 h2
      rw [hdir q1] at h1
      rw [hdir q2] at h2
      exact huniq it q1 q2 h1 h2
  · rw [if_neg hmem]
    obtain ⟨x, m, hx0, hstep, hterm, hdist, hval, huniqc⟩ :=
      chain_data bt lt hC node
    subst hx0
    have hbound : m ≤ bt.parents.keys.length + lt.parents.keys.length :=
      orbit_card_le bt lt x m (fun i hi => hstep i hi)
        (fun i j hi hj => hdist i j (by omega) (by omega))
    obtain ⟨hwd, hws⟩ := itemInsertWalk_effect base bt lt item x m
      hstep hterm hdist (fuelFor bt lt) 0
      (log.setDirect (x 0)
        (Insert.insert item (log.directItemsOf base (x 0))))
      (by omega) (by unfold fuelFor; omega)
    rw [show ((Finset.range 0).image x) = (∅ : Finset ℕ) from by simp]
      at hwd hws
    have hread : ∀ (w1 w2 : NodeSetIndexLog),
        w1.directItems = w2.directItems →
        ∀ q, w1.directItemsOf base q = w2.directItemsOf base q := by
      intro w1 w2 h q
      unfold NodeSetIndexLog.directItemsOf
      rw [h]
    have hdir : ∀ q, (itemInsertWalk base bt lt item (fuelFor bt lt)
        (log.setDirect (x 0)
          (Insert.insert item (log.directItemsOf base (x 0)))) ∅
        [x 0]).directItemsOf base q
        = if q = x 0 then Insert.insert item (log.directItemsOf base (x 0))
          else log.directItemsOf base q := by
      intro q
      rw [hread _ _ hwd q, directItemsOf_setDirect]
    have hsub : ∀ q, (itemInsertWalk base bt lt item (fuelFor bt lt)
        (log.setDirect (x 0)
          (Insert.insert item (log.directItemsOf base (x 0)))) ∅
        [x 0]).subtreeItemsOf base q
        = if q ∈ (Finset.Icc 0 m).image x
          then insert item (log.subtreeItemsOf base q)
          else log.subtreeItemsOf base q := by
      intro q
      rw [hws q, subtreeItemsOf_setDirect]
    have hanc : ∀ n, x 0 ∈ Insert.insert n (lt.descendantsOf bt n)
        ↔ n ∈ (Finset.Icc 0 m).image x := by
      intro n
      rw [Finset.mem_insert]
      constructor
      · rintro (h | h)
        · exact Finset.mem_image.mpr
            ⟨0, Finset.mem_Icc.mpr ⟨le_refl 0, by omega⟩, h⟩
        · obtain ⟨s, hs, hr⟩ := (hA n (x 0)).mp h
          obtain ⟨hsm, hns⟩ := huniqc s n hr
          exact Finset.mem_image.mpr
            ⟨s, Finset.mem_Icc.mpr ⟨by omega, hsm⟩, hns.symm⟩
      · intro h
        obtain ⟨i, hi, hix⟩ := Finset.mem_image.mp h
        rcases Nat.eq_zero_or_pos i with h0 | h0
        · left
          rw [← hix, h0]
        · right
          refine (hA n (x 0)).mpr ⟨i, h0, ?_⟩
          rw [hval i (Finset.mem_Icc.mp hi).2, hix]
    constructor
    · intro n
      rw [hsub n]
      rw [Finset.biUnion_congr rfl
        (fun d _ => show (itemInsertWalk base bt lt item (fuelFor bt lt)
          (log.setDirect (x 0)
            (Insert.insert item (log.directItemsOf base (x 0)))) ∅
          [x 0]).directItemsOf base d
          = if d = x 0 then insert item (log.directItemsOf base d)
            else log.directItemsOf base d from by
          rw [hdir d]
          by_cases hd : d = x 0
          · rw [if_pos hd, if_pos hd, hd]
          · rw [if_neg hd, if_neg hd])]
      by_cases hn : n ∈ (Finset.Icc 0 m).image x
      · rw [if_pos hn,
          biUnion_update_mem _ _ _ _ ((hanc n).mpr hn), hcov n]
      · rw [if_neg hn,
          biUnion_update_not_mem _ _ _ _ (fun hc => hn ((hanc n).mp hc)),
          hcov n]
    · intro it q1 q2 h1 h2
      rw [hdir q1] at h1
      rw [hdir q2] at h2
      by_cases hq1 : q1 = x 0
      · rw [if_pos hq1] at h1
        by_cases hq2 : q2 = x 0
        · rw [hq1, hq2]
        · rw [if_neg hq2] at h2
          rcases Finset.mem_insert.mp h1 with h | h
          · exact absurd (h ▸ h2) (hone q2 hq2)
          · rw [hq1]
            exact huniq it (x 0) q2 h h2
      · rw [if_neg hq1] at h1
        by_cases hq2 : q2 = x 0
        · rw [if_pos hq2] at h2
          rcases Finset.mem_insert.mp h2 with h | h
          · exact absurd (h ▸ h1) (hone q1 hq1)
          · rw [hq2]
            exact huniq it q1 (x 0) h1 h
        · rw [if_neg hq2] at h2
          exact huniq it q1 q2 h1 h2

theorem ItemsInv_remove (bt : Tree) (lt : TreeLog)
    (hTI : TreeInv bt lt) (base : NodeSetIndex) (log : NodeSetIndexLog)
    (node item : ℕ)
    (hcov : ∀ n, log.subtreeItemsOf base n
      = (Insert.insert n (lt.descendantsOf bt n)).biUnion
          (fun d => log.directItemsOf base d))
    (huniq : ∀ it q1 q2, it ∈ log.directItemsOf base q1 →
      it ∈ log.directItemsOf base q2 → q1 = q2) :
    (∀ n, (log.remove base bt lt node item).subtreeItemsOf base n
      = (Insert.insert n (lt.descendantsOf bt n)).biUnion
          (fun d => (log.remove base bt lt node item).directItemsOf base d))
    ∧ (∀ it q1 q2,
      it ∈ (log.remove base bt lt node item).directItemsOf base q1 →
      it ∈ (log.remove base bt lt node item).directItemsOf base q2 →
      q1 = q2) := by
  obtain ⟨hA, hB, hC, hE⟩ := hTI
  unfold NodeSetIndexLog.remove
  dsimp only
  by_cases hmem : item ∈ log.directItemsOf base node
  · rw [if_neg (not_not.mpr hmem)]
    obtain ⟨x, m, hx0, hstep, hterm, hdist, hval, huniqc⟩ :=
      chain_data bt lt hC node
    subst hx0
    have hbound : m ≤ bt.parents.keys.length + lt.parents.keys.length :=
      orbit_card_le bt lt x m (fun i hi => hstep i hi)
        (fun i j hi hj => hdist i j (by omega) (by omega))
    obtain ⟨hwd, hws⟩ := itemRemoveWalk_effect base bt lt item x m
      hstep hterm hdist (fuelFor bt lt) 0
      (log.setDirect (x 0) ((log.directItemsOf base (x 0)).erase item))
      (by omega) (by unfold fuelFor; omega)
    rw [show ((Finset.range 0).image x) = (∅ : Finset ℕ) from by simp]
      at hwd hws
    have hread : ∀ (w1 w2 : NodeSetIndexLog),
        w1.directItems = w2.directItems →
        ∀ q, w1.directItemsOf base q = w2.directItemsOf base q := by
      intro w1 w2 h q
      unfold NodeSetIndexLog.directItemsOf
      rw [h]
    have hdir : ∀ q, (itemRemoveWalk base bt lt item (fuelFor bt lt)
        (log.setDirect (x 0)
          ((log.directItemsOf base (x 0)).erase item)) ∅
        [x 0]).directItemsOf base q
        = if q = x 0 then (log.directItemsOf base (x 0)).erase item
          else log.directItemsOf base q := by
      intro q
      rw [hread _ _ hwd q, directItemsOf_setDirect]
    have hsub : ∀ q, (itemRemoveWalk base bt lt item (fuelFor bt lt)
        (log.setDirect (x 0)
          ((log.directItemsOf base (x 0)).erase item)) ∅
        [x 0]).subtreeItemsOf base q
        = if q ∈ (Finset.Icc 0 m).image x
          then (log.subtreeItemsOf base q).erase item
          else log.subtreeItemsOf base q := by
      intro q
      rw [hws q, subtreeItemsOf_setDirect]
    have hanc : ∀ n, x 0 ∈ Insert.insert n (lt.descendantsOf bt n)
        ↔ n ∈ (Finset.Icc 0 m).image x := by
      intro n
      rw [Finset.mem_insert]
      constructor
      · rintro (h | h)
        · exact Finset.mem_image.mpr
            ⟨0, Finset.mem_Icc.mpr ⟨le_refl 0, by omega⟩, h⟩
        · obtain ⟨s, hs, hr⟩ := (hA n (x 0)).mp h
          obtain ⟨hsm, hns⟩ := huniqc s n hr
          exact Finset.mem_image.mpr
            ⟨s, Finset.mem_Icc.mpr ⟨by omega, hsm⟩, hns.symm⟩
      · intro h
        obtain ⟨i, hi, hix⟩ := Finset.mem_image.mp h
        rcases Nat.eq_zero_or_pos i with h0 | h0
        · left
          rw [← hix, h0]
        · right
          refine (hA n (x 0)).mpr ⟨i, h0, ?_⟩
          rw [hval i (Finset.mem_Icc.mp hi).2, hix]
    constructor
    · intro n
      rw [hsub n]
      rw [Finset.biUnion_congr rfl
        (fun d _ => show (itemRemoveWalk base bt lt item (fuelFor bt lt)
          (log.setDirect (x 0)
            ((log.directItemsOf base (x 0)).erase item)) ∅
          [x 0]).directItemsOf base d
          = if d = x 0 then (log.directItemsOf base d).erase item
            else log.directItemsOf base d from by
          rw [hdir d]
          by_cases hd : d = x 0
          · rw [if_pos hd, if_pos hd, hd]
          · rw [if_neg hd, if_neg hd])]
      by_cases hn : n ∈ (Finset.Icc 0 m).image x
      · rw [if_pos hn,
          biUnion_erase_mem _ _ _ _ ((hanc n).mpr hn)
            (fun d _ hd hitd => hd (huniq item d (x 0) hitd hmem)),
          hcov n]
      · rw [if_neg hn,
          biUnion_erase_not_mem _ _ _ _ (fun hc => hn ((hanc n).mp hc)),
          hcov n]
    · intro it q1 q2 h1 h2
      rw [hdir q1] at h1
      rw [hdir q2] at h2
      have h1' : it ∈ log.directItemsOf base q1 := by
        by_cases hq1 : q1 = x 0
        · rw [if_pos hq1] at h1
          rw [hq1]
          exact Finset.mem_of_mem_erase h1
        · rw [if_neg hq1] at h1
          exact h1
      have h2' : it ∈ log.directItemsOf base q2 := by
        by_cases hq2 : q2 = x 0
        · rw [if_pos hq2] at h2
          rw [hq2]
          exact Finset.mem_of_mem_erase h2
        · rw [if_neg hq2] at h2
          exact h2
      exact huniq it q1 q2 h1' h2'
  · rw [if_pos hmem]
    have hdir : ∀ q, (log.setDirect node
        ((log.directItemsOf base node).erase item)).directItemsOf
          base q = log.directItemsOf base q := by
      intro q
      rw [directItemsOf_setDirect]
      by_cases hq : q = node
      · rw [if_pos hq, hq, Finset.erase_eq_of_not_mem hmem]
      · rw [if_neg hq]
    constructor
    · intro n
      rw [subtreeItemsOf_setDirect, hcov n]
      exact Finset.biUnion_congr rfl (fun d _ => (hdir d).symm)
    · intro it q1 q2 h1 h2
      rw [hdir q1] at h1
      rw [hdir q2] at h2
      exact huniq it q1 q2 h1 h2

/-- The item states reachable from an empty `NodeSetIndex` and empty
`NodeSetIndexLog` over a fixed tree, by `NodeSetIndexLog::insert` calls
that place an item only at the node currently holding it (or at a fresh
node) and by arbitrary `NodeSetIndexLog::remove` calls. -/
inductive ReachedItems (bt : Tree) (lt : TreeLog) :
    NodeSetIndexLog → Prop where
  | base : ReachedItems bt lt NodeSetIndexLog.new
  | ins : ∀ log node item, ReachedItems bt lt log →
      (∀ q, q ≠ node → item ∉ log.directItemsOf NodeSetIndex.new q) →
      ReachedItems bt lt (log.insert NodeSetIndex.new bt lt node item)
  | rem : ∀ log node item, ReachedItems bt lt log →
      ReachedItems bt lt (log.remove NodeSetIndex.new bt lt node item)

theorem reachedItems_inv (bt : Tree) (lt : TreeLog) (hTI : TreeInv bt lt)
    (log : NodeSetIndexLog) (hreach : ReachedItems bt lt log) :
    (∀ n, log.subtreeItemsOf NodeSetIndex.new n
      = (Insert.insert n (lt.descendantsOf bt n)).biUnion
          (fun d => log.directItemsOf NodeSetIndex.new d))
    ∧ (∀ it q1 q2, it ∈ log.directItemsOf NodeSetIndex.new q1 →
      it ∈ log.directItemsOf NodeSetIndex.new q2 → q1 = q2) := by
  induction hreach with
  | base =>
      have hd0 : ∀ q,
          NodeSetIndexLog.new.directItemsOf NodeSetIndex.new q = ∅ := by
        intro q
        unfold NodeSetIndexLog.directItemsOf NodeSetIndexLog.new
          NodeSetIndex.directItemsOf NodeSetIndex.new
        rfl
      have hs0 : ∀ q,
          NodeSetIndexLog.new.subtreeItemsOf NodeSetIndex.new q = ∅ := by
        intro q
        unfold NodeSetIndexLog.subtreeItemsOf NodeSetIndexLog.new
          NodeSetIndex.subtreeItemsOf NodeSetIndex.new
        rfl
      constructor
      · intro n
        rw [hs0 n]
        ext z
        simp only [Finset.not_mem_empty, false_iff, Finset.mem_biUnion]
        rintro ⟨d, hd, hz⟩
        rw [hd0 d] at hz
        exact Finset.not_mem_empty z hz
      · intro it q1 q2 h1 _
        rw [hd0 q1] at h1
        exact absurd h1 (Finset.not_mem_empty it)
  | ins log node item _ hone ih =>
      exact ItemsInv_insert bt lt hTI NodeSetIndex.new log node item
        ih.1 ih.2 hone
  | rem log node item _ ih =>
      exact ItemsInv_remove bt lt hTI NodeSetIndex.new log node item
        ih.1 ih.2

/-- **C2** (corrected).  Over a tree built first and kept cycle-free (a
state of the `ReachedAcyclic` regime, left fixed during the item
operations), and for item states reached from an empty `NodeSetIndex` and
empty `NodeSetIndexLog` by `NodeSetIndexLog::insert` calls that never
place an item on a second node while it is still held elsewhere and by
arbitrary `NodeSetIndexLog::remove` calls, every tree node `n` satisfies
the coverage law: the overlay read `subtree_items(n)` equals the union of
`direct_items(d)` over all `d` in `descendants_with_self(n)`.  (As
originally stated the claim fails: with the same item inserted at two
sibling nodes, removing it at one strips it from every ancestor's subtree
set even though the other node still holds it.) -/
theorem c2_subtree_coverage_amended (bt : Tree) (lt : TreeLog)
    (hT : ReachedAcyclic bt lt) (log : NodeSetIndexLog)
    (hreach : ReachedItems bt lt log) (n : ℕ) :
    log.subtreeItemsOf NodeSetIndex.new n
      = (Insert.insert n (lt.descendantsOf bt n)).biUnion
          (fun d => log.directItemsOf NodeSetIndex.new d) :=
  (reachedItems_inv bt lt (reachedAcyclic_TreeInv bt lt hT) log hreach).1 n

/-- Witness for the amended C2: tree `2 → 1` built by one cycle-free
insert, item `9` placed at node `2`; the coverage law holds at node `1`. -/
theorem c2_subtree_coverage_amended_witness :
    (NodeSetIndexLog.new.insert NodeSetIndex.new Tree.new
        (TreeLog.new.insert Tree.new (some 1) 2) 2 9).subtreeItemsOf
        NodeSetIndex.new 1
      = (Insert.insert 1 ((TreeLog.new.insert Tree.new
            (some 1) 2).descendantsOf Tree.new 1)).biUnion
          (fun d => (NodeSetIndexLog.new.insert NodeSetIndex.new Tree.new
            (TreeLog.new.insert Tree.new (some 1) 2) 2 9).directItemsOf
            NodeSetIndex.new d) := by
  have hq : ∀ q, TreeLog.new.parent Tree.new q = none := by
    intro q
    rw [newLog_parent Tree.new q]
    exact FMap.lookup_empty _ _
  have hE1 : ((TreeLog.new.insert Tree.new (some 1) 2).cyclesView
      Tree.new) = ∅ := by
    refine insert_acyclic_cyclesView Tree.new TreeLog.new (some 1) 2 rfl
      (acyclic_of_decreasing _ ?_)
    intro n p h
    by_cases h2 : n = 2
    · rw [if_pos h2] at h
      have : p = 1 := Option.some_inj.mp h.symm
      omega
    · rw [if_neg h2, hq n] at h
      exact absurd h (by simp)
  have hone : ∀ q, q ≠ 2 →
      (9 : ℕ) ∉ NodeSetIndexLog.new.directItemsOf NodeSetIndex.new q := by
    intro q _ h
    exact Finset.not_mem_empty 9 h
  exact c2_subtree_coverage_amended Tree.new
    (TreeLog.new.insert Tree.new (some 1) 2)
    (ReachedAcyclic.ins Tree.new TreeLog.new (some 1) 2
      ReachedAcyclic.base hE1)
    (NodeSetIndexLog.new.insert NodeSetIndex.new Tree.new
      (TreeLog.new.insert Tree.new (some 1) 2) 2 9)
    (ReachedItems.ins NodeSetIndexLog.new 2 9 ReachedItems.base hone) 1

end FastSet
